import Mathlib

set_option linter.dupNamespace false

/-!
# allot: command templates with typed placeholders

A shallow embedding of the Go package `allot` (`command.go`, `parameter.go`, `match.go`).

* Go strings are modelled as lists of Unicode code points (`Str`), i.e. as valid UTF-8 text.
* A Go call ends in one of three ways: it returns a value, it returns an `error`, or it panics.
  `Outcome` keeps the three apart.
* The package `regexp` of the Go standard library is not part of the repository.  The functions of
  the repository take it as a parameter (`Engine`); `goRegexp` further down is a model of it for a
  subset of the RE2 syntax.  Statements that hold whatever the expressions mean are proved for
  every `Engine`; statements about what an expression matches or captures are proved for
  `goRegexp`.
* `strconv.Atoi`, which `Match.Integer` calls, is modelled after `strconv.ParseInt` for an `int`
  of 64 bits.
-/

namespace Allot

/-- Go strings, as lists of code points. -/
abbrev Str := List Char

/-- The kinds of run-time panic the package can raise. -/
inductive PanicKind where
  | nilDereference
  | indexOutOfRange
  | mustCompile
  deriving DecidableEq, Repr

/-- Error codes of `regexp/syntax`, with the offending text dropped. -/
inductive RegexError where
  | missingBracket
  | missingParen
  | unexpectedParen
  | missingRepeatArgument
  | invalidRepeatOp
  | invalidEscape
  | trailingBackslash
  | invalidCharRange
  | unsupported
  deriving DecidableEq, Repr

/-- The `error` values of the package, and `numError` for the `*strconv.NumError` that
`Match.Integer` passes on: `range` is set for `ErrRange` and unset for `ErrSyntax`. -/
inductive Err where
  | undefinedType (data : Str)
  | duplicateParameter (name : Str)
  | regex (e : RegexError)
  | noMatch
  | unknownParameter (name : Str)
  | unableToParse
  | noParameterAt (position : Int)
  | numError (range : Bool) (num : Str)
  deriving DecidableEq, Repr

/-- How a Go call ends: a value, an `error`, or a panic. -/
inductive Outcome (α : Type) where
  | ok (a : α)
  | error (e : Err)
  | panic (k : PanicKind)
  deriving DecidableEq, Repr

/-- Whether the call returned a value. -/
def Outcome.isOk {α : Type} : Outcome α → Bool
  | .ok _ => true
  | _ => false

/-- Whether the call returned an `error`. -/
def Outcome.isError {α : Type} : Outcome α → Bool
  | .error _ => true
  | _ => false

/-- Whether the call panicked. -/
def Outcome.isPanic {α : Type} : Outcome α → Bool
  | .panic _ => true
  | _ => false

/-! ## The parts of `strings` and `regexp` that are plain text processing -/

/-- Body of `strings.Replace(s, old, new, -1)` for a non-empty `old`: `skip` counts the characters
of the occurrence being replaced that are still to be dropped. -/
def replaceGo (old new : Str) : Nat → Str → Str
  | _, [] => []
  | skip + 1, _ :: cs => replaceGo old new skip cs
  | 0, c :: cs =>
    if old.isPrefixOf (c :: cs) then new ++ replaceGo old new (old.length - 1) cs
    else c :: replaceGo old new 0 cs

/-- The Go call `strings.Replace(s, old, new, -1)`: every non-overlapping occurrence of `old`,
found left to right, is replaced by `new`.  For an empty `old` Go inserts `new` before every
code point and at the end. -/
def stringsReplace (s old new : Str) : Str :=
  if old = [] then new ++ s.flatMap (fun c => c :: new) else replaceGo old new 0 s

/-- The Go call `strings.Split(s, sep)` for a separator of one character. -/
def stringsSplit (sep : Char) : Str → List Str
  | [] => [[]]
  | c :: cs =>
    if c = sep then [] :: stringsSplit sep cs
    else
      match stringsSplit sep cs with
      | [] => [[c]]
      | h :: t => (c :: h) :: t

/-- The characters that `regexp.QuoteMeta` escapes. -/
def specialChars : Str := ['\\', '.', '+', '*', '?', '(', ')', '|', '[', ']', '{', '}', '^', '$']

/-- The Go call `regexp.QuoteMeta(s)`: a backslash is put before every special character. -/
def quoteMeta : Str → Str
  | [] => []
  | c :: cs => if c ∈ specialChars then '\\' :: c :: quoteMeta cs else c :: quoteMeta cs

/-! ## The interface of the package `regexp` -/

/-- The part of the package `regexp` that the repository calls. -/
structure Engine where
  /-- Compiled expressions, Go's `*regexp.Regexp` when not nil. -/
  Regexp : Type
  /-- The Go call `regexp.Compile(expr)`. -/
  compile : Str → Except RegexError Regexp
  /-- The Go call `re.String()`: the source text the expression was compiled from. -/
  source : Regexp → Str
  /-- The Go call `re.MatchString(s)`. -/
  matchString : Regexp → Str → Bool
  /-- The Go call `re.FindAllStringSubmatch(s, -1)`; the nil result is the empty list. -/
  findAllStringSubmatch : Regexp → Str → List (List Str)

/-- The documented law of `re.String()`. -/
def Engine.Lawful (E : Engine) : Prop :=
  ∀ s r, E.compile s = .ok r → E.source r = s

/-! ## parameter.go -/

/-- The type `Types`, a Go map from type names to pattern fragments. -/
abbrev Types := List (Str × Str)

/-- The registry of `MakeBasicTypes`. -/
def MakeBasicTypes : Types :=
  [("string".toList, "[^\\s]+".toList), ("integer".toList, "[0-9]+".toList)]

/-- The constant `defaultType`. -/
def defaultType : Str := "string".toList

/-- The function `Expression(data, types)`: the compiled fragment of a type, nil (`none`) for a
type that is not in the registry.  `regexp.MustCompile` panics on a fragment that does not
compile. -/
def Expression (E : Engine) (data : Str) (types : Types) : Outcome (Option E.Regexp) :=
  match types.lookup data with
  | some exp =>
    match E.compile exp with
    | .ok re => .ok (some re)
    | .error _ => .panic .mustCompile
  | none => .ok none

/-- The struct `Parameter`; `expr` is a pointer and may be nil. -/
structure Parameter (E : Engine) where
  name : Str
  data : Str
  expr : Option E.Regexp

/-- The method `Parameter.Name`. -/
def Parameter.Name {E : Engine} (p : Parameter E) : Str := p.name

/-- The method `Parameter.Data`. -/
def Parameter.Data {E : Engine} (p : Parameter E) : Str := p.data

/-- The method `Parameter.Expression`. -/
def Parameter.Expression {E : Engine} (p : Parameter E) : Option E.Regexp := p.expr

/-- The function `NewParameterWithType`. -/
def NewParameterWithType (E : Engine) (name data : Str) (regex : Option E.Regexp) : Parameter E :=
  ⟨name, data, regex⟩

/-- Element `i` of a Go slice of strings, with the bounds check of the run time. -/
def sliceIndex {α : Type} (xs : List α) (i : Int) : Outcome α :=
  if i < 0 then .panic .indexOutOfRange
  else
    match xs.get? i.toNat with
    | some x => .ok x
    | none => .panic .indexOutOfRange

/-- The function `Parse(text, types)`. -/
def Parse (E : Engine) (text : Str) (types : Types) : Outcome (Parameter E) :=
  let name := stringsReplace text ['<'] []
  let name := stringsReplace name ['>'] []
  if ':' ∈ name then
    let splits := stringsSplit ':' name
    match sliceIndex splits 0, sliceIndex splits 1 with
    | .ok name, .ok data =>
      if (types.lookup data).isSome then
        match Expression E data types with
        | .ok regex => .ok (NewParameterWithType E name data regex)
        | .error e => .error e
        | .panic k => .panic k
      else .error (.undefinedType data)
    | .panic k, _ => .panic k
    | _, .panic k => .panic k
    | .error e, _ => .error e
    | _, .error e => .error e
  else
    match Expression E defaultType types with
    | .ok regex => .ok (NewParameterWithType E name defaultType regex)
    | .error e => .error e
    | .panic k => .panic k

/-! ## command.go -/

/-- The struct `Command`. -/
structure Command (E : Engine) where
  text : Str
  escape : Bool
  params : List (Parameter E)
  expression : E.Regexp

/-- The method `Command.Text`. -/
def Command.Text {E : Engine} (c : Command E) : Str := c.text

/-- The method `Command.Expression`. -/
def Command.Expression {E : Engine} (c : Command E) : E.Regexp := c.expression

/-- The method `Command.Parameters`. -/
def Command.Parameters {E : Engine} (c : Command E) : List (Parameter E) := c.params

/-- The loop of `Command.Position`, `index` being the index of the head of the list. -/
def positionLoop {E : Engine} (name : Str) : List (Parameter E) → Int → Int
  | [], _ => -1
  | item :: rest, index => if item.name = name then index else positionLoop name rest (index + 1)

/-- The method `Command.Position`: the index of the first parameter of that name, or -1. -/
def Command.Position {E : Engine} (c : Command E) (name : Str) : Int :=
  positionLoop name c.Parameters 0

/-- The method `Command.Has`. -/
def Command.Has {E : Engine} (c : Command E) (name : Str) : Bool :=
  c.Position name != -1

/-- The method `Command.Matches`. -/
def Command.Matches {E : Engine} (c : Command E) (req : Str) : Bool :=
  E.matchString c.Expression req

/-- The struct `Match`. -/
structure Match (E : Engine) where
  Command : Command E
  Request : Str

/-- The method `Command.Match`. -/
def Command.Match {E : Engine} (c : Command E) (req : Str) : Outcome (Match E) :=
  if c.Matches req then .ok ⟨c, req⟩ else .error .noMatch

/-- The text `<name:data>` built by `fmt.Sprintf("<%s:%s>", ...)`. -/
def longToken (name data : Str) : Str := '<' :: name ++ ':' :: data ++ ['>']

/-- The text `<name>` built by `fmt.Sprintf("<%s>", ...)`. -/
def shortToken (name : Str) : Str := '<' :: name ++ ['>']

/-- The text `(fragment)` built by `fmt.Sprintf("(%s)", ...)`. -/
def groupText (fragment : Str) : Str := '(' :: fragment ++ [')']

/-- The loop of `makeExpression` over the parameters.  `param.Expression().String()` dereferences
the expression of the parameter, which panics when it is nil. -/
def substituteParams {E : Engine} : List (Parameter E) → Str → Outcome Str
  | [], expr => .ok expr
  | param :: rest, expr =>
    match param.Expression with
    | none => .panic .nilDereference
    | some re =>
      let expr := stringsReplace expr (longToken param.Name param.Data) (groupText (E.source re))
      let expr := stringsReplace expr (shortToken param.Name) (groupText (E.source re))
      substituteParams rest expr

/-- The text `^expr$` built by `fmt.Sprintf("^%s$", expr)`. -/
def anchored (expr : Str) : Str := '^' :: expr ++ ['$']

/-- The function `makeExpression`. -/
def makeExpression (E : Engine) (commandString : Str) (params : List (Parameter E))
    (escape : Bool) : Outcome E.Regexp :=
  let expr := if escape then quoteMeta commandString else commandString
  match substituteParams params expr with
  | .ok expr =>
    match E.compile (anchored expr) with
    | .ok regex => .ok regex
    | .error err => .error (.regex err)
  | .error e => .error e
  | .panic k => .panic k

/-- The source text of the expression that finds the placeholders. -/
def placeholderPattern : Str := "<(.*?)>".toList

/-- The loop of `parseParameters` over the occurrences found; `namesSet` holds the names seen. -/
def parseParametersLoop (E : Engine) (types : Types) :
    List (List Str) → List (Parameter E) → List Str → Outcome (List (Parameter E))
  | [], list, _ => .ok list
  | p :: result, list, namesSet =>
    if p.length ≠ 2 then parseParametersLoop E types result list namesSet
    else
      match sliceIndex p 1 with
      | .ok inner =>
        match Parse E inner types with
        | .ok param =>
          if param.name ∈ namesSet then .error (.duplicateParameter param.name)
          else parseParametersLoop E types result (list ++ [param]) (param.name :: namesSet)
        | .error e => .error e
        | .panic k => .panic k
      | .error e => .error e
      | .panic k => .panic k

/-- The function `parseParameters`. -/
def parseParameters (E : Engine) (command : Str) (types : Types) : Outcome (List (Parameter E)) :=
  match E.compile placeholderPattern with
  | .error err => .error (.regex err)
  | .ok re => parseParametersLoop E types (E.findAllStringSubmatch re command) [] []

/-- The registry `makeCommand` goes on with: `MakeBasicTypes()` when it is given nil (`none`). -/
def registryOf (types : Option Types) : Types :=
  match types with
  | none => MakeBasicTypes
  | some t => t

/-- The function `makeCommand`; a nil registry is `none`. -/
def makeCommand (E : Engine) (commandString : Str) (escaping : Bool) (types : Option Types) :
    Outcome (Command E) :=
  let types := registryOf types
  match parseParameters E commandString types with
  | .error e => .error e
  | .panic k => .panic k
  | .ok params =>
    match makeExpression E commandString params escaping with
    | .error e => .error e
    | .panic k => .panic k
    | .ok expr => .ok ⟨commandString, escaping, params, expr⟩

/-- The function `New`. -/
def New (E : Engine) (command : Str) (types : Option Types) : Outcome (Command E) :=
  makeCommand E command false types

/-- The function `NewWithEscaping`. -/
def NewWithEscaping (E : Engine) (command : Str) (types : Option Types) : Outcome (Command E) :=
  makeCommand E command true types

/-! ## match.go -/

/-- The method `Match.Parameter`.  `FindAllStringSubmatch(...)[0][1:]` panics when nothing was
found, and indexing at `pos` panics when there are not more than `pos` captured groups. -/
def Match.Parameter {E : Engine} (m : Match E) (name : Str) : Outcome Str :=
  let pos := m.Command.Position name
  if pos = -1 then .error (.unknownParameter name)
  else
    match sliceIndex (E.findAllStringSubmatch m.Command.Expression m.Request) 0 with
    | .ok first =>
      match first with
      | [] => .panic .indexOutOfRange
      | _ :: groups => sliceIndex groups pos
    | .error e => .error e
    | .panic k => .panic k

/-- The method `Match.String`. -/
def Match.String {E : Engine} (m : Match E) (name : Str) : Outcome Str :=
  m.Parameter name

/-- The method `Match.Match`. -/
def Match.Match {E : Engine} (m : Match E) (position : Int) : Outcome Str :=
  let found := E.findAllStringSubmatch m.Command.Expression m.Request
  if found.length ≠ 1 then .error .unableToParse
  else
    match sliceIndex found 0 with
    | .ok first =>
      if position ≥ first.length then .error (.noParameterAt position)
      else sliceIndex first (position + 1)
    | .error e => .error e
    | .panic k => .panic k

/-! ## A model of `strconv.Atoi`

`Atoi(s)` is `ParseInt(s, 10, 0)` converted to `int`; the type `int` is taken to have 64 bits.
The loop of `ParseUint` is followed step by step, its `uint64` arithmetic written modulo `2 ^ 64`.
An error of `strconv` is `Err.numError range num`: `range` tells `ErrRange` from `ErrSyntax`, and
`num` is the text that was converted. -/

/-- The largest `uint64`. -/
def maxUint64 : Nat := 2 ^ 64 - 1

/-- The conversion `int64(x)`: the value modulo `2 ^ 64` in the signed range. -/
def int64 (x : Int) : Int := (x + 2 ^ 63) % 2 ^ 64 - 2 ^ 63

/-- The loop of `strconv.ParseUint(s, 10, 64)` over the bytes of the text, from the value `n`
reached so far.  The result is the value and the error, `some true` for `ErrRange` and
`some false` for `ErrSyntax`.  A byte that is not an ASCII digit, and so every byte of a character
that is not ASCII, is a syntax error. -/
def parseUintLoop : Str → Nat → Nat × Option Bool
  | [], n => (n, none)
  | c :: cs, n =>
    if 48 ≤ c.toNat ∧ c.toNat ≤ 57 then
      let d := c.toNat - 48
      if n ≥ maxUint64 / 10 + 1 then (maxUint64, some true)
      else
        let n := n * 10 % 2 ^ 64
        let n1 := (n + d) % 2 ^ 64
        if n1 < n ∨ n1 > maxUint64 then (maxUint64, some true)
        else parseUintLoop cs n1
    else (0, some false)

/-- The Go call `strconv.ParseUint(s, 10, 64)`. -/
def ParseUint (s : Str) : Nat × Option Bool :=
  if s = [] then (0, some false) else parseUintLoop s 0

/-- The Go call `strconv.ParseInt(s, 10, 64)`. -/
def ParseInt (s : Str) : Int × Option Bool :=
  match s with
  | [] => (0, some false)
  | c :: cs =>
    let neg := c == '-'
    let digits := if c = '+' ∨ c = '-' then cs else c :: cs
    match ParseUint digits with
    | (_, some false) => (0, some false)
    | (un, _) =>
      let cutoff : Nat := 2 ^ 63
      if !neg && un ≥ cutoff then (int64 (cutoff - 1 : Nat), some true)
      else if neg && un > cutoff then (int64 (-int64 (cutoff : Nat)), some true)
      else
        let n := int64 un
        (if neg then int64 (-n) else n, none)

/-- The Go call `strconv.Atoi(s)`: the value and the error that are returned. -/
def Atoi (s : Str) : Int × Option Err :=
  match ParseInt s with
  | (i64, none) => (i64, none)
  | (i64, some range) => (i64, some (.numError range s))

/-! ## match.go, with the values returned next to an error

`Outcome` keeps the error of a call that failed and drops the value that Go returns with it.  The
definitions below keep both results. -/

/-- How a Go call with the results `(T, error)` ends: both results, a nil error being `none`, or a
panic. -/
inductive Returned (α : Type) where
  | returns (value : α) (err : Option Err)
  | panics (k : PanicKind)

/-- The `Outcome` of a call: the value when the error is nil, the error otherwise. -/
def Returned.outcome {α : Type} : Returned α → Outcome α
  | .returns v none => .ok v
  | .returns _ (some e) => .error e
  | .panics k => .panic k

/-- The method `Match.Parameter`, with both results. -/
def Match.ParameterResult {E : Engine} (m : Allot.Match E) (name : Str) : Returned Str :=
  let pos := m.Command.Position name
  if pos = -1 then .returns [] (some (.unknownParameter name))
  else
    match sliceIndex (E.findAllStringSubmatch m.Command.Expression m.Request) 0 with
    | .ok first =>
      match first with
      | [] => .panics .indexOutOfRange
      | _ :: groups =>
        match sliceIndex groups pos with
        | .ok value => .returns value none
        | .error e => .returns [] (some e)
        | .panic k => .panics k
    | .error e => .returns [] (some e)
    | .panic k => .panics k

/-- The method `Match.String`, with both results. -/
def Match.StringResult {E : Engine} (m : Allot.Match E) (name : Str) : Returned Str :=
  m.ParameterResult name

/-- The method `Match.Integer`, with both results. -/
def Match.IntegerResult {E : Engine} (m : Allot.Match E) (name : Str) : Returned Int :=
  match m.ParameterResult name with
  | .panics k => .panics k
  | .returns _ (some err) => .returns 0 (some err)
  | .returns str none => .returns (Atoi str).1 (Atoi str).2

/-- The method `Match.Integer`. -/
def Match.Integer {E : Engine} (m : Allot.Match E) (name : Str) : Outcome Int :=
  match m.Parameter name with
  | .ok str =>
    match Atoi str with
    | (n, none) => .ok n
    | (_, some err) => .error err
  | .error err => .error err
  | .panic k => .panic k

/-! ## A model of the package `regexp`

The model covers a subset of the RE2 syntax accepted by `regexp.Compile`: literal characters,
escaped punctuation, `\a \f \n \r \t \v`, the Perl classes `\d \s \w \D \S \W`, `.`, bracketed
classes with negation and ranges, `^` and `$` (text anchors, as without the `m` flag), capturing
groups, `(?:` groups, `|`, and `* + ?` with their lazy forms.  Everything else (counted repetition,
flags, named groups, `\b`, `\A`, `\z`, `\Q…\E`, `\p`, octal and hexadecimal escapes, `[:name:]`
classes) is refused with `RegexError.unsupported`.  Matching is the leftmost-first search of a
backtracking matcher, which is the semantics documented for `regexp`.  The limits that `regexp`
puts on the size and the nesting depth of an expression are not modelled. -/

/-- Items of a bracketed character class. -/
inductive ClassItem where
  | chr (c : Char)
  | range (lo hi : Char)
  | digit
  | space
  | word
  | notDigit
  | notSpace
  | notWord
  deriving DecidableEq, Repr

/-- The class `\d`: `[0-9]`. -/
def isDigitChar (c : Char) : Bool := 48 ≤ c.toNat && c.toNat ≤ 57

/-- The class `\s`: `[\t\n\f\r ]`. -/
def isSpaceChar (c : Char) : Bool :=
  c.toNat == 9 || c.toNat == 10 || c.toNat == 12 || c.toNat == 13 || c.toNat == 32

/-- The letters and digits of ASCII, `isalnum` in `regexp/syntax`. -/
def isAlnumChar (c : Char) : Bool :=
  isDigitChar c || (65 ≤ c.toNat && c.toNat ≤ 90) || (97 ≤ c.toNat && c.toNat ≤ 122)

/-- The class `\w`: `[0-9A-Za-z_]`. -/
def isWordChar (c : Char) : Bool := isAlnumChar c || c.toNat == 95

/-- Whether a character belongs to a class item. -/
def ClassItem.test : ClassItem → Char → Bool
  | .chr x, c => c == x
  | .range lo hi, c => lo.toNat ≤ c.toNat && c.toNat ≤ hi.toNat
  | .digit, c => isDigitChar c
  | .space, c => isSpaceChar c
  | .word, c => isWordChar c
  | .notDigit, c => !isDigitChar c
  | .notSpace, c => !isSpaceChar c
  | .notWord, c => !isWordChar c

/-- Abstract syntax of the expressions of the model. -/
inductive Re where
  | empty
  | chr (c : Char)
  | any
  | cls (neg : Bool) (items : List ClassItem)
  | bol
  | eol
  | cat (a b : Re)
  | alt (a b : Re)
  | star (greedy : Bool) (a : Re)
  | plus (greedy : Bool) (a : Re)
  | quest (greedy : Bool) (a : Re)
  | group (a : Re)
  deriving DecidableEq, Repr

/-- Number of capturing groups, `NumSubexp` in Go. -/
def Re.groups : Re → Nat
  | .cat a b => a.groups + b.groups
  | .alt a b => a.groups + b.groups
  | .star _ a => a.groups
  | .plus _ a => a.groups
  | .quest _ a => a.groups
  | .group a => a.groups + 1
  | _ => 0

/-- Concatenation of a sequence of expressions. -/
def mkCat : List Re → Re
  | [] => .empty
  | r :: rs => .cat r (mkCat rs)

/-- Alternation of a non-empty sequence of expressions. -/
def mkAlt : List Re → Re
  | [] => .empty
  | [r] => r
  | r :: rs => .alt r (mkAlt rs)

/-! ### Parsing -/

/-- What the parser is in the middle of. -/
inductive Mode where
  | normal
  | esc
  | lparen
  | lparenQ
  | brace
  | clsOpen
  | clsItem (neg : Bool) (items : List ClassItem) (first : Bool)
  | clsAfterLo (neg : Bool) (items : List ClassItem) (lo : Char) (raw : Bool)
  | clsAfterDash (neg : Bool) (items : List ClassItem) (lo : Char)
  | clsEscLo (neg : Bool) (items : List ClassItem)
  | clsEscHi (neg : Bool) (items : List ClassItem) (lo : Char)
  deriving DecidableEq, Repr

/-- Whether the previous token was a repetition operator: `fresh` right after `*`, `+` or `?`
(a `?` then makes it lazy), `done` after that `?`. -/
inductive RepState where
  | none
  | fresh
  | done
  deriving DecidableEq, Repr

/-- The alternatives of the group being parsed: the finished ones and the items of the current
one, both most recent first. -/
structure Frame where
  alts : List Re
  cur : List Re
  deriving DecidableEq, Repr

/-- The expression a frame stands for. -/
def Frame.collapse (f : Frame) : Re := mkAlt (f.alts.reverse ++ [mkCat f.cur.reverse])

/-- State of the parser: the frame of the innermost open group and, for each enclosing group,
whether it captures and its frame. -/
structure PState where
  mode : Mode
  frame : Frame
  outer : List (Bool × Frame)
  rep : RepState
  deriving DecidableEq, Repr

/-- The state before the first character. -/
def PState.init : PState := ⟨.normal, ⟨[], []⟩, [], .none⟩

/-- Push an operand. -/
def PState.push (s : PState) (r : Re) : PState :=
  { s with mode := .normal, frame := { s.frame with cur := r :: s.frame.cur }, rep := .none }

/-- Open a group. -/
def PState.openGroup (s : PState) (capture : Bool) : PState :=
  { mode := .normal, frame := ⟨[], []⟩, outer := (capture, s.frame) :: s.outer, rep := .none }

/-- Close the innermost group at `)`. -/
def PState.closeGroup (s : PState) : Except RegexError PState :=
  match s.outer with
  | [] => .error .unexpectedParen
  | (capture, fr) :: rest =>
    let r := s.frame.collapse
    .ok { mode := .normal, frame := { fr with cur := (if capture then .group r else r) :: fr.cur },
          outer := rest, rep := .none }

/-- Apply a repetition operator to the last operand. -/
def PState.repeatOp (s : PState) (op : Bool → Re → Re) : Except RegexError PState :=
  match s.rep with
  | .none =>
    match s.frame.cur with
    | [] => .error .missingRepeatArgument
    | r :: rs => .ok { s with frame := { s.frame with cur := op true r :: rs }, rep := .fresh }
  | _ => .error .invalidRepeatOp

/-- Make the repetition just parsed lazy. -/
def makeLazy : Re → Re
  | .star _ a => .star false a
  | .plus _ a => .plus false a
  | .quest _ a => .quest false a
  | r => r

/-- The operator `?`: a lazy marker right after a repetition, else a repetition itself. -/
def PState.questOp (s : PState) : Except RegexError PState :=
  match s.rep with
  | .fresh =>
    match s.frame.cur with
    | [] => .error .missingRepeatArgument
    | r :: rs => .ok { s with frame := { s.frame with cur := makeLazy r :: rs }, rep := .done }
  | _ => s.repeatOp .quest

/-- The character an escape sequence stands for, `parseEscape` in `regexp/syntax`. -/
def escapeChar (c : Char) : Except RegexError Char :=
  if c.toNat < 128 && !isAlnumChar c then .ok c
  else if c = 'a' then .ok (Char.ofNat 7)
  else if c = 'f' then .ok (Char.ofNat 12)
  else if c = 'n' then .ok (Char.ofNat 10)
  else if c = 'r' then .ok (Char.ofNat 13)
  else if c = 't' then .ok (Char.ofNat 9)
  else if c = 'v' then .ok (Char.ofNat 11)
  else if c = 'x' || (48 ≤ c.toNat && c.toNat ≤ 55) then .error .unsupported
  else .error .invalidEscape

/-- The Perl class an escape sequence stands for, if any. -/
def perlClass (c : Char) : Option ClassItem :=
  if c = 'd' then some .digit
  else if c = 's' then some .space
  else if c = 'w' then some .word
  else if c = 'D' then some .notDigit
  else if c = 'S' then some .notSpace
  else if c = 'W' then some .notWord
  else none

/-- One character outside a class and outside an escape. -/
def stepNormal (s : PState) (c : Char) : Except RegexError PState :=
  if c = '(' then .ok { s with mode := .lparen, rep := .none }
  else if c = ')' then s.closeGroup
  else if c = '|' then
    .ok { s with frame := ⟨mkCat s.frame.cur.reverse :: s.frame.alts, []⟩, rep := .none }
  else if c = '*' then s.repeatOp .star
  else if c = '+' then s.repeatOp .plus
  else if c = '?' then s.questOp
  else if c = '[' then .ok { s with mode := .clsOpen, rep := .none }
  else if c = '\\' then .ok { s with mode := .esc, rep := .none }
  else if c = '{' then .ok { s with mode := .brace, rep := .none }
  else if c = '^' then .ok (s.push .bol)
  else if c = '$' then .ok (s.push .eol)
  else if c = '.' then .ok (s.push .any)
  else .ok (s.push (.chr c))

/-- The character after a backslash, outside a class. -/
def stepEsc (s : PState) (c : Char) : Except RegexError PState :=
  match perlClass c with
  | some item => .ok (s.push (.cls false [item]))
  | none =>
    if c = 'A' || c = 'b' || c = 'B' || c = 'z' || c = 'Q' || c = 'E' || c = 'p' || c = 'P' then
      .error .unsupported
    else
      match escapeChar c with
      | .ok x => .ok (s.push (.chr x))
      | .error e => .error e

/-- A character where a class item may start. -/
def stepClsItem (s : PState) (neg : Bool) (items : List ClassItem) (first : Bool) (c : Char) :
    Except RegexError PState :=
  if c = ']' && !first then .ok (s.push (.cls neg items))
  else if c = '\\' then .ok { s with mode := .clsEscLo neg items }
  else .ok { s with mode := .clsAfterLo neg items c (c = '[') }

/-- The upper end of a range. -/
def stepClsHi (s : PState) (neg : Bool) (items : List ClassItem) (lo hi : Char) :
    Except RegexError PState :=
  if hi.toNat < lo.toNat then .error .invalidCharRange
  else .ok { s with mode := .clsItem neg (items ++ [.range lo hi]) false }

/-- One character of the pattern. -/
def step (s : PState) (c : Char) : Except RegexError PState :=
  match s.mode with
  | .normal => stepNormal s c
  | .esc => stepEsc s c
  | .lparen =>
    if c = '?' then .ok { s with mode := .lparenQ } else stepNormal (s.openGroup true) c
  | .lparenQ =>
    if c = ':' then .ok (s.openGroup false) else .error .unsupported
  | .brace =>
    if isDigitChar c then .error .unsupported else stepNormal (s.push (.chr '{')) c
  | .clsOpen =>
    if c = '^' then .ok { s with mode := .clsItem true [] true }
    else stepClsItem s false [] true c
  | .clsItem neg items first => stepClsItem s neg items first c
  | .clsAfterLo neg items lo raw =>
    if raw && c = ':' then .error .unsupported
    else if c = '-' then .ok { s with mode := .clsAfterDash neg items lo }
    else stepClsItem s neg (items ++ [.chr lo]) false c
  | .clsAfterDash neg items lo =>
    if c = ']' then .ok (s.push (.cls neg (items ++ [.chr lo, .chr '-'])))
    else if c = '\\' then .ok { s with mode := .clsEscHi neg items lo }
    else stepClsHi s neg items lo c
  | .clsEscLo neg items =>
    match perlClass c with
    | some item => .ok { s with mode := .clsItem neg (items ++ [item]) false }
    | none =>
      if c = 'p' || c = 'P' then .error .unsupported
      else
        match escapeChar c with
        | .ok lo => .ok { s with mode := .clsAfterLo neg items lo false }
        | .error e => .error e
  | .clsEscHi neg items lo =>
    match escapeChar c with
    | .ok hi => stepClsHi s neg items lo hi
    | .error e => .error e

/-- The end of the pattern. -/
def finish (s : PState) : Except RegexError Re :=
  match s.mode with
  | .normal =>
    match s.outer with
    | [] => .ok s.frame.collapse
    | _ :: _ => .error .missingParen
  | .brace =>
    match s.outer with
    | [] => .ok (s.push (.chr '{')).frame.collapse
    | _ :: _ => .error .missingParen
  | .esc => .error .trailingBackslash
  | .lparen => .error .missingParen
  | .lparenQ => .error .missingParen
  | _ => .error .missingBracket

/-- Run the parser over a text from a given state. -/
def parseFrom (s : PState) : Str → Except RegexError PState
  | [] => .ok s
  | c :: cs =>
    match step s c with
    | .ok s' => parseFrom s' cs
    | .error e => .error e

/-- The parser: `syntax.Parse(expr, syntax.Perl)`. -/
def parseRe (expr : Str) : Except RegexError Re :=
  match parseFrom PState.init expr with
  | .ok s => finish s
  | .error e => .error e

/-! ### Matching -/

/-- State of the matcher: the number of characters consumed, the text that is left, and the
groups captured so far (most recent first). -/
structure MState where
  pos : Nat
  rest : Str
  caps : List (Nat × Str)
  deriving DecidableEq, Repr

/-- Consume one character that satisfies `p`. -/
def stepChar (p : Char → Bool) (st : MState) : List MState :=
  match st.rest with
  | [] => []
  | x :: xs => if p x then [⟨st.pos + 1, xs, st.caps⟩] else []

/-- Iterations of a starred expression `f`, in the order a backtracking matcher tries them; an
iteration that consumes nothing is not repeated. -/
def starLoop (greedy : Bool) (f : MState → List MState) : Nat → MState → List MState
  | 0, st => [st]
  | n + 1, st =>
    let more := ((f st).filter (fun st' => st'.rest.length < st.rest.length)).flatMap
      (starLoop greedy f n)
    if greedy then more ++ [st] else st :: more

/-- All the ways an expression matches at a state, in order of preference.  `n` is the index of
the first capturing group of the expression. -/
def Re.run : Re → Nat → MState → List MState
  | .empty, _, st => [st]
  | .chr c, _, st => stepChar (fun x => x == c) st
  | .any, _, st => stepChar (fun x => x.toNat != 10) st
  | .cls neg items, _, st => stepChar (fun x => (items.any (fun i => i.test x)) != neg) st
  | .bol, _, st => if st.pos = 0 then [st] else []
  | .eol, _, st => if st.rest = [] then [st] else []
  | .cat a b, n, st => (a.run n st).flatMap (b.run (n + a.groups))
  | .alt a b, n, st => a.run n st ++ b.run (n + a.groups) st
  | .star g a, n, st => starLoop g (a.run n) st.rest.length st
  | .plus g a, n, st => (a.run n st).flatMap (fun st' => starLoop g (a.run n) st'.rest.length st')
  | .quest g a, n, st => if g then a.run n st ++ [st] else st :: a.run n st
  | .group a, n, st =>
    (a.run (n + 1) st).map
      (fun st' => { st' with caps := (n, st.rest.take (st'.pos - st.pos)) :: st'.caps })

/-- Leftmost-first search from position `pos`, where `rest` is the text from there on: the text
from the start of the match on, and the state at its end. -/
def searchFrom (r : Re) : Nat → Str → Option (Str × MState)
  | pos, [] =>
    match (r.run 0 ⟨pos, [], []⟩).head? with
    | some st => some ([], st)
    | none => none
  | pos, c :: cs =>
    match (r.run 0 ⟨pos, c :: cs, []⟩).head? with
    | some st => some (c :: cs, st)
    | none => searchFrom r (pos + 1) cs

/-- The strings of a match: the whole match, then each group (empty when it took no part). -/
def submatches (r : Re) (from_ : Str) (st : MState) : List Str :=
  from_.take (from_.length - st.rest.length) ::
    (List.range r.groups).map (fun i => (st.caps.lookup i).getD [])

/-- The loop of `allMatches` in `regexp`: `rest` is the text from `pos` on (`none` past the end),
`prevEnd` the end of the previous match. -/
def allMatchesLoop (r : Re) : Nat → Nat → Option Str → Option Nat → List (List Str)
  | 0, _, _, _ => []
  | _ + 1, _, none, _ => []
  | fuel + 1, pos, some rest, prevEnd =>
    match searchFrom r pos rest with
    | none => []
    | some (from_, st) =>
      if st.pos = pos then
        let next := match rest with
          | [] => none
          | _ :: cs => some cs
        if some (st.pos - (from_.length - st.rest.length)) = prevEnd then
          allMatchesLoop r fuel (pos + 1) next (some st.pos)
        else submatches r from_ st :: allMatchesLoop r fuel (pos + 1) next (some st.pos)
      else submatches r from_ st :: allMatchesLoop r fuel st.pos (some st.rest) (some st.pos)

/-- Compiled expressions of the model: the source text and its syntax tree. -/
structure GoRegexp where
  src : Str
  re : Re
  deriving DecidableEq, Repr

/-- The model of the package `regexp`. -/
def goRegexp : Engine where
  Regexp := GoRegexp
  compile expr :=
    match parseRe expr with
    | .ok re => .ok ⟨expr, re⟩
    | .error e => .error e
  source r := r.src
  matchString r s := (searchFrom r.re 0 s).isSome
  findAllStringSubmatch r s := allMatchesLoop r.re (s.length + 2) 0 (some s) none

/-! ## Vocabulary of the statements -/

/-- The occurrences of placeholders that `parseParameters` finds in a template text: the result of
`FindAllStringSubmatch` for the expression `<(.*?)>`. -/
def occurrences (E : Engine) (text : Str) : List (List Str) :=
  match E.compile placeholderPattern with
  | .ok re => E.findAllStringSubmatch re text
  | .error _ => []

/-- The name that `Parse` gives to a placeholder with this inner text: the angle brackets are
removed, and what precedes the first colon is kept. -/
def placeholderName (text : Str) : Str :=
  let name := stringsReplace (stringsReplace text ['<'] []) ['>'] []
  if ':' ∈ name then (stringsSplit ':' name).headD [] else name

/-- The names of the placeholder occurrences of a template text, left to right. -/
def occurrenceNames (E : Engine) (text : Str) : List Str :=
  ((occurrences E text).filter (fun p => p.length = 2)).map (fun p => placeholderName (p.getD 1 []))

/-- Every fragment of the registry compiles. -/
def ValidFragments (E : Engine) (types : Types) : Prop :=
  ∀ kv ∈ types, (E.compile kv.2).toBool = true

instance (E : Engine) (types : Types) : Decidable (ValidFragments E types) := by
  unfold ValidFragments; infer_instance

/-- The value a call returned, or `d` when it did not return one. -/
def Outcome.getD {α : Type} (o : Outcome α) (d : α) : α :=
  match o with
  | .ok a => a
  | _ => d

/-- Whether an expression matches a text from its first to its last character. -/
def Re.fullMatch (r : Re) (s : Str) : Bool :=
  (r.run 0 ⟨0, s, []⟩).any (fun st => st.rest.isEmpty)

/-- Whether a pattern text, compiled on its own, matches a text from its first to its last
character. -/
def fullMatchText (pattern s : Str) : Bool :=
  match parseRe pattern with
  | .ok r => r.fullMatch s
  | .error _ => false

/-- A command without parameters, for `Outcome.getD`. -/
def emptyCommand : Command goRegexp := ⟨[], false, [], ⟨[], .empty⟩⟩

/-- A template of `TestPosition`. -/
def positionTemplate : Str := "command <lorem> <ipsum> <dolor:integer> <sit> <amet>".toList

/-- The template of `TestPosition`, compiled by `New`. -/
def positionCommand : Command goRegexp :=
  (makeCommand goRegexp positionTemplate false none).getD emptyCommand

/-- The template of `TestDuplicatedNames`. -/
def duplicateTemplate : Str := "command with <name:string> duplicated <name:string>".toList

/-- The template `command <lorem>` of `TestMatches`, compiled by `New`. -/
def loremCommand : Command goRegexp :=
  (New goRegexp "command <lorem>".toList none).getD emptyCommand

/-- A registry without the type `string`. -/
def integerOnly : Types := [("integer".toList, "[0-9]+".toList)]

/-- A template whose literal text is an alternation, compiled by `New`. -/
def alternationCommand : Command goRegexp :=
  (New goRegexp "command|cmd".toList none).getD emptyCommand

/-- A template whose placeholder name has a special character, compiled by `NewWithEscaping`. -/
def dottedCommand : Command goRegexp :=
  (NewWithEscaping goRegexp "cmd <a.b>".toList none).getD emptyCommand

/-! ## Templates given by their pieces -/

/-- Characters of the names and type names that the statements below cover: every character but
the pattern-special ones, `<`, `>`, `:` and the line feed.  Letters and digits are such
characters. -/
def nameChar (c : Char) : Bool :=
  !(specialChars.contains c) && c != '<' && c != '>' && c != ':' && c.toNat != 10

/-- A placeholder as written in a template: its name and, in the long form, its type name. -/
structure Hole where
  name : Str
  type : Option Str
  deriving DecidableEq, Repr

/-- The text between the angle brackets: `name` or `name:type`. -/
def Hole.inner (h : Hole) : Str :=
  match h.type with
  | none => h.name
  | some t => h.name ++ ':' :: t

/-- The placeholder as written: `<name>` or `<name:type>`. -/
def Hole.token (h : Hole) : Str := '<' :: h.inner ++ ['>']

/-- The type name of the placeholder, `string` for the short form. -/
def Hole.data (h : Hole) : Str :=
  match h.type with
  | none => defaultType
  | some t => t

/-- Name and type name are made of name characters. -/
def Hole.plain (h : Hole) : Bool :=
  h.name.all nameChar && h.data.all nameChar

/-- A piece of a template: a run of literal text or a placeholder. -/
inductive Piece where
  | lit (s : Str)
  | hole (h : Hole)
  deriving DecidableEq, Repr

/-- The text of a piece. -/
def Piece.text : Piece → Str
  | .lit s => s
  | .hole h => h.token

/-- The template text made of the pieces. -/
def templateText (ps : List Piece) : Str := ps.flatMap Piece.text

/-- The placeholders among the pieces, left to right. -/
def holesOf : List Piece → List Hole
  | [] => []
  | .lit _ :: ps => holesOf ps
  | .hole h :: ps => h :: holesOf ps

/-- The literal runs have no `<`, and the placeholders have plain names and type names. -/
def piecesPlain : List Piece → Bool
  | [] => true
  | .lit s :: ps => !(s.contains '<') && piecesPlain ps
  | .hole h :: ps => h.plain && piecesPlain ps

/-- The literal runs have no pattern-special character. -/
def literalsUnspecial : List Piece → Bool
  | [] => true
  | .lit s :: ps => s.all (fun c => !(specialChars.contains c)) && literalsUnspecial ps
  | .hole _ :: ps => literalsUnspecial ps

/-- The compiled fragment of the type of a placeholder, in the model. -/
def resolveHole (types : Types) (h : Hole) : Option GoRegexp :=
  match types.lookup h.data with
  | some f =>
    match parseRe f with
    | .ok r => some ⟨f, r⟩
    | .error _ => none
  | none => none

/-- Every placeholder has a type of the registry whose fragment compiles and has no `<`. -/
def holesResolve (types : Types) (hs : List Hole) : Bool :=
  hs.all (fun h =>
    match resolveHole types h with
    | some g => !(g.src.contains '<')
    | none => false)

/-- The parameter that `Parse` makes of a placeholder. -/
def holeParam (types : Types) (h : Hole) : Parameter goRegexp :=
  ⟨h.name, h.data, resolveHole types h⟩

/-- The source text of the fragment of a placeholder (empty when it has none). -/
def holeFragment (types : Types) (h : Hole) : Str :=
  match resolveHole types h with
  | some g => g.src
  | none => []

/-- The syntax tree of the fragment of a placeholder. -/
def holeRe (types : Types) (h : Hole) : Re :=
  match resolveHole types h with
  | some g => g.re
  | none => .empty

/-- The expression text a single left-to-right pass makes of the pieces: literal runs, escaped
when `escape` is set, and `(fragment)` for each placeholder. -/
def expressionBody (types : Types) (escape : Bool) : List Piece → Str
  | [] => []
  | .lit s :: ps => (if escape then quoteMeta s else s) ++ expressionBody types escape ps
  | .hole h :: ps => groupText (holeFragment types h) ++ expressionBody types escape ps

/-- The items of the syntax tree of the expression: the characters of the literal runs and a
capturing group around the fragment of each placeholder. -/
def expressionItems (types : Types) : List Piece → List Re
  | [] => []
  | .lit s :: ps => s.map Re.chr ++ expressionItems types ps
  | .hole h :: ps => Re.group (holeRe types h) :: expressionItems types ps

/-- The syntax tree of the anchored expression of the pieces. -/
def expressionRe (types : Types) (ps : List Piece) : Re :=
  mkCat (Re.bol :: expressionItems types ps ++ [Re.eol])

/-- The command that compiling the pieces gives. -/
def piecesCommand (types : Types) (escape : Bool) (ps : List Piece) : Command goRegexp :=
  ⟨templateText ps, escape, (holesOf ps).map (holeParam types),
    ⟨anchored (expressionBody types escape ps), expressionRe types ps⟩⟩

/-- The piece after its placeholder, if it is `h`, has been replaced by its group. -/
def fillPiece (types : Types) (h : Hole) (p : Piece) : Piece :=
  if p = .hole h then .lit (groupText (holeFragment types h)) else p

/-- The piece after every placeholder has been replaced by its group. -/
def finalPiece (types : Types) : Piece → Piece
  | .lit s => .lit s
  | .hole h => .lit (groupText (holeFragment types h))

/-- The piece after `regexp.QuoteMeta`. -/
def escapePiece : Piece → Piece
  | .lit s => .lit (quoteMeta s)
  | .hole h => .hole h

/-- The piece after `strings.Replace` of the token with inner text `x` by `new`. -/
def replacePiece (x new : Str) : Piece → Piece
  | .lit s => .lit s
  | .hole h => if h.inner = x then .lit new else .hole h

/-- The state of the parser with more enclosing groups below the ones it has. -/
def PState.under (s : PState) (o : List (Bool × Frame)) : PState :=
  { s with outer := s.outer ++ o }

/-- The state of the parser after a sequence of operands. -/
def PState.pushAll (s : PState) (items : List Re) : PState :=
  items.foldl PState.push s

/-- The syntax tree of the expression `<(.*?)>` that finds the placeholders. -/
def scanRe : Re :=
  .cat (.chr '<') (.cat (.group (.cat (.star false .any) .empty)) (.cat (.chr '>') .empty))

/-- The contents of the capturing groups of an expression, in the order of their opening
parentheses, which is the order in which Go numbers them. -/
def Re.captures : Re → List Re
  | .cat a b => a.captures ++ b.captures
  | .alt a b => a.captures ++ b.captures
  | .star _ a => a.captures
  | .plus _ a => a.captures
  | .quest _ a => a.captures
  | .group a => a :: a.captures
  | _ => []

/-- The syntax tree of the fragment of a parameter (the empty expression for a nil one). -/
def paramRe (p : Parameter goRegexp) : Re :=
  match p.expr with
  | some g => g.re
  | none => .empty

/-- A template whose literal text has a group of its own, compiled by `New`. -/
def parenCommand : Command goRegexp :=
  (New goRegexp "(command) <lorem>".toList none).getD emptyCommand

/-- The expression has no `^` and no `$`. -/
def Re.anchorFree : Re → Bool
  | .bol => false
  | .eol => false
  | .cat a b => a.anchorFree && b.anchorFree
  | .alt a b => a.anchorFree && b.anchorFree
  | .star _ a => a.anchorFree
  | .plus _ a => a.anchorFree
  | .quest _ a => a.anchorFree
  | .group a => a.anchorFree
  | _ => true

/-- The texts that an expression without anchors matches from their first to their last
character. -/
inductive Lang : Re → Str → Prop where
  | empty : Lang .empty []
  | chr (c : Char) : Lang (.chr c) [c]
  | any (c : Char) (h : (c.toNat != 10) = true) : Lang .any [c]
  | cls (neg : Bool) (items : List ClassItem) (c : Char)
      (h : ((items.any (fun i => i.test c)) != neg) = true) : Lang (.cls neg items) [c]
  | cat {a b : Re} {u v : Str} (ha : Lang a u) (hb : Lang b v) : Lang (.cat a b) (u ++ v)
  | altLeft {a : Re} (b : Re) {u : Str} (ha : Lang a u) : Lang (.alt a b) u
  | altRight (a : Re) {b : Re} {u : Str} (hb : Lang b u) : Lang (.alt a b) u
  | starNil (g : Bool) (a : Re) : Lang (.star g a) []
  | starCons (g : Bool) {a : Re} {u v : Str} (hne : u ≠ []) (ha : Lang a u)
      (hs : Lang (.star g a) v) : Lang (.star g a) (u ++ v)
  | plus (g : Bool) {a : Re} {u v : Str} (ha : Lang a u) (hs : Lang (.star g a) v) :
      Lang (.plus g a) (u ++ v)
  | questNil (g : Bool) (a : Re) : Lang (.quest g a) []
  | questSome (g : Bool) {a : Re} {u : Str} (ha : Lang a u) : Lang (.quest g a) u
  | group {a : Re} {u : Str} (ha : Lang a u) : Lang (.group a) u

/-- The compiled fragment of the basic type `string`. -/
def stringFragment : GoRegexp :=
  ⟨"[^\\s]+".toList, .cat (.plus true (.cls true [.space])) .empty⟩

/-- The compiled fragment of the basic type `integer`. -/
def integerFragment : GoRegexp :=
  ⟨"[0-9]+".toList, .cat (.plus true (.cls false [.range '0' '9'])) .empty⟩

/-! ## Templates made of a word and placeholders separated by single spaces -/

/-- The pieces ` <p1:t1> ... <pn:tn>`: every placeholder after a space. -/
def spacedHoles : List Hole → List Piece
  | [] => []
  | h :: hs => .lit [' '] :: .hole h :: spacedHoles hs

/-- The pieces of the template `w <p1:t1> ... <pn:tn>`. -/
def wordTemplate (w : Str) (holes : List Hole) : List Piece :=
  .lit w :: spacedHoles holes

/-- The text ` v1 ... vn`: every value after a space. -/
def requestTail : List Str → Str
  | [] => []
  | v :: vs => ' ' :: (v ++ requestTail vs)

/-- The request `w v1 ... vn`. -/
def wordRequest (w : Str) (vs : List Str) : Str := w ++ requestTail vs

/-- A value for a placeholder of a basic type: a non-empty run of decimal digits for `integer`,
of characters that are not whitespace for `string`. -/
def valueOk (h : Hole) (v : Str) : Bool :=
  !v.isEmpty &&
    (if h.data = "integer".toList then v.all isDigitChar else v.all (fun x => !isSpaceChar x))

/-- The type of the placeholder is `string` or `integer`. -/
def Hole.basic (h : Hole) : Bool :=
  h.data = "string".toList || h.data = "integer".toList

/-- The items of the expression after the word: a space and a group for each placeholder. -/
def tailItems : List Hole → List Re
  | [] => []
  | h :: hs => Re.chr ' ' :: Re.group (holeRe MakeBasicTypes h) :: tailItems hs

/-! ## Base-10 representations -/

/-- The number that a run of decimal digits denotes, read from the value `n`. -/
def digitsValueFrom (n : Nat) (ds : Str) : Nat :=
  ds.foldl (fun a c => a * 10 + (c.toNat - 48)) n

/-- The number that a run of decimal digits denotes. -/
def digitsValue (ds : Str) : Nat := digitsValueFrom 0 ds

/-- The integer that a text is the base-10 representation of: an optional sign followed by one or
more decimal digits. -/
def decimalValue : Str → Option Int
  | [] => none
  | c :: cs =>
    let ds := if c = '+' ∨ c = '-' then cs else c :: cs
    if ds ≠ [] ∧ ds.all isDigitChar = true then
      some (if c = '-' then -(digitsValue ds : Int) else (digitsValue ds : Int))
    else none

/-- The template `count <n:integer>` compiled by `New`. -/
def countCommand : Command goRegexp :=
  (New goRegexp "count <n:integer>".toList none).getD emptyCommand

/-! ## Registries, templates and outcomes of the statements on compiling -/

/-- A registry whose fragment for `string` is not a valid pattern. -/
def brokenRegistry : Types := [("string".toList, "[0-9".toList)]

/-- The template of `TestNotCompiling`. -/
def notCompilingTemplate : Str := "command with []() invalid regex syntax".toList

/-- The same command with another value of the flag `escape`. -/
def Command.withEscape {E : Engine} (c : Command E) (escape : Bool) : Command E :=
  ⟨c.text, escape, c.params, c.expression⟩

/-- The outcome of a call with the function `f` applied to the value it returned. -/
def Outcome.map {α β : Type} (f : α → β) : Outcome α → Outcome β
  | .ok a => .ok (f a)
  | .error e => .error e
  | .panic k => .panic k

/-- The default registry with its entries the other way round; a Go map has no order. -/
def basicTypesSwapped : Types :=
  [("integer".toList, "[0-9]+".toList), ("string".toList, "[^\\s]+".toList)]

/-! ## The single left-to-right scan of a template text -/

/-- The inner text of a placeholder and the text after it, for the text that follows a `<`: the
characters up to the first `>`, when no line feed comes before it. -/
def closeToken : Str → Option (Str × Str)
  | [] => none
  | c :: cs =>
    if c = '>' then some ([], cs)
    else if c.toNat = 10 then none
    else
      match closeToken cs with
      | some (inner, rest) => some (c :: inner, rest)
      | none => none

/-- Every `<` of the run `l`, which `after` follows, opens no placeholder. -/
def blockedRun : Str → Str → Prop
  | [], _ => True
  | c :: cs, after => (c = '<' → closeToken (cs ++ after) = none) ∧ blockedRun cs after

/-- The pieces are what a left-to-right scan finds: no `<` of a literal run opens a placeholder,
and the inner text of a placeholder has no `>` and no line feed. -/
def piecesScan : List Piece → Prop
  | [] => True
  | .lit l :: ps => blockedRun l (templateText ps) ∧ piecesScan ps
  | .hole h :: ps => (∀ x ∈ h.inner, x ≠ '>' ∧ x.toNat ≠ 10) ∧ piecesScan ps

/-- The placeholder with this inner text: the name is what precedes the first colon and the type
name what follows it; without a colon the whole inner text is the name. -/
def holeOf (inner : Str) : Hole :=
  if ':' ∈ inner then
    ⟨inner.takeWhile (fun c => c != ':'), some ((inner.dropWhile (fun c => c != ':')).tail)⟩
  else ⟨inner, none⟩

/-- A single left-to-right scan of a template text, `fuel` bounding its steps: at a `<` that a `>`
follows with no line feed in between, a placeholder is read up to that `>`; every other character
is literal text. -/
def tokenizeFuel : Nat → Str → List Piece
  | 0, _ => []
  | _ + 1, [] => []
  | n + 1, c :: cs =>
    if c = '<' then
      match closeToken cs with
      | some (inner, rest) => .hole (holeOf inner) :: tokenizeFuel n rest
      | none => .lit [c] :: tokenizeFuel n cs
    else .lit [c] :: tokenizeFuel n cs

/-- Adjacent literal characters joined into runs. -/
def joinRuns : List Piece → List Piece
  | [] => []
  | .hole h :: ps => .hole h :: joinRuns ps
  | .lit a :: ps =>
    match joinRuns ps with
    | .lit b :: qs => .lit (a ++ b) :: qs
    | qs => .lit a :: qs

/-- The token stream of a template text: its literal runs and its placeholders, left to right. -/
def tokenize (text : Str) : List Piece := joinRuns (tokenizeFuel text.length text)

/-! ## Definitions for the single pass over a template text, for every engine -/

/-- The fragment that the registry has for the type of a placeholder (empty when it has none). -/
def registryFragment (types : Types) (h : Hole) : Str :=
  (types.lookup h.data).getD []

/-- The compiled fragment of the type of a placeholder, for any engine: nil (`none`) when the
registry has no such type or the engine refuses the fragment. -/
def compiledFragment (E : Engine) (types : Types) (h : Hole) : Option E.Regexp :=
  match types.lookup h.data with
  | some f =>
    match E.compile f with
    | .ok re => some re
    | .error _ => none
  | none => none

/-- The parameter that `Parse` makes of a placeholder, for any engine. -/
def engineParam (E : Engine) (types : Types) (h : Hole) : Parameter E :=
  ⟨h.name, h.data, compiledFragment E types h⟩

/-- The piece after its placeholder, if it is `h`, has been replaced by the text `new`. -/
def putPiece (h : Hole) (new : Str) (p : Piece) : Piece :=
  if p = .hole h then .lit new else p

/-- The piece after every placeholder has been replaced by the group of its registry fragment. -/
def groupPiece (types : Types) : Piece → Piece
  | .lit s => .lit s
  | .hole h => .lit (groupText (registryFragment types h))

/-- The text that a single left-to-right pass makes of the pieces: every literal run, escaped when
`escape` is set, and `(fragment)` for every placeholder, the fragment being the text that the
registry has for its type. -/
def passBody (types : Types) (escape : Bool) : List Piece → Str
  | [] => []
  | .lit s :: ps => (if escape then quoteMeta s else s) ++ passBody types escape ps
  | .hole h :: ps => groupText (registryFragment types h) ++ passBody types escape ps

/-- The expression text that a single left-to-right scan of the template text makes: `^`, then
every literal run, escaped when `escape` is set, and `(fragment)` for every placeholder, then
`$`. -/
def singlePass (types : Types) (escape : Bool) (text : Str) : Str :=
  anchored (passBody types escape (tokenize text))

/-- The engine compiles the expression `<(.*?)>` and finds with it, in the text, the occurrences
that the model of the scan finds. -/
def Engine.scansAsModel (E : Engine) (text : Str) : Prop :=
  ∃ re, E.compile placeholderPattern = .ok re ∧
    E.findAllStringSubmatch re text = occurrences goRegexp text

/-- The model extended to an engine that compiles more expressions than the model parses: an
expression of the list `extra` that the model refuses is accepted, and only its source text is
kept (what it matches is not modelled, an empty syntax tree stands for it). -/
def goRegexpWith (extra : List Str) : Engine where
  Regexp := GoRegexp
  compile expr :=
    match parseRe expr with
    | .ok re => .ok ⟨expr, re⟩
    | .error e => if expr ∈ extra then .ok ⟨expr, .empty⟩ else .error e
  source r := r.src
  matchString r s := (searchFrom r.re 0 s).isSome
  findAllStringSubmatch r s := allMatchesLoop r.re (s.length + 2) 0 (some s) none

/-- A registry with a fragment that uses counted repetition. -/
def pinRegistry : Types :=
  [("string".toList, "[^\\s]+".toList), ("pin".toList, "[0-9]{4}".toList)]

/-- A template with two `<` that open no placeholder (a line feed follows the first before any
`>`, and nothing follows the last) and a placeholder of the type `pin`. -/
def pinTemplate : Str := "open <\n[x] <door> <code:pin> <".toList

/-- An engine that compiles, beyond what the model parses, the fragment of the type `pin` and the
expression of `pinTemplate`. -/
def pinEngine : Engine :=
  goRegexpWith ["[0-9]{4}".toList, "^open <\n\\[x\\] ([^\\s]+) ([0-9]{4}) <$".toList]

/-! # Theorems -/

/-! ## Indexing and lookup -/

theorem sliceIndex_zero_ok {α : Type} (xs : List α) (x : α) (h : sliceIndex xs 0 = .ok x) :
    xs.head? = some x := by
  cases xs with
  | nil => simp [sliceIndex] at h
  | cons y ys => simp [sliceIndex] at h; simp [h]

theorem sliceIndex_one_pair {α : Type} (a b : α) : sliceIndex [a, b] 1 = .ok b := by
  simp [sliceIndex]

theorem positionLoop_get {E : Engine} (l : List (Parameter E))
    (hnd : (l.map (fun p => p.name)).Nodup) (i : Nat) (hi : i < l.length) (k : Int) :
    positionLoop (l.get ⟨i, hi⟩).name l k = k + i := by
  induction l generalizing i k with
  | nil => simp at hi
  | cons a t ih =>
    cases i with
    | zero => simp [positionLoop]
    | succ j =>
      have hj : j < t.length := by simpa using hi
      simp only [List.map_cons, List.nodup_cons] at hnd
      have hne : a.name ≠ (t.get ⟨j, hj⟩).name := by
        intro h
        apply hnd.1
        rw [h]
        exact List.mem_map_of_mem (fun p => p.name) (List.get_mem t j hj)
      have := ih hnd.2 j hj (k + 1)
      simp only [List.get_cons_succ, positionLoop, hne, if_false]
      rw [this]; push_cast; ring

/-! ## `Parse` and `parseParameters` -/

theorem Parse_name {E : Engine} (text : Str) (types : Types) (p : Parameter E)
    (h : Parse E text types = .ok p) : p.name = placeholderName text := by
  unfold Parse at h
  unfold placeholderName
  simp only at h ⊢
  split at h
  · rename_i hc
    rw [if_pos hc]
    split at h <;> try contradiction
    rename_i name data h0 h1
    split at h <;> try contradiction
    split at h <;> try contradiction
    have hh := sliceIndex_zero_ok _ _ h0
    injection h with h
    subst h
    simp [NewParameterWithType, List.headD_eq_head?_getD, hh]
  · rename_i hc
    rw [if_neg hc]
    split at h <;> try contradiction
    injection h with h
    subst h
    simp [NewParameterWithType]

theorem Expression_not_error (E : Engine) (data : Str) (types : Types) (e : Err) :
    Expression E data types ≠ .error e := by
  unfold Expression
  split
  · split <;> simp
  · simp

theorem Expression_no_panic (E : Engine) (data : Str) (types : Types)
    (hv : ValidFragments E types) (k : PanicKind) : Expression E data types ≠ .panic k := by
  unfold Expression
  split
  · rename_i exp hl
    have hmem : (data, exp) ∈ types := by
      obtain ⟨l1, l2, h1, _⟩ := List.lookup_eq_some_iff.mp hl
      rw [h1]; simp
    have := hv _ hmem
    split
    · simp
    · rename_i h; simp [h, Except.toBool] at this
  · simp

theorem stringsSplit_ne_nil (sep : Char) (s : Str) : stringsSplit sep s ≠ [] := by
  cases s with
  | nil => simp [stringsSplit]
  | cons c cs =>
    simp only [stringsSplit]
    split
    · simp
    · split <;> simp

theorem stringsSplit_two (s : Str) (h : ':' ∈ s) : ∃ a b t, stringsSplit ':' s = a :: b :: t := by
  induction s with
  | nil => simp at h
  | cons c cs ih =>
    by_cases hcc : c = ':'
    · simp only [stringsSplit, hcc, if_true]
      cases hs : stringsSplit ':' cs with
      | nil => exact absurd hs (stringsSplit_ne_nil _ _)
      | cons h t => exact ⟨_, _, _, rfl⟩
    · have : ':' ∈ cs := by
        rcases List.mem_cons.mp h with h | h
        · exact absurd h.symm hcc
        · exact h
      obtain ⟨a, b, t, h⟩ := ih this
      exact ⟨c :: a, b, t, by simp [stringsSplit, hcc, h]⟩

theorem Parse_no_panic (E : Engine) (text : Str) (types : Types)
    (hv : ValidFragments E types) (k : PanicKind) : Parse E text types ≠ .panic k := by
  unfold Parse
  simp only
  split
  · rename_i hc
    obtain ⟨a, b, t, h⟩ := stringsSplit_two _ hc
    rw [h]
    simp only [sliceIndex]
    simp
    split
    · split
      · simp
      · exact absurd ‹_› (Expression_not_error _ _ _ _)
      · exact absurd ‹_› (Expression_no_panic _ _ _ hv _)
    · simp
  · split
    · simp
    · exact absurd ‹_› (Expression_not_error _ _ _ _)
    · exact absurd ‹_› (Expression_no_panic _ _ _ hv _)

theorem parseParametersLoop_no_panic (E : Engine) (types : Types) (hv : ValidFragments E types)
    (result : List (List Str)) (list : List (Parameter E)) (namesSet : List Str) (k : PanicKind) :
    parseParametersLoop E types result list namesSet ≠ .panic k := by
  induction result generalizing list namesSet with
  | nil => simp [parseParametersLoop]
  | cons p rest ih =>
    unfold parseParametersLoop
    split
    · exact ih _ _
    · rename_i hlen
      have h2 : p.length = 2 := by simpa using hlen
      obtain ⟨a, b, rfl⟩ : ∃ a b, p = [a, b] := by
        match p, h2 with
        | [a, b], _ => exact ⟨a, b, rfl⟩
      rw [sliceIndex_one_pair]
      simp only
      split
      · split
        · simp
        · exact ih _ _
      · simp
      · exact absurd ‹_› (Parse_no_panic _ _ _ hv _)

/-- The parameters returned by the loop: the ones it started with, followed by the parse of each
occurrence of two elements, with names that are pairwise distinct. -/
theorem parseParametersLoop_ok (E : Engine) (types : Types)
    (result : List (List Str)) (list : List (Parameter E)) (namesSet : List Str)
    (params : List (Parameter E))
    (h : parseParametersLoop E types result list namesSet = .ok params)
    (hset : ∀ x, x ∈ namesSet ↔ x ∈ list.map (fun p => p.name))
    (hnd : (list.map (fun p => p.name)).Nodup) :
    (params.map (fun p => p.name)).Nodup ∧
    ∃ added, params = list ++ added ∧
      List.Forall₂ (fun p param => ∃ w inner, p = [w, inner] ∧ Parse E inner types = .ok param)
        (result.filter (fun p => p.length = 2)) added := by
  induction result generalizing list namesSet with
  | nil =>
    simp only [parseParametersLoop, Outcome.ok.injEq] at h
    subst h
    exact ⟨hnd, [], by simp, by simp⟩
  | cons p rest ih =>
    unfold parseParametersLoop at h
    split at h
    · rename_i hlen
      obtain ⟨h1, added, h2, h3⟩ := ih _ _ h hset hnd
      refine ⟨h1, added, h2, ?_⟩
      have : ¬ p.length = 2 := hlen
      simpa [List.filter_cons, this] using h3
    · rename_i hlen
      have h2 : p.length = 2 := by simpa using hlen
      obtain ⟨a, b, rfl⟩ : ∃ a b, p = [a, b] := by
        match p, h2 with
        | [a, b], _ => exact ⟨a, b, rfl⟩
      rw [sliceIndex_one_pair] at h
      simp only at h
      split at h <;> try contradiction
      rename_i param hparse
      split at h
      · contradiction
      · rename_i hnot
        have hnot' : param.name ∉ list.map (fun p => p.name) := fun hm => hnot ((hset _).2 hm)
        obtain ⟨h1, added, h2', h3⟩ := ih (list ++ [param]) (param.name :: namesSet) h
          (by
            intro x
            simp only [List.mem_cons, List.map_append, List.map_cons, List.map_nil,
              List.mem_append, List.mem_singleton, hset x]
            tauto)
          (by
            simp only [List.map_append, List.map_cons, List.map_nil]
            rw [List.nodup_append]
            refine ⟨hnd, by simp, ?_⟩
            intro x hx hx'
            simp only [List.mem_singleton] at hx'
            subst hx'
            exact hnot' hx)
        refine ⟨h1, param :: added, by simp [h2'], ?_⟩
        simp only [List.filter_cons, h2, decide_True, if_true]
        exact List.Forall₂.cons ⟨a, b, rfl, hparse⟩ h3



theorem parseParameters_ok (E : Engine) (text : Str) (types : Types) (params : List (Parameter E))
    (h : parseParameters E text types = .ok params) :
    (params.map (fun p => p.name)).Nodup ∧
      List.Forall₂ (fun p param => ∃ w inner, p = [w, inner] ∧ Parse E inner types = .ok param)
        ((occurrences E text).filter (fun p => p.length = 2)) params := by
  unfold parseParameters at h
  unfold occurrences
  split at h
  · contradiction
  · rename_i re hre
    simp only [hre]
    obtain ⟨h1, added, h2, h3⟩ := parseParametersLoop_ok E types _ [] [] params h (by simp) (by simp)
    simp only [List.nil_append] at h2
    subst h2
    exact ⟨h1, h3⟩

theorem parseParameters_no_panic (E : Engine) (text : Str) (types : Types)
    (hv : ValidFragments E types) (k : PanicKind) : parseParameters E text types ≠ .panic k := by
  unfold parseParameters
  split
  · simp
  · exact parseParametersLoop_no_panic E types hv _ _ _ k

theorem makeCommand_ok (E : Engine) (text : Str) (escaping : Bool) (types : Option Types)
    (c : Command E) (h : makeCommand E text escaping types = .ok c) :
    parseParameters E text (registryOf types) = .ok c.params ∧
      makeExpression E text c.params escaping = .ok c.expression ∧
      c.text = text ∧ c.escape = escaping := by
  unfold makeCommand at h
  simp only at h
  split at h <;> try contradiction
  rename_i params hp
  split at h <;> try contradiction
  rename_i expr he
  injection h with h
  subst h
  exact ⟨hp, he, rfl, rfl⟩

theorem names_of_forall₂ (E : Engine) (types : Types) (occ : List (List Str))
    (params : List (Parameter E))
    (h : List.Forall₂ (fun p param => ∃ w inner, p = [w, inner] ∧ Parse E inner types = .ok param)
      occ params) :
    params.map (fun p => p.name) = occ.map (fun p => placeholderName (p.getD 1 [])) := by
  induction h with
  | nil => rfl
  | cons hx _ ih =>
    obtain ⟨w, inner, rfl, hp⟩ := hx
    simp [ih, Parse_name _ _ _ hp]

/-- C4: in a template that compiles, the parameters are the parses of the placeholder occurrences,
in the order of the text, `Has` holds of the name of each, and `Position` of the name of the
parameter of index `i` is `i`. -/
theorem compiled_position_has (E : Engine) (text : Str) (escaping : Bool) (types : Option Types)
    (c : Command E) (h : makeCommand E text escaping types = .ok c) :
    List.Forall₂
        (fun p param => ∃ w inner, p = [w, inner] ∧ Parse E inner (registryOf types) = .ok param)
        ((occurrences E text).filter (fun p => p.length = 2)) c.Parameters ∧
      ∀ (i : Nat) (hi : i < c.Parameters.length),
        c.Has (c.Parameters.get ⟨i, hi⟩).name = true ∧
          c.Position (c.Parameters.get ⟨i, hi⟩).name = (i : Int) := by
  obtain ⟨hp, _, _, _⟩ := makeCommand_ok E text escaping types c h
  obtain ⟨hnd, hall⟩ := parseParameters_ok E text _ _ hp
  refine ⟨hall, ?_⟩
  intro i hi
  have hpos : c.Position (c.Parameters.get ⟨i, hi⟩).name = (i : Int) := by
    have := positionLoop_get c.Parameters hnd i hi 0
    simpa [Command.Position] using this
  refine ⟨?_, hpos⟩
  simp only [Command.Has, hpos, bne_iff_ne, ne_eq]
  omega

/-- The statement of C4 on a template of `TestPosition`. -/
theorem compiled_position_has_witness :
    makeCommand goRegexp positionTemplate false none = .ok positionCommand ∧
      positionCommand.Has "dolor".toList = true ∧ positionCommand.Position "dolor".toList = 2 :=
  ⟨rfl, (compiled_position_has goRegexp positionTemplate false none positionCommand rfl).2 2
    (by decide)⟩

/-- C5: with a registry whose fragments all compile, a template in which two placeholder
occurrences have the same name is refused with an error, in either mode; and the parameter names
of a template that compiles are pairwise distinct. -/
theorem duplicate_names_rejected (E : Engine) (text : Str) (escaping : Bool)
    (types : Option Types) (hv : ValidFragments E (registryOf types)) :
    (¬ (occurrenceNames E text).Nodup → (makeCommand E text escaping types).isError = true) ∧
      ∀ c, makeCommand E text escaping types = .ok c →
        (c.Parameters.map (fun p => p.name)).Nodup := by
  constructor
  · intro hdup
    cases hp : parseParameters E text (registryOf types) with
    | ok params =>
      exfalso
      apply hdup
      obtain ⟨hnd, hall⟩ := parseParameters_ok E text _ _ hp
      unfold occurrenceNames
      rw [← names_of_forall₂ E _ _ _ hall]
      exact hnd
    | error e => simp [makeCommand, hp, Outcome.isError]
    | panic k => exact absurd hp (parseParameters_no_panic E text _ hv k)
  · intro c hc
    obtain ⟨hp, _, _, _⟩ := makeCommand_ok E text escaping types c hc
    exact (parseParameters_ok E text _ _ hp).1

/-- The statement of C5 on the template of `TestDuplicatedNames`. -/
theorem duplicate_names_rejected_witness :
    ValidFragments goRegexp (registryOf none) ∧ ¬ (occurrenceNames goRegexp duplicateTemplate).Nodup ∧
      (makeCommand goRegexp duplicateTemplate false none).isError = true :=
  ⟨by decide, by decide,
    (duplicate_names_rejected goRegexp duplicateTemplate false none (by decide)).1 (by decide)⟩

/-- C6: with a registry that lacks the type `string`, compiling a template with a placeholder
written without a type panics on a nil expression, where a placeholder with an explicit unknown
type is refused with an error. -/
theorem default_type_missing_panics :
    New goRegexp "command <lorem>".toList (some integerOnly) = .panic .nilDereference ∧
      NewWithEscaping goRegexp "command <lorem>".toList (some integerOnly) =
        .panic .nilDereference ∧
      New goRegexp "command <lorem:word>".toList (some integerOnly) =
        .error (.undefinedType "word".toList) :=
  ⟨rfl, rfl, rfl⟩

/-- C7: for the template `command <lorem>`, with one capturing group, and the request
`command example`, `Match.Match` returns the group at position 0, but panics at position 1 (the
number of groups), returns the whole match at position -1 and panics at position -2; it returns
an error only from position 2 on. -/
theorem positional_lookup_bounds :
    New goRegexp "command <lorem>".toList none = .ok loremCommand ∧
      loremCommand.Match "command example".toList =
        .ok ⟨loremCommand, "command example".toList⟩ ∧
      loremCommand.Expression.re.groups = 1 ∧
      (⟨loremCommand, "command example".toList⟩ : Match goRegexp).Match 0 =
        .ok "example".toList ∧
      (⟨loremCommand, "command example".toList⟩ : Match goRegexp).Match 1 =
        .panic .indexOutOfRange ∧
      (⟨loremCommand, "command example".toList⟩ : Match goRegexp).Match (-1) =
        .ok "command example".toList ∧
      (⟨loremCommand, "command example".toList⟩ : Match goRegexp).Match (-2) =
        .panic .indexOutOfRange ∧
      (⟨loremCommand, "command example".toList⟩ : Match goRegexp).Match 2 =
        .error (.noParameterAt 2) :=
  ⟨rfl, rfl, rfl, rfl, rfl, rfl, rfl, rfl⟩

/-- C8: on a `Match` built from the template `command <lorem>` and the request `example`, which
the template does not match, `Match.Match` at the position of `lorem` returns the error
`unableToParse` and `Match.Parameter` of `lorem` panics. -/
theorem parameter_panics_without_match :
    New goRegexp "command <lorem>".toList none = .ok loremCommand ∧
      loremCommand.Position "lorem".toList = 0 ∧
      (⟨loremCommand, "example".toList⟩ : Match goRegexp).Match
        (loremCommand.Position "lorem".toList) = .error .unableToParse ∧
      (⟨loremCommand, "example".toList⟩ : Match goRegexp).Parameter "lorem".toList =
        .panic .indexOutOfRange :=
  ⟨rfl, rfl, rfl, rfl⟩

/-- C3: the template `command|cmd` compiled by `New` has the expression `^command|cmd$`, and
`Matches` holds of the request `command example`, which the pattern `command|cmd` does not match
from its first to its last character. -/
theorem alternation_escapes_anchors :
    New goRegexp "command|cmd".toList none = .ok alternationCommand ∧
      alternationCommand.Expression.src = "^command|cmd$".toList ∧
      alternationCommand.Matches "command example".toList = true ∧
      alternationCommand.Matches "my cmd".toList = true ∧
      fullMatchText "command|cmd".toList "command example".toList = false ∧
      fullMatchText "command|cmd".toList "my cmd".toList = false :=
  ⟨rfl, rfl, rfl, rfl, rfl, rfl⟩

/-- C10: the template `cmd <a.b>` compiled by `NewWithEscaping` has the parameter `a.b`, but the
escaped text is `cmd <a\.b>`, in which the token `<a.b>` does not occur: the expression has no
capturing group and matches the placeholder as literal text, and `Parameter` of `a.b` panics on
the request that matches. -/
theorem escaping_breaks_token :
    NewWithEscaping goRegexp "cmd <a.b>".toList none = .ok dottedCommand ∧
      dottedCommand.Parameters.map (fun p => p.name) = ["a.b".toList] ∧
      quoteMeta "cmd <a.b>".toList = "cmd <a\\.b>".toList ∧
      dottedCommand.Expression.src = "^cmd <a\\.b>$".toList ∧
      dottedCommand.Expression.re.groups = 0 ∧
      dottedCommand.Matches "cmd <a.b>".toList = true ∧
      dottedCommand.Matches "cmd value".toList = false ∧
      (⟨dottedCommand, "cmd <a.b>".toList⟩ : Match goRegexp).Parameter "a.b".toList =
        .panic .indexOutOfRange :=
  ⟨rfl, rfl, rfl, rfl, rfl, rfl, rfl, rfl⟩

/-! ## Text processing -/

theorem all_not_special (s : Str) :
    s.all (fun c => !(specialChars.contains c)) = true ↔ ∀ c ∈ s, c ∉ specialChars := by
  simp [List.all_eq_true]

theorem not_contains_iff (s : Str) (x : Char) : (!(s.contains x)) = true ↔ x ∉ s := by
  simp

theorem quoteMeta_append (a b : Str) : quoteMeta (a ++ b) = quoteMeta a ++ quoteMeta b := by
  induction a with
  | nil => rfl
  | cons c cs ih =>
    simp only [List.cons_append, quoteMeta]
    split <;> simp [ih]

theorem quoteMeta_unspecial (s : Str) (h : ∀ c ∈ s, c ∉ specialChars) : quoteMeta s = s := by
  induction s with
  | nil => rfl
  | cons c cs ih =>
    have hc : c ∉ specialChars := h c (List.mem_cons_self _ _)
    simp only [quoteMeta, hc, if_false]
    rw [ih (fun x hx => h x (List.mem_cons_of_mem _ hx))]

theorem quoteMeta_no_lt (s : Str) (h : '<' ∉ s) : '<' ∉ quoteMeta s := by
  induction s with
  | nil => simp [quoteMeta]
  | cons c cs ih =>
    simp only [List.mem_cons, not_or] at h
    simp only [quoteMeta]
    split
    · simp only [List.mem_cons, not_or]
      exact ⟨by decide, h.1, ih h.2⟩
    · simp only [List.mem_cons, not_or]
      exact ⟨h.1, ih h.2⟩

theorem replaceGo_skip (old new : Str) (k : Nat) (s : Str) :
    replaceGo old new k s = replaceGo old new 0 (s.drop k) := by
  induction k generalizing s with
  | zero => rfl
  | succ n ih =>
    cases s with
    | nil => simp [replaceGo]
    | cons c cs => simp [replaceGo, ih]

/-- A run without the first character of `old` is copied. -/
theorem replaceGo_plain (o : Char) (old new pre rest : Str) (h : o ∉ pre) :
    replaceGo (o :: old) new 0 (pre ++ rest) = pre ++ replaceGo (o :: old) new 0 rest := by
  induction pre with
  | nil => rfl
  | cons c cs ih =>
    simp only [List.mem_cons, not_or] at h
    have hp : (o :: old).isPrefixOf (c :: (cs ++ rest)) = false := by
      simp only [List.isPrefixOf, Bool.and_eq_false_imp, beq_iff_eq]
      intro e
      exact absurd e h.1
    have hne : ¬ (o = c ∧ old <+: cs ++ rest) := fun e => h.1 e.1
    simp [replaceGo, hne, ih h.2]

/-- An occurrence of `old` is replaced. -/
theorem replaceGo_hit (o : Char) (old new rest : Str) :
    replaceGo (o :: old) new 0 ((o :: old) ++ rest) = new ++ replaceGo (o :: old) new 0 rest := by
  have hp : (o :: old).isPrefixOf (o :: (old ++ rest)) = true := by
    rw [List.isPrefixOf_iff_prefix]
    exact List.prefix_append (o :: old) rest
  simp only [List.cons_append, replaceGo, hp, if_true, List.length_cons, Nat.add_sub_cancel]
  rw [replaceGo_skip]
  simp

/-- Two tokens, one a beginning of a text that starts with the other, are the same token. -/
theorem token_prefix_eq (x y rest : Str) (hx : '>' ∉ x) (hy : '>' ∉ y)
    (h : ('<' :: x ++ ['>']) <+: ('<' :: y ++ ['>']) ++ rest) : x = y := by
  have h' : x ++ ['>'] <+: y ++ '>' :: rest := by
    simpa using h
  clear h
  induction x generalizing y with
  | nil =>
    cases y with
    | nil => rfl
    | cons b bs =>
      simp only [List.nil_append, List.cons_append] at h'
      have := List.cons_prefix_cons.mp h'
      simp only [List.mem_cons, not_or] at hy
      exact absurd this.1 hy.1
  | cons a as ih =>
    simp only [List.mem_cons, not_or] at hx
    cases y with
    | nil =>
      simp only [List.nil_append, List.cons_append] at h'
      have := List.cons_prefix_cons.mp h'
      exact absurd this.1.symm hx.1
    | cons b bs =>
      simp only [List.mem_cons, not_or] at hy
      simp only [List.cons_append] at h'
      have := List.cons_prefix_cons.mp h'
      rw [this.1, ih bs hx.2 hy.2 this.2]

/-- A token other than `old` is copied. -/
theorem replaceGo_miss (x y new rest : Str) (hx : '>' ∉ x) (hy : '>' ∉ y) (hy' : '<' ∉ y)
    (hne : x ≠ y) :
    replaceGo ('<' :: x ++ ['>']) new 0 (('<' :: y ++ ['>']) ++ rest) =
      ('<' :: y ++ ['>']) ++ replaceGo ('<' :: x ++ ['>']) new 0 rest := by
  have hp : ('<' :: (x ++ ['>'])).isPrefixOf ('<' :: (y ++ ['>'] ++ rest)) = false := by
    rw [Bool.eq_false_iff]
    intro hp
    rw [List.isPrefixOf_iff_prefix] at hp
    exact hne (token_prefix_eq x y rest hx hy (by simpa using hp))
  have h1 : replaceGo ('<' :: x ++ ['>']) new 0 (('<' :: y ++ ['>']) ++ rest) =
      '<' :: replaceGo ('<' :: x ++ ['>']) new 0 ((y ++ ['>']) ++ rest) := by
    simp only [List.cons_append, replaceGo, List.append_assoc] at hp ⊢
    simp only [List.append_assoc, List.cons_append, List.nil_append] at hp
    simp [hp]
  rw [h1]
  have h2 := replaceGo_plain '<' (x ++ ['>']) new (y ++ ['>']) rest (by simp [hy'])
  simp only [List.cons_append] at h2 ⊢
  rw [h2]


/-! ## Substitution of the placeholders -/

theorem nameChar_facts (c : Char) (h : nameChar c = true) :
    c ∉ specialChars ∧ c ≠ '<' ∧ c ≠ '>' ∧ c ≠ ':' ∧ c.toNat ≠ 10 := by
  simp only [nameChar, Bool.and_eq_true, Bool.not_eq_true', bne_iff_ne, ne_eq,
    List.contains_eq_any_beq, List.any_eq_false, beq_iff_eq] at h
  obtain ⟨⟨⟨⟨h1, h2⟩, h3⟩, h4⟩, h5⟩ := h
  exact ⟨fun hm => h1 c hm rfl, h2, h3, h4, h5⟩

theorem Hole.plain_name (h : Hole) (hp : h.plain = true) : ∀ c ∈ h.name, nameChar c = true := by
  simp only [Hole.plain, Bool.and_eq_true, List.all_eq_true] at hp
  exact hp.1

theorem Hole.plain_data (h : Hole) (hp : h.plain = true) : ∀ c ∈ h.data, nameChar c = true := by
  simp only [Hole.plain, Bool.and_eq_true, List.all_eq_true] at hp
  exact hp.2

/-- The inner text of a plain placeholder has no special character, no angle bracket and no line
feed. -/
theorem Hole.plain_inner (h : Hole) (hp : h.plain = true) :
    ∀ c ∈ h.inner, c ∉ specialChars ∧ c ≠ '<' ∧ c ≠ '>' ∧ c.toNat ≠ 10 := by
  intro c hc
  have hn := h.plain_name hp
  have hd := h.plain_data hp
  unfold Hole.inner at hc
  unfold Hole.data at hd
  cases ht : h.type with
  | none =>
    rw [ht] at hc
    have := nameChar_facts c (hn c hc)
    exact ⟨this.1, this.2.1, this.2.2.1, this.2.2.2.2⟩
  | some t =>
    rw [ht] at hc hd
    simp only [List.mem_append, List.mem_cons] at hc
    rcases hc with hc | hc | hc
    · have := nameChar_facts c (hn c hc)
      exact ⟨this.1, this.2.1, this.2.2.1, this.2.2.2.2⟩
    · subst hc
      exact ⟨by decide, by decide, by decide, by decide⟩
    · have := nameChar_facts c (hd c hc)
      exact ⟨this.1, this.2.1, this.2.2.1, this.2.2.2.2⟩

theorem stringsReplace_token (x new s : Str) :
    stringsReplace s ('<' :: x ++ ['>']) new = replaceGo ('<' :: x ++ ['>']) new 0 s := by
  simp [stringsReplace]

theorem templateText_cons (p : Piece) (ps : List Piece) :
    templateText (p :: ps) = p.text ++ templateText ps := by
  simp [templateText]

theorem templateText_nil : templateText [] = [] := rfl

/-- Replacing a token in a template replaces the placeholders written as that token. -/
theorem replace_pieces (x new : Str) (hx : '>' ∉ x) (ps : List Piece) (hps : piecesPlain ps = true) :
    stringsReplace (templateText ps) ('<' :: x ++ ['>']) new =
      templateText (ps.map (replacePiece x new)) := by
  rw [stringsReplace_token]
  induction ps with
  | nil => simp [templateText, replaceGo]
  | cons p ps ih =>
    rw [List.map_cons, templateText_cons, templateText_cons]
    cases p with
    | lit s =>
      simp only [piecesPlain, Bool.and_eq_true, not_contains_iff] at hps
      have := replaceGo_plain '<' (x ++ ['>']) new s (templateText ps) hps.1
      simp only [Piece.text, replacePiece]
      rw [← ih hps.2]
      exact this
    | hole h =>
      simp only [piecesPlain, Bool.and_eq_true] at hps
      have hin := h.plain_inner hps.1
      by_cases he : h.inner = x
      · have := replaceGo_hit '<' (x ++ ['>']) new (templateText ps)
        simp only [Piece.text, replacePiece, he, if_true, Hole.token]
        rw [← ih hps.2]
        exact this
      · have := replaceGo_miss x h.inner new (templateText ps) hx
          (fun hm => (hin _ hm).2.2.1 rfl) (fun hm => (hin _ hm).2.1 rfl) (fun e => he e.symm)
        simp only [Piece.text, replacePiece, he, if_false, Hole.token]
        rw [← ih hps.2]
        exact this


theorem colon_split_unique (a a' b b' : Str) (ha : ':' ∉ a) (ha' : ':' ∉ a')
    (h : a ++ ':' :: b = a' ++ ':' :: b') : a = a' := by
  induction a generalizing a' with
  | nil =>
    cases a' with
    | nil => rfl
    | cons c cs =>
      simp only [List.nil_append, List.cons_append, List.cons.injEq] at h
      simp only [List.mem_cons, not_or] at ha'
      exact absurd h.1 ha'.1
  | cons x xs ih =>
    simp only [List.mem_cons, not_or] at ha
    cases a' with
    | nil =>
      simp only [List.nil_append, List.cons_append, List.cons.injEq] at h
      exact absurd h.1.symm ha.1
    | cons c cs =>
      simp only [List.mem_cons, not_or] at ha'
      simp only [List.cons_append, List.cons.injEq] at h
      rw [h.1, ih cs ha.2 ha'.2 h.2]

theorem Hole.name_no_colon (h : Hole) (hp : h.plain = true) : ':' ∉ h.name :=
  fun hm => (nameChar_facts _ (h.plain_name hp _ hm)).2.2.2.1 rfl

/-- Among plain placeholders, the two tokens of the parameter of `h` are written only by a
placeholder of the same name. -/
theorem inner_eq_name (h h' : Hole) (hp : h.plain = true) (hp' : h'.plain = true)
    (he : h'.inner = h.name ++ ':' :: h.data ∨ h'.inner = h.name) : h'.name = h.name := by
  have hc := h.name_no_colon hp
  have hc' := h'.name_no_colon hp'
  cases ht : h'.type with
  | none =>
    simp only [Hole.inner, ht] at he
    rcases he with he | he
    · rw [he] at hc'
      exact absurd hc' (by simp)
    · exact he
  | some t =>
    simp only [Hole.inner, ht] at he
    rcases he with he | he
    · exact colon_split_unique _ _ _ _ hc' hc he
    · rw [← he] at hc
      exact absurd hc (by simp)

/-- The two replacements that `makeExpression` does for the parameter of `h` fill the
placeholder `h` and leave the other pieces as they are. -/
theorem replace_both (types : Types) (h : Hole) (hp : h.plain = true) (p : Piece)
    (hpl : ∀ h', p = .hole h' → h'.plain = true)
    (huniq : ∀ h', p = .hole h' → h'.name = h.name → h' = h) :
    replacePiece h.name (groupText (holeFragment types h))
      (replacePiece (h.name ++ ':' :: h.data) (groupText (holeFragment types h)) p) =
      fillPiece types h p := by
  cases p with
  | lit s => simp [replacePiece, fillPiece]
  | hole h' =>
    by_cases e : h' = h
    · subst e
      simp only [fillPiece, if_true]
      cases ht : h'.type with
      | none =>
        have h1 : h'.inner = h'.name := by simp [Hole.inner, ht]
        have h2 : ¬ h'.inner = h'.name ++ ':' :: h'.data := by
          rw [h1]; intro e; have := congrArg List.length e; simp at this
        simp [replacePiece, h1, h2]
      | some t =>
        have h1 : h'.inner = h'.name ++ ':' :: h'.data := by simp [Hole.inner, Hole.data, ht]
        simp [replacePiece, h1]
    · have hne : h'.name ≠ h.name := fun en => e (huniq h' rfl en)
      have h1 : ¬ h'.inner = h.name ++ ':' :: h.data :=
        fun e1 => hne (inner_eq_name h h' hp (hpl h' rfl) (Or.inl e1))
      have h2 : ¬ h'.inner = h.name :=
        fun e1 => hne (inner_eq_name h h' hp (hpl h' rfl) (Or.inr e1))
      have h3 : ¬ (Piece.hole h' = Piece.hole h) := fun e1 => e (by injection e1)
      simp [replacePiece, fillPiece, h1, h2, h3]

theorem holesOf_cons_lit (s : Str) (ps : List Piece) : holesOf (.lit s :: ps) = holesOf ps := rfl

theorem holesOf_cons_hole (h : Hole) (ps : List Piece) :
    holesOf (.hole h :: ps) = h :: holesOf ps := rfl

theorem mem_holesOf (ps : List Piece) (h : Hole) : h ∈ holesOf ps ↔ Piece.hole h ∈ ps := by
  induction ps with
  | nil => simp [holesOf]
  | cons p ps ih =>
    cases p with
    | lit s => simp [holesOf, ih]
    | hole h' => simp [holesOf, ih]

theorem piecesPlain_hole (ps : List Piece) (hps : piecesPlain ps = true) (h : Hole)
    (hm : Piece.hole h ∈ ps) : h.plain = true := by
  induction ps with
  | nil => simp at hm
  | cons p ps ih =>
    cases p with
    | lit s =>
      simp only [piecesPlain, Bool.and_eq_true] at hps
      simp only [List.mem_cons, reduceCtorEq, false_or] at hm
      exact ih hps.2 hm
    | hole h' =>
      simp only [piecesPlain, Bool.and_eq_true] at hps
      simp only [List.mem_cons, Piece.hole.injEq] at hm
      rcases hm with hm | hm
      · rw [hm]; exact hps.1
      · exact ih hps.2 hm

theorem fill_absent (types : Types) (h : Hole) (ps : List Piece) (hm : h ∉ holesOf ps) :
    ps.map (fillPiece types h) = ps := by
  induction ps with
  | nil => rfl
  | cons p ps ih =>
    cases p with
    | lit s =>
      rw [holesOf_cons_lit] at hm
      simp [fillPiece, ih hm]
    | hole h' =>
      rw [holesOf_cons_hole] at hm
      simp only [List.mem_cons, not_or] at hm
      have : ¬ (Piece.hole h' = Piece.hole h) := fun e => hm.1 (by injection e with e; exact e.symm)
      simp [fillPiece, this, ih hm.2]

theorem fill_holes (types : Types) (h : Hole) (hs : List Hole) (ps : List Piece)
    (hh : holesOf ps = h :: hs) (hm : h ∉ hs) : holesOf (ps.map (fillPiece types h)) = hs := by
  induction ps with
  | nil => simp [holesOf] at hh
  | cons p ps ih =>
    cases p with
    | lit s =>
      rw [holesOf_cons_lit] at hh
      simp only [List.map_cons, fillPiece, reduceCtorEq, if_false, holesOf_cons_lit]
      exact ih hh
    | hole h' =>
      rw [holesOf_cons_hole] at hh
      injection hh with h1 h2
      subst h1
      rw [← h2] at hm
      simp only [List.map_cons, fillPiece, if_true, holesOf_cons_lit]
      rw [fill_absent types h' ps hm, h2]

theorem fill_plain (types : Types) (h : Hole) (ps : List Piece) (hps : piecesPlain ps = true)
    (hf : '<' ∉ holeFragment types h) : piecesPlain (ps.map (fillPiece types h)) = true := by
  induction ps with
  | nil => rfl
  | cons p ps ih =>
    cases p with
    | lit s =>
      simp only [piecesPlain, Bool.and_eq_true] at hps
      simp only [List.map_cons, fillPiece, reduceCtorEq, if_false, piecesPlain, Bool.and_eq_true]
      exact ⟨hps.1, ih hps.2⟩
    | hole h' =>
      simp only [piecesPlain, Bool.and_eq_true] at hps
      by_cases e : Piece.hole h' = Piece.hole h
      · simp only [List.map_cons, fillPiece, e, if_true, piecesPlain, Bool.and_eq_true,
          not_contains_iff]
        refine ⟨?_, ih hps.2⟩
        simp [groupText, hf]
      · simp only [List.map_cons, fillPiece, e, if_false, piecesPlain, Bool.and_eq_true]
        exact ⟨hps.1, ih hps.2⟩

theorem replace_plain (x new : Str) (hn : '<' ∉ new) (ps : List Piece)
    (hps : piecesPlain ps = true) : piecesPlain (ps.map (replacePiece x new)) = true := by
  induction ps with
  | nil => rfl
  | cons p ps ih =>
    cases p with
    | lit s =>
      simp only [piecesPlain, Bool.and_eq_true] at hps
      simp only [List.map_cons, replacePiece, piecesPlain, Bool.and_eq_true]
      exact ⟨hps.1, ih hps.2⟩
    | hole h' =>
      simp only [piecesPlain, Bool.and_eq_true] at hps
      by_cases e : h'.inner = x
      · simp only [List.map_cons, replacePiece, e, if_true, piecesPlain, Bool.and_eq_true,
          not_contains_iff]
        exact ⟨hn, ih hps.2⟩
      · simp only [List.map_cons, replacePiece, e, if_false, piecesPlain, Bool.and_eq_true]
        exact ⟨hps.1, ih hps.2⟩

theorem fill_final (types : Types) (h : Hole) (ps : List Piece) :
    (ps.map (fillPiece types h)).map (finalPiece types) = ps.map (finalPiece types) := by
  induction ps with
  | nil => rfl
  | cons p ps ih =>
    simp only [List.map_cons, ih, List.cons.injEq, and_true]
    unfold fillPiece
    split
    · rename_i e; subst e; rfl
    · rfl

theorem final_no_holes (types : Types) (ps : List Piece) (h : holesOf ps = []) :
    ps.map (finalPiece types) = ps := by
  induction ps with
  | nil => rfl
  | cons p ps ih =>
    cases p with
    | lit s => rw [holesOf_cons_lit] at h; simp [finalPiece, ih h]
    | hole h' => simp [holesOf] at h

theorem holesResolve_cons (types : Types) (h : Hole) (hs : List Hole)
    (hr : holesResolve types (h :: hs) = true) :
    (∃ g, resolveHole types h = some g ∧ '<' ∉ g.src) ∧ holesResolve types hs = true := by
  simp only [holesResolve, List.all_cons, Bool.and_eq_true] at hr ⊢
  refine ⟨?_, hr.2⟩
  have := hr.1
  split at this
  · rename_i g hg
    exact ⟨g, hg, by simpa using this⟩
  · simp at this

/-- The substitution loop of `makeExpression` replaces every placeholder by its group. -/
theorem substituteParams_pieces (types : Types) (hs : List Hole) (ps : List Piece)
    (hh : holesOf ps = hs) (hps : piecesPlain ps = true)
    (hnd : (hs.map Hole.name).Nodup) (hr : holesResolve types hs = true) :
    substituteParams (hs.map (holeParam types)) (templateText ps) =
      .ok (templateText (ps.map (finalPiece types))) := by
  induction hs generalizing ps with
  | nil => simp [substituteParams, final_no_holes types ps hh]
  | cons h hs ih =>
    obtain ⟨⟨g, hg, hlt⟩, hr'⟩ := holesResolve_cons types h hs hr
    simp only [List.map_cons, List.nodup_cons] at hnd
    have hmem : Piece.hole h ∈ ps := (mem_holesOf ps h).1 (by rw [hh]; simp)
    have hpl : h.plain = true := piecesPlain_hole ps hps h hmem
    have hnot : h ∉ hs := fun hm => hnd.1 (List.mem_map_of_mem Hole.name hm)
    have hfrag : holeFragment types h = g.src := by simp [holeFragment, hg]
    have hgt : '>' ∉ h.name := fun hm => (nameChar_facts _ (h.plain_name hpl _ hm)).2.2.1 rfl
    have hgt2 : '>' ∉ h.name ++ ':' :: h.data := by
      intro hm
      simp only [List.mem_append, List.mem_cons] at hm
      rcases hm with hm | hm | hm
      · exact hgt hm
      · exact absurd hm (by decide)
      · exact (nameChar_facts _ (h.plain_data hpl _ hm)).2.2.1 rfl
    have hstep : ps.map (fun p => replacePiece h.name (groupText g.src)
        (replacePiece (h.name ++ ':' :: h.data) (groupText g.src) p)) =
        ps.map (fillPiece types h) := by
      apply List.map_congr_left
      intro p hp
      rw [← hfrag]
      apply replace_both types h hpl p
      · intro h' e
        subst e
        exact piecesPlain_hole ps hps h' hp
      · intro h' e en
        subst e
        have hm' : h' ∈ h :: hs := by rw [← hh]; exact (mem_holesOf ps h').2 hp
        rcases List.mem_cons.mp hm' with hm' | hm'
        · exact hm'
        · exact absurd (en ▸ List.mem_map_of_mem Hole.name hm') hnd.1
    have hplain1 : piecesPlain (ps.map (replacePiece (h.name ++ ':' :: h.data) (groupText g.src)))
        = true := replace_plain _ _ (by simp [groupText, hlt]) ps hps
    simp only [List.map_cons, substituteParams, Parameter.Expression, holeParam, hg,
      Parameter.Name, Parameter.Data]
    show substituteParams (hs.map (holeParam types))
      (stringsReplace (stringsReplace (templateText ps) (longToken h.name h.data)
        (groupText (goRegexp.source g))) (shortToken h.name) (groupText (goRegexp.source g))) = _
    have e1 : longToken h.name h.data = '<' :: (h.name ++ ':' :: h.data) ++ ['>'] := by
      simp [longToken]
    have e2 : shortToken h.name = '<' :: h.name ++ ['>'] := rfl
    have e3 : goRegexp.source g = g.src := rfl
    rw [e1, e2, e3, replace_pieces _ _ hgt2 ps hps, replace_pieces _ _ hgt _ hplain1,
      List.map_map]
    rw [show (replacePiece h.name (groupText g.src) ∘
        replacePiece (h.name ++ ':' :: h.data) (groupText g.src)) =
        (fun p => replacePiece h.name (groupText g.src)
          (replacePiece (h.name ++ ':' :: h.data) (groupText g.src) p)) from rfl, hstep]
    rw [ih (ps.map (fillPiece types h)) (fill_holes types h hs ps hh hnot)
      (fill_plain types h ps hps (hfrag ▸ hlt)) hnd.2 hr', fill_final]

/-! ## Parsing the expression of a template -/

theorem step_plain_char (s : PState) (c : Char) (hm : s.mode = .normal) (hc : c ∉ specialChars) :
    step s c = .ok (s.push (.chr c)) := by
  simp only [specialChars, List.mem_cons, List.mem_singleton, not_or, List.mem_nil_iff,
    not_false_eq_true, and_true] at hc
  obtain ⟨h1, h2, h3, h4, h5, h6, h7, h8, h9, h10, h11, h12, h13, h14⟩ := hc
  simp [step, hm, stepNormal, h1, h2, h3, h4, h5, h6, h7, h8, h9, h10, h11, h12, h13, h14]

theorem stepEsc_special (s : PState) (c : Char) (hc : c ∈ specialChars) :
    stepEsc s c = .ok (s.push (.chr c)) := by
  simp only [specialChars, List.mem_cons, List.mem_singleton, List.mem_nil_iff, or_false] at hc
  rcases hc with h | h | h | h | h | h | h | h | h | h | h | h | h | h <;> subst h <;> rfl

theorem parse_special_char (s : PState) (c : Char) (rest : Str) (hm : s.mode = .normal)
    (hc : c ∈ specialChars) :
    parseFrom s ('\\' :: c :: rest) = parseFrom (s.push (.chr c)) rest := by
  have h1 : step s '\\' = .ok { s with mode := .esc, rep := .none } := by
    simp [step, hm, stepNormal]
  have h2 : step { s with mode := .esc, rep := .none } c = .ok (s.push (.chr c)) := by
    simp only [step]
    exact stepEsc_special _ c hc
  simp [parseFrom, h1, h2]

theorem push_mode (s : PState) (r : Re) : (s.push r).mode = .normal := rfl

theorem pushAll_mode (s : PState) (items : List Re) (hm : s.mode = .normal) :
    (s.pushAll items).mode = .normal := by
  induction items generalizing s with
  | nil => exact hm
  | cons r rs ih => exact ih (s.push r) rfl

theorem pushAll_cons (s : PState) (r : Re) (rs : List Re) :
    s.pushAll (r :: rs) = (s.push r).pushAll rs := rfl

theorem pushAll_append (s : PState) (a b : List Re) :
    s.pushAll (a ++ b) = (s.pushAll a).pushAll b := by
  simp [PState.pushAll, List.foldl_append]

/-- Escaped literal text is parsed into its characters. -/
theorem parse_quoteMeta (s : PState) (l rest : Str) (hm : s.mode = .normal) :
    parseFrom s (quoteMeta l ++ rest) = parseFrom (s.pushAll (l.map Re.chr)) rest := by
  induction l generalizing s with
  | nil => rfl
  | cons c cs ih =>
    simp only [quoteMeta]
    split
    · rename_i hc
      rw [List.cons_append, List.cons_append, parse_special_char s c _ hm hc, ih _ rfl]
      rfl
    · rename_i hc
      rw [List.cons_append]
      simp only [parseFrom, step_plain_char s c hm hc]
      rw [ih _ rfl]
      rfl

/-- Literal text without special characters is parsed into its characters. -/
theorem parse_unspecial (s : PState) (l rest : Str) (hm : s.mode = .normal)
    (hl : ∀ c ∈ l, c ∉ specialChars) :
    parseFrom s (l ++ rest) = parseFrom (s.pushAll (l.map Re.chr)) rest := by
  rw [← quoteMeta_unspecial l hl, parse_quoteMeta s l rest hm, quoteMeta_unspecial l hl]


theorem closeGroup_under (s s' : PState) (o : List (Bool × Frame))
    (h : s.closeGroup = .ok s') : (s.under o).closeGroup = .ok (s'.under o) := by
  unfold PState.closeGroup at h ⊢
  cases hs : s.outer with
  | nil => simp [hs] at h
  | cons x xs =>
    obtain ⟨capture, fr⟩ := x
    simp only [hs] at h
    injection h with h
    subst h
    simp [PState.under, hs]

theorem repeatOp_under (s s' : PState) (o : List (Bool × Frame)) (op : Bool → Re → Re)
    (h : s.repeatOp op = .ok s') : (s.under o).repeatOp op = .ok (s'.under o) := by
  unfold PState.repeatOp at h ⊢
  cases hr : s.rep <;> simp only [hr] at h <;> try contradiction
  cases hc : s.frame.cur with
  | nil => simp [hc] at h
  | cons r rs =>
    simp only [hc] at h
    injection h with h
    subst h
    simp [PState.under, hr, hc]

theorem questOp_under (s s' : PState) (o : List (Bool × Frame))
    (h : s.questOp = .ok s') : (s.under o).questOp = .ok (s'.under o) := by
  unfold PState.questOp at h ⊢
  cases hr : s.rep
  · simp only [hr] at h
    have := repeatOp_under s s' o _ h
    simpa [PState.under, hr] using this
  · simp only [hr] at h
    cases hc : s.frame.cur with
    | nil => simp [hc] at h
    | cons r rs =>
      simp only [hc] at h
      injection h with h
      subst h
      simp [PState.under, hr, hc]
  · simp only [hr] at h
    have := repeatOp_under s s' o _ h
    simpa [PState.under, hr] using this

theorem stepNormal_under (s s' : PState) (o : List (Bool × Frame)) (c : Char)
    (h : stepNormal s c = .ok s') : stepNormal (s.under o) c = .ok (s'.under o) := by
  unfold stepNormal at h ⊢
  by_cases h0 : c = '('
  · rw [if_pos h0] at h ⊢
    injection h with h; subst h; rfl
  rw [if_neg h0] at h ⊢
  by_cases h1 : c = ')'
  · rw [if_pos h1] at h ⊢
    exact closeGroup_under _ _ _ h
  rw [if_neg h1] at h ⊢
  by_cases h2 : c = '|'
  · rw [if_pos h2] at h ⊢
    injection h with h; subst h; rfl
  rw [if_neg h2] at h ⊢
  by_cases h3 : c = '*'
  · rw [if_pos h3] at h ⊢
    exact repeatOp_under _ _ _ _ h
  rw [if_neg h3] at h ⊢
  by_cases h4 : c = '+'
  · rw [if_pos h4] at h ⊢
    exact repeatOp_under _ _ _ _ h
  rw [if_neg h4] at h ⊢
  by_cases h5 : c = '?'
  · rw [if_pos h5] at h ⊢
    exact questOp_under _ _ _ h
  rw [if_neg h5] at h ⊢
  by_cases h6 : c = '['
  · rw [if_pos h6] at h ⊢
    injection h with h; subst h; rfl
  rw [if_neg h6] at h ⊢
  by_cases h7 : c = '\\'
  · rw [if_pos h7] at h ⊢
    injection h with h; subst h; rfl
  rw [if_neg h7] at h ⊢
  by_cases h8 : c = '{'
  · rw [if_pos h8] at h ⊢
    injection h with h; subst h; rfl
  rw [if_neg h8] at h ⊢
  by_cases h9 : c = '^'
  · rw [if_pos h9] at h ⊢
    injection h with h; subst h; rfl
  rw [if_neg h9] at h ⊢
  by_cases h10 : c = '$'
  · rw [if_pos h10] at h ⊢
    injection h with h; subst h; rfl
  rw [if_neg h10] at h ⊢
  by_cases h11 : c = '.'
  · rw [if_pos h11] at h ⊢
    injection h with h; subst h; rfl
  rw [if_neg h11] at h ⊢
  injection h with h; subst h; rfl

theorem stepEsc_under (s s' : PState) (o : List (Bool × Frame)) (c : Char)
    (h : stepEsc s c = .ok s') : stepEsc (s.under o) c = .ok (s'.under o) := by
  unfold stepEsc at h ⊢
  split at h
  · injection h with h; subst h; rfl
  · split_ifs at h ⊢
    split at h
    · rename_i x hx
      injection h with h; subst h
      rfl
    · contradiction

theorem stepClsItem_under (s s' : PState) (o : List (Bool × Frame)) (neg : Bool)
    (items : List ClassItem) (first : Bool) (c : Char)
    (h : stepClsItem s neg items first c = .ok s') :
    stepClsItem (s.under o) neg items first c = .ok (s'.under o) := by
  unfold stepClsItem at h ⊢
  split_ifs at h ⊢ <;> (injection h with h; subst h; rfl)

theorem stepClsHi_under (s s' : PState) (o : List (Bool × Frame)) (neg : Bool)
    (items : List ClassItem) (lo hi : Char)
    (h : stepClsHi s neg items lo hi = .ok s') :
    stepClsHi (s.under o) neg items lo hi = .ok (s'.under o) := by
  unfold stepClsHi at h ⊢
  split_ifs at h ⊢
  injection h with h; subst h; rfl

/-- A step of the parser that succeeds does not depend on the groups that enclose the ones it
has opened itself. -/
theorem step_under (s s' : PState) (o : List (Bool × Frame)) (c : Char)
    (h : step s c = .ok s') : step (s.under o) c = .ok (s'.under o) := by
  unfold step at h ⊢
  have hm : (s.under o).mode = s.mode := rfl
  rw [hm]
  split at h
  · exact stepNormal_under _ _ _ _ h
  · exact stepEsc_under _ _ _ _ h
  · split_ifs at h ⊢
    · injection h with h; subst h; rfl
    · exact stepNormal_under _ _ _ _ h
  · split_ifs at h ⊢
    injection h with h; subst h; rfl
  · split_ifs at h ⊢
    exact stepNormal_under _ _ _ _ h
  · split_ifs at h ⊢
    · injection h with h; subst h; rfl
    · exact stepClsItem_under _ _ _ _ _ _ _ h
  · exact stepClsItem_under _ _ _ _ _ _ _ h
  · split_ifs at h ⊢
    · injection h with h; subst h; rfl
    · exact stepClsItem_under _ _ _ _ _ _ _ h
  · split_ifs at h ⊢
    · injection h with h; subst h; rfl
    · injection h with h; subst h; rfl
    · exact stepClsHi_under _ _ _ _ _ _ _ h
  · split at h
    · injection h with h; subst h; rfl
    · split_ifs at h ⊢
      split at h
      · rename_i x hx
        injection h with h; subst h
        rfl
      · contradiction
  · split at h
    · exact stepClsHi_under _ _ _ _ _ _ _ h
    · contradiction

theorem parseFrom_append (s : PState) (a b : Str) :
    parseFrom s (a ++ b) =
      match parseFrom s a with
      | .ok s' => parseFrom s' b
      | .error e => .error e := by
  induction a generalizing s with
  | nil => rfl
  | cons c cs ih =>
    simp only [List.cons_append, parseFrom]
    cases step s c with
    | ok s' => exact ih s'
    | error e => rfl

theorem parseFrom_under (s t : PState) (o : List (Bool × Frame)) (f : Str)
    (h : parseFrom s f = .ok t) : parseFrom (s.under o) f = .ok (t.under o) := by
  induction f generalizing s with
  | nil =>
    simp only [parseFrom] at h ⊢
    injection h with h
    rw [h]
  | cons c cs ih =>
    simp only [parseFrom] at h ⊢
    cases hs : step s c with
    | ok s' =>
      rw [hs] at h
      rw [step_under s s' o c hs]
      exact ih s' h
    | error e => rw [hs] at h; contradiction


theorem parseRe_ok (f : Str) (r : Re) (h : parseRe f = .ok r) :
    ∃ t, parseFrom PState.init f = .ok t ∧ finish t = .ok r := by
  unfold parseRe at h
  cases hp : parseFrom PState.init f with
  | ok t => rw [hp] at h; exact ⟨t, rfl, h⟩
  | error e => rw [hp] at h; contradiction

theorem finish_ok (t : PState) (r : Re) (h : finish t = .ok r) :
    t.outer = [] ∧
      ((t.mode = .normal ∧ r = t.frame.collapse) ∨
        (t.mode = .brace ∧ r = (t.push (.chr '{')).frame.collapse)) := by
  unfold finish at h
  split at h <;> try contradiction
  · rename_i hm
    split at h <;> try contradiction
    rename_i ho
    injection h with h
    exact ⟨ho, Or.inl ⟨hm, h.symm⟩⟩
  · rename_i hm
    split at h <;> try contradiction
    rename_i ho
    injection h with h
    exact ⟨ho, Or.inr ⟨hm, h.symm⟩⟩

/-- A fragment that compiles, put between parentheses, is parsed into a capturing group around
its own syntax tree. -/
theorem parse_group (s : PState) (f rest : Str) (r : Re) (hm : s.mode = .normal)
    (hf : parseRe f = .ok r) :
    parseFrom s (groupText f ++ rest) = parseFrom (s.push (.group r)) rest := by
  obtain ⟨t, ht, hfin⟩ := parseRe_ok f r hf
  obtain ⟨hout, hmode⟩ := finish_ok t r hfin
  have h1 : step s '(' = .ok { s with mode := .lparen, rep := .none } := by
    simp [step, hm, stepNormal]
  have hopen : ({ s with mode := .lparen, rep := .none } : PState).openGroup true =
      PState.init.under ((true, s.frame) :: s.outer) := rfl
  -- the closing parenthesis, from the state the fragment ends in
  have hclose : step (t.under ((true, s.frame) :: s.outer)) ')' = .ok (s.push (.group r)) := by
    rcases hmode with ⟨hmt, hr⟩ | ⟨hmt, hr⟩
    · have hm' : (t.under ((true, s.frame) :: s.outer)).mode = .normal := hmt
      simp only [step, hm', stepNormal]
      simp [PState.closeGroup, PState.under, hout, hr, PState.push]
    · have hm' : (t.under ((true, s.frame) :: s.outer)).mode = .brace := hmt
      simp only [step, hm']
      simp [isDigitChar, stepNormal, PState.closeGroup, PState.under, hout, hr, PState.push]
  have hbody : parseFrom ({ s with mode := .lparen, rep := .none } : PState)
      (f ++ ')' :: rest) = parseFrom (s.push (.group r)) rest := by
    cases f with
    | nil =>
      simp only [parseFrom] at ht
      injection ht with ht
      subst ht
      have : step ({ s with mode := .lparen, rep := .none } : PState) ')' =
          .ok (s.push (.group r)) := by
        have h2 := hclose
        simp only [step] at h2 ⊢
        simp only [hopen]
        exact h2
      simp [parseFrom, this]
    | cons c cs =>
      have hq : c ≠ '?' := by
        intro e
        subst e
        simp [parseFrom, step, PState.init, stepNormal, PState.questOp, PState.repeatOp] at ht
      have hfirst : step ({ s with mode := .lparen, rep := .none } : PState) c =
          step (PState.init.under ((true, s.frame) :: s.outer)) c := by
        simp only [step, hq, if_false, hopen]
        rfl
      have hall := parseFrom_under PState.init t ((true, s.frame) :: s.outer) (c :: cs) ht
      rw [List.cons_append, parseFrom, hfirst]
      have h3 := parseFrom_append (PState.init.under ((true, s.frame) :: s.outer)) (c :: cs)
        (')' :: rest)
      rw [hall] at h3
      simp only [List.cons_append, parseFrom] at h3
      refine Eq.trans h3 ?_
      rw [hclose]
  simp only [groupText, List.cons_append, List.append_assoc, List.singleton_append]
  rw [parseFrom, h1]
  exact hbody

theorem holeFragment_parse (types : Types) (h : Hole) (g : GoRegexp)
    (hg : resolveHole types h = some g) : parseRe g.src = .ok g.re := by
  unfold resolveHole at hg
  split at hg <;> try contradiction
  split at hg <;> try contradiction
  injection hg with hg
  subst hg
  assumption

theorem holesResolve_all (types : Types) (hs : List Hole) (hr : holesResolve types hs = true)
    (h : Hole) (hm : h ∈ hs) : ∃ g, resolveHole types h = some g ∧ '<' ∉ g.src := by
  induction hs with
  | nil => simp at hm
  | cons x xs ih =>
    obtain ⟨hx, hxs⟩ := holesResolve_cons types x xs hr
    rcases List.mem_cons.mp hm with e | e
    · subst e; exact hx
    · exact ih hxs e

/-- The body of the expression of a template is parsed into its items. -/
theorem parse_body (types : Types) (escape : Bool) (ps : List Piece) (s : PState) (rest : Str)
    (hm : s.mode = .normal)
    (hesc : escape = true ∨ literalsUnspecial ps = true)
    (hr : holesResolve types (holesOf ps) = true) :
    parseFrom s (expressionBody types escape ps ++ rest) =
      parseFrom (s.pushAll (expressionItems types ps)) rest := by
  induction ps generalizing s with
  | nil => rfl
  | cons p ps ih =>
    cases p with
    | lit l =>
      have hesc' : escape = true ∨ literalsUnspecial ps = true := by
        rcases hesc with h | h
        · exact Or.inl h
        · simp only [literalsUnspecial, Bool.and_eq_true] at h
          exact Or.inr h.2
      simp only [expressionBody, expressionItems, List.append_assoc, pushAll_append]
      rw [holesOf_cons_lit] at hr
      by_cases he : escape = true
      · subst he
        simp only [if_true]
        rw [parse_quoteMeta s l _ hm, ih _ (pushAll_mode _ _ hm) hesc' hr]
      · have hl : literalsUnspecial (.lit l :: ps) = true := by
          rcases hesc with h | h
          · exact absurd h he
          · exact h
        simp only [literalsUnspecial, Bool.and_eq_true] at hl
        have he' : escape = false := by simpa using he
        subst he'
        rw [if_neg (by simp), parse_unspecial s l _ hm ((all_not_special l).1 hl.1),
          ih _ (pushAll_mode _ _ hm) hesc' hr]
    | hole h =>
      have hesc' : escape = true ∨ literalsUnspecial ps = true := by
        rcases hesc with h | h
        · exact Or.inl h
        · exact Or.inr h
      rw [holesOf_cons_hole] at hr
      obtain ⟨⟨g, hg, _⟩, hr'⟩ := holesResolve_cons types h _ hr
      have hfr : holeFragment types h = g.src := by simp [holeFragment, hg]
      have hre : holeRe types h = g.re := by simp [holeRe, hg]
      simp only [expressionBody, expressionItems, List.append_assoc, pushAll_cons]
      rw [hfr, hre, parse_group s g.src _ g.re hm (holeFragment_parse types h g hg),
        ih _ rfl hesc' hr']

theorem pushAll_frame (s : PState) (items : List Re) :
    (s.pushAll items).frame = ⟨s.frame.alts, items.reverse ++ s.frame.cur⟩ ∧
      (s.pushAll items).outer = s.outer := by
  induction items generalizing s with
  | nil => exact ⟨rfl, rfl⟩
  | cons r rs ih =>
    rw [pushAll_cons]
    obtain ⟨h1, h2⟩ := ih (s.push r)
    rw [h1, h2]
    simp [PState.push]

theorem finish_push (s : PState) (r : Re) (cur : List Re) (ho : s.outer = [])
    (hf : s.frame = ⟨[], cur⟩) : finish (s.push r) = .ok (mkCat (r :: cur).reverse) := by
  have h1 : (s.push r).mode = .normal := rfl
  have h2 : (s.push r).outer = [] := ho
  have h3 : (s.push r).frame = ⟨[], r :: cur⟩ := by simp [PState.push, hf]
  simp only [finish, h1, h2, h3, Frame.collapse]
  simp [mkAlt]

/-- The anchored expression of a template compiles to the expected syntax tree. -/
theorem parse_expression (types : Types) (escape : Bool) (ps : List Piece)
    (hesc : escape = true ∨ literalsUnspecial ps = true)
    (hr : holesResolve types (holesOf ps) = true) :
    parseRe (anchored (expressionBody types escape ps)) = .ok (expressionRe types ps) := by
  have h1 : step PState.init '^' = .ok (PState.init.push .bol) := rfl
  have h2 := parse_body types escape ps (PState.init.push .bol) ['$'] rfl hesc hr
  have h3 : step ((PState.init.push .bol).pushAll (expressionItems types ps)) '$' =
      .ok (((PState.init.push .bol).pushAll (expressionItems types ps)).push .eol) := by
    have := pushAll_mode (PState.init.push .bol) (expressionItems types ps) rfl
    simp [step, this, stepNormal]
  obtain ⟨hf, ho⟩ := pushAll_frame (PState.init.push .bol) (expressionItems types ps)
  have h4 := finish_push _ .eol _ ho hf
  unfold parseRe anchored
  rw [List.cons_append, parseFrom, h1]
  simp only [h2, parseFrom, h3, h4, expressionRe]
  simp [PState.push, PState.init]

/-! ## The scan for placeholders -/

theorem scanRe_compiled : goRegexp.compile placeholderPattern = .ok ⟨placeholderPattern, scanRe⟩ :=
  rfl

/-- A lazy `.*` followed by something that needs a `>` runs up to the first `>`. -/
theorem lazy_star_scan (g : MState → List MState)
    (hg : ∀ p x r c, x ≠ '>' → g ⟨p, x :: r, c⟩ = [])
    (suf rest : Str) (hs : ∀ x ∈ suf, x ≠ '>' ∧ x.toNat ≠ 10) (fuel p : Nat) (c : List (Nat × Str))
    (hfuel : suf.length ≤ fuel) :
    ∃ tail, (starLoop false (Re.any.run 1) fuel ⟨p, suf ++ '>' :: rest, c⟩).flatMap g =
      g ⟨p + suf.length, '>' :: rest, c⟩ ++ tail := by
  induction suf generalizing p fuel with
  | nil =>
    cases fuel with
    | zero => exact ⟨[], by simp [starLoop]⟩
    | succ k => exact ⟨_, by simp [starLoop]; rfl⟩
  | cons x xs ih =>
    cases fuel with
    | zero => simp at hfuel
    | succ k =>
      have hx := hs x (List.mem_cons_self _ _)
      obtain ⟨tail, ht⟩ := ih (fun y hy => hs y (List.mem_cons_of_mem _ hy)) k (p + 1)
        (by simpa using hfuel)
      refine ⟨tail, ?_⟩
      have hA : Re.any.run 1 ⟨p, (x :: xs) ++ '>' :: rest, c⟩ =
          [⟨p + 1, xs ++ '>' :: rest, c⟩] := by
        simp [Re.run, stepChar, hx.2]
      simp only [starLoop, hA, Bool.false_eq_true, if_false, List.flatMap_cons]
      rw [show (x :: xs ++ '>' :: rest) = x :: (xs ++ '>' :: rest) from rfl, hg p x _ c hx.1]
      simp only [List.nil_append, List.filter_cons, List.length_cons, List.length_append,
        Nat.lt_succ_self, decide_True, if_true, List.filter_nil, List.flatMap_cons,
        List.flatMap_nil, List.append_nil]
      rw [ht]
      simp [Nat.add_assoc, Nat.add_comm 1]

/-- At a placeholder token the scan matches the token and captures its inner text. -/
theorem scan_token (inner rest : Str) (hs : ∀ x ∈ inner, x ≠ '>' ∧ x.toNat ≠ 10) (pos : Nat) :
    (scanRe.run 0 ⟨pos, ('<' :: inner ++ ['>']) ++ rest, []⟩).head? =
      some ⟨pos + (inner.length + 2), rest, [(0, inner)]⟩ := by
  have hrun : scanRe.run 0 ⟨pos, ('<' :: inner ++ ['>']) ++ rest, []⟩ =
      (starLoop false (Re.any.run 1) (inner ++ '>' :: rest).length
        ⟨pos + 1, inner ++ '>' :: rest, []⟩).flatMap
        (fun s => stepChar (fun x => x == '>')
          { s with caps := (0, (inner ++ '>' :: rest).take (s.pos - (pos + 1))) :: s.caps }) := by
    simp only [scanRe, Re.run, stepChar, Re.groups, List.cons_append, List.append_assoc,
      List.singleton_append, beq_self_eq_true, if_true, List.flatMap_cons, List.flatMap_nil,
      List.append_nil, List.flatMap_map]
    simp [List.flatMap_assoc, List.flatMap_singleton']
  obtain ⟨tail, ht⟩ := lazy_star_scan
    (fun s => stepChar (fun x => x == '>')
      { s with caps := (0, (inner ++ '>' :: rest).take (s.pos - (pos + 1))) :: s.caps })
    (by intro p x r c hx; simp [stepChar, hx]) inner rest hs
    (inner ++ '>' :: rest).length (pos + 1) [] (by simp)
  rw [hrun, ht]
  have hsub : pos + (inner.length + 1) - (pos + 1) = inner.length := by omega
  simp [stepChar, Nat.add_assoc, Nat.add_comm 1, hsub]

theorem searchFrom_cons (r : Re) (pos : Nat) (c : Char) (cs : Str) :
    searchFrom r pos (c :: cs) =
      match (r.run 0 ⟨pos, c :: cs, []⟩).head? with
      | some st => some (c :: cs, st)
      | none => searchFrom r (pos + 1) cs := rfl

/-- Text without `<` has no match of the scan. -/
theorem scan_skip (pre rest : Str) (hp : '<' ∉ pre) (pos : Nat) :
    searchFrom scanRe pos (pre ++ rest) = searchFrom scanRe (pos + pre.length) rest := by
  induction pre generalizing pos with
  | nil => rfl
  | cons c cs ih =>
    simp only [List.mem_cons, not_or] at hp
    have hc : ¬ (c = '<') := fun e => hp.1 e.symm
    have hrun : scanRe.run 0 ⟨pos, c :: (cs ++ rest), []⟩ = [] := by
      simp [scanRe, Re.run, stepChar, hc]
    rw [List.cons_append, searchFrom_cons, hrun]
    simp only [List.head?_nil]
    rw [ih hp.2 (pos + 1)]
    simp [Nat.add_assoc, Nat.add_comm 1]

theorem scan_none (pre : Str) (hp : '<' ∉ pre) (pos : Nat) :
    searchFrom scanRe pos pre = none := by
  induction pre generalizing pos with
  | nil => rfl
  | cons c cs ih =>
    simp only [List.mem_cons, not_or] at hp
    have hc : ¬ (c = '<') := fun e => hp.1 e.symm
    have hrun : scanRe.run 0 ⟨pos, c :: cs, []⟩ = [] := by
      simp [scanRe, Re.run, stepChar, hc]
    rw [searchFrom_cons, hrun]
    exact ih hp.2 (pos + 1)

theorem searchFrom_head (r : Re) (pos : Nat) (s : Str) (st : MState)
    (h : (r.run 0 ⟨pos, s, []⟩).head? = some st) : searchFrom r pos s = some (s, st) := by
  cases s with
  | nil => simp [searchFrom, h]
  | cons c cs => simp [searchFrom, h]

/-- The scan of a text that starts with literal text without `<`, followed by a token. -/
theorem scan_first (pre inner rest : Str) (hp : '<' ∉ pre)
    (hs : ∀ x ∈ inner, x ≠ '>' ∧ x.toNat ≠ 10) (pos : Nat) :
    searchFrom scanRe pos (pre ++ (('<' :: inner ++ ['>']) ++ rest)) =
      some (('<' :: inner ++ ['>']) ++ rest,
        ⟨pos + pre.length + (inner.length + 2), rest, [(0, inner)]⟩) := by
  rw [scan_skip pre _ hp pos]
  exact searchFrom_head _ _ _ _ (scan_token inner rest hs _)


theorem Hole.plain_scan (h : Hole) (hp : h.plain = true) :
    ∀ x ∈ h.inner, x ≠ '>' ∧ x.toNat ≠ 10 :=
  fun x hx => ⟨(h.plain_inner hp x hx).2.2.1, (h.plain_inner hp x hx).2.2.2⟩

theorem holes_length_le (ps : List Piece) : (holesOf ps).length ≤ (templateText ps).length := by
  induction ps with
  | nil => simp [holesOf]
  | cons p ps ih =>
    rw [templateText_cons]
    cases p with
    | lit s => simp only [holesOf_cons_lit, List.length_append]; omega
    | hole h =>
      simp only [holesOf_cons_hole, List.length_append, List.length_cons, Piece.text, Hole.token]
      omega

theorem take_sub_length (a b : Str) : (a ++ b).take ((a ++ b).length - b.length) = a := by
  have : (a ++ b).length - b.length = a.length := by simp
  rw [this, List.take_left']
  rfl

theorem scan_submatches (tok inner rest : Str) (p : Nat) :
    submatches scanRe (tok ++ rest) ⟨p, rest, [(0, inner)]⟩ = [tok, inner] := by
  simp only [submatches, take_sub_length]
  simp [scanRe, Re.groups, List.range_succ, List.lookup]

/-- The scan finds the placeholders of a template, left to right, each with its inner text. -/
theorem scan_pieces (ps : List Piece) (hps : piecesPlain ps = true) (pre : Str) (hpre : '<' ∉ pre)
    (fuel pos : Nat) (prev : Option Nat) (hfuel : (holesOf ps).length < fuel) :
    allMatchesLoop scanRe fuel pos (some (pre ++ templateText ps)) prev =
      (holesOf ps).map (fun h => [h.token, h.inner]) := by
  induction ps generalizing pre fuel pos prev with
  | nil =>
    cases fuel with
    | zero => simp at hfuel
    | succ k =>
      simp [allMatchesLoop, templateText_nil, scan_none pre hpre, holesOf]
  | cons p ps ih =>
    rw [templateText_cons]
    cases p with
    | lit l =>
      simp only [piecesPlain, Bool.and_eq_true, not_contains_iff] at hps
      rw [holesOf_cons_lit] at hfuel ⊢
      have := ih hps.2 (pre ++ l) (by simp [hpre, hps.1]) fuel pos prev hfuel
      simpa [Piece.text] using this
    | hole h =>
      simp only [piecesPlain, Bool.and_eq_true] at hps
      rw [holesOf_cons_hole] at hfuel ⊢
      cases fuel with
      | zero => simp at hfuel
      | succ k =>
        have hk : (holesOf ps).length < k := by simpa using hfuel
        have hfind := scan_first pre h.inner (templateText ps) hpre (h.plain_scan hps.1) pos
        have hrest := ih hps.2 [] (by simp) k (pos + pre.length + (h.inner.length + 2))
          (some (pos + pre.length + (h.inner.length + 2))) hk
        simp only [List.nil_append] at hrest
        have hne : ¬ (pos + pre.length + (h.inner.length + 2) = pos) := by omega
        simp only [Piece.text, Hole.token, allMatchesLoop, hfind, hne, if_false, hrest,
          List.map_cons, scan_submatches]

/-- The occurrences that `parseParameters` finds in a template are its placeholders. -/
theorem occurrences_pieces (ps : List Piece) (hps : piecesPlain ps = true) :
    occurrences goRegexp (templateText ps) = (holesOf ps).map (fun h => [h.token, h.inner]) := by
  have h := scan_pieces ps hps [] (by simp) ((templateText ps).length + 2) 0 none
    (by have := holes_length_le ps; omega)
  simp only [occurrences, scanRe_compiled]
  exact h


/-! ## Compiling a template given by its pieces -/

theorem stringsReplace_absent (s : Str) (c : Char) (h : c ∉ s) : stringsReplace s [c] [] = s := by
  have := replaceGo_plain c [] [] s [] h
  simp only [List.append_nil] at this
  simp [stringsReplace, this, replaceGo]

theorem stringsSplit_no_sep (s : Str) (h : ':' ∉ s) : stringsSplit ':' s = [s] := by
  induction s with
  | nil => rfl
  | cons c cs ih =>
    simp only [List.mem_cons, not_or] at h
    have hc : ¬ (c = ':') := fun e => h.1 e.symm
    simp [stringsSplit, hc, ih h.2]

theorem stringsSplit_pair (a b : Str) (ha : ':' ∉ a) (hb : ':' ∉ b) :
    stringsSplit ':' (a ++ ':' :: b) = [a, b] := by
  induction a with
  | nil => simp [stringsSplit, stringsSplit_no_sep b hb]
  | cons c cs ih =>
    simp only [List.mem_cons, not_or] at ha
    have hc : ¬ (c = ':') := fun e => ha.1 e.symm
    simp [stringsSplit, hc, ih ha.2]

theorem Expression_resolve (types : Types) (h : Hole) (g : GoRegexp)
    (hg : resolveHole types h = some g) :
    Expression goRegexp h.data types = .ok (some g) ∧ (types.lookup h.data).isSome = true := by
  unfold resolveHole at hg
  unfold Expression
  split at hg <;> try contradiction
  rename_i f hf
  split at hg <;> try contradiction
  rename_i r hr
  injection hg with hg
  subst hg
  simp [hf, goRegexp, hr]

/-- What `Parse` makes of the inner text of a plain placeholder whose type is in the registry. -/
theorem Parse_hole (types : Types) (h : Hole) (hp : h.plain = true) (g : GoRegexp)
    (hg : resolveHole types h = some g) :
    Parse goRegexp h.inner types = .ok (holeParam types h) := by
  have hin := h.plain_inner hp
  have hlt : '<' ∉ h.inner := fun hm => (hin _ hm).2.1 rfl
  have hgt : '>' ∉ h.inner := fun hm => (hin _ hm).2.2.1 rfl
  obtain ⟨hE, hL⟩ := Expression_resolve types h g hg
  have hname := h.name_no_colon hp
  unfold Parse
  simp only [stringsReplace_absent _ _ hlt, stringsReplace_absent _ _ hgt]
  cases ht : h.type with
  | none =>
    have hi : h.inner = h.name := by simp [Hole.inner, ht]
    have hd : h.data = defaultType := by simp [Hole.data, ht]
    rw [hd] at hE
    simp only [hi, hname, if_false, hE]
    simp [NewParameterWithType, holeParam, hg, hd]
  | some t =>
    have hi : h.inner = h.name ++ ':' :: t := by simp [Hole.inner, ht]
    have hd : h.data = t := by simp [Hole.data, ht]
    have htc : ':' ∉ t := by
      intro hm
      exact (nameChar_facts _ (h.plain_data hp _ (hd ▸ hm))).2.2.2.1 rfl
    rw [hd] at hE hL
    have hmem : ':' ∈ h.name ++ ':' :: t := by simp
    simp only [hi, hmem, if_true, stringsSplit_pair _ _ hname htc]
    simp [sliceIndex, hL, hE, NewParameterWithType, holeParam, hg, hd]

theorem parseParametersLoop_holes (types : Types) (hs : List Hole)
    (hpl : ∀ h ∈ hs, h.plain = true) (hr : holesResolve types hs = true)
    (hnd : (hs.map Hole.name).Nodup) (list : List (Parameter goRegexp)) (namesSet : List Str)
    (hdis : ∀ h ∈ hs, h.name ∉ namesSet) :
    parseParametersLoop goRegexp types (hs.map (fun h => [h.token, h.inner])) list namesSet =
      .ok (list ++ hs.map (holeParam types)) := by
  induction hs generalizing list namesSet with
  | nil => simp [parseParametersLoop]
  | cons h hs ih =>
    obtain ⟨⟨g, hg, _⟩, hr'⟩ := holesResolve_cons types h hs hr
    simp only [List.map_cons, List.nodup_cons] at hnd
    have hP := Parse_hole types h (hpl h (List.mem_cons_self _ _)) g hg
    have hnot : (holeParam types h).name ∉ namesSet := hdis h (List.mem_cons_self _ _)
    simp only [List.map_cons, parseParametersLoop, List.length_cons, List.length_nil,
      sliceIndex_one_pair, hP, hnot, if_false]
    simp only [ne_eq, not_true_eq_false, if_false]
    rw [ih (fun x hx => hpl x (List.mem_cons_of_mem _ hx)) hr' hnd.2]
    · simp
    · intro x hx hm
      rcases List.mem_cons.mp hm with e | e
      · exact hnd.1 (by
          have : x.name = h.name := e
          rw [← this]
          exact List.mem_map_of_mem Hole.name hx)
      · exact hdis x (List.mem_cons_of_mem _ hx) e

theorem holes_plain (ps : List Piece) (hps : piecesPlain ps = true) :
    ∀ h ∈ holesOf ps, h.plain = true :=
  fun h hm => piecesPlain_hole ps hps h ((mem_holesOf ps h).1 hm)

/-- The parameters of a template given by its pieces. -/
theorem parseParameters_pieces (types : Types) (ps : List Piece) (hps : piecesPlain ps = true)
    (hnd : ((holesOf ps).map Hole.name).Nodup) (hr : holesResolve types (holesOf ps) = true) :
    parseParameters goRegexp (templateText ps) types = .ok ((holesOf ps).map (holeParam types)) := by
  have hocc := occurrences_pieces ps hps
  simp only [occurrences, scanRe_compiled] at hocc
  simp only [parseParameters, scanRe_compiled, hocc]
  rw [parseParametersLoop_holes types _ (holes_plain ps hps) hr hnd [] [] (by simp)]
  simp

theorem quoteMeta_token (h : Hole) (hp : h.plain = true) : quoteMeta h.token = h.token := by
  apply quoteMeta_unspecial
  intro c hc
  simp only [Hole.token, List.cons_append, List.mem_cons, List.mem_append, List.mem_singleton,
    List.mem_nil_iff, or_false] at hc
  rcases hc with e | e | e
  · subst e; decide
  · exact (h.plain_inner hp c e).1
  · subst e; decide

theorem escape_pieces (ps : List Piece) (hps : piecesPlain ps = true) :
    quoteMeta (templateText ps) = templateText (ps.map escapePiece) ∧
      piecesPlain (ps.map escapePiece) = true ∧ holesOf (ps.map escapePiece) = holesOf ps := by
  induction ps with
  | nil => exact ⟨rfl, rfl, rfl⟩
  | cons p ps ih =>
    rw [List.map_cons, templateText_cons, templateText_cons, quoteMeta_append]
    cases p with
    | lit s =>
      simp only [piecesPlain, Bool.and_eq_true, not_contains_iff] at hps
      obtain ⟨h1, h2, h3⟩ := ih hps.2
      refine ⟨by rw [h1]; rfl, ?_, by simp [escapePiece, holesOf, h3]⟩
      simp only [escapePiece, piecesPlain, Bool.and_eq_true, not_contains_iff]
      exact ⟨quoteMeta_no_lt s hps.1, h2⟩
    | hole h =>
      simp only [piecesPlain, Bool.and_eq_true] at hps
      obtain ⟨h1, h2, h3⟩ := ih hps.2
      refine ⟨by rw [h1]; simp [Piece.text, escapePiece, quoteMeta_token h hps.1], ?_,
        by simp [escapePiece, holesOf, h3]⟩
      simp only [escapePiece, piecesPlain, Bool.and_eq_true]
      exact ⟨hps.1, h2⟩

theorem final_pieces (types : Types) (ps : List Piece) :
    templateText ((ps.map escapePiece).map (finalPiece types)) = expressionBody types true ps ∧
      templateText (ps.map (finalPiece types)) = expressionBody types false ps := by
  induction ps with
  | nil => exact ⟨rfl, rfl⟩
  | cons p ps ih =>
    simp only [List.map_cons, templateText_cons, ih.1, ih.2]
    cases p <;> simp [escapePiece, finalPiece, Piece.text, expressionBody]

/-- Compiling a template given by its pieces: plain placeholders with pairwise distinct names
and types of the registry, literal runs without `<`, escaped or without special characters. -/
theorem makeCommand_pieces (types : Types) (escape : Bool) (ps : List Piece)
    (hps : piecesPlain ps = true) (hnd : ((holesOf ps).map Hole.name).Nodup)
    (hr : holesResolve types (holesOf ps) = true)
    (hesc : escape = true ∨ literalsUnspecial ps = true) :
    makeCommand goRegexp (templateText ps) escape (some types) =
      .ok (piecesCommand types escape ps) := by
  have hparams := parseParameters_pieces types ps hps hnd hr
  have hparse := parse_expression types escape ps hesc hr
  have hsub : substituteParams ((holesOf ps).map (holeParam types))
      (if escape then quoteMeta (templateText ps) else templateText ps) =
      .ok (expressionBody types escape ps) := by
    cases escape with
    | true =>
      obtain ⟨h1, h2, h3⟩ := escape_pieces ps hps
      simp only [if_true, h1]
      rw [← h3] at hnd hr ⊢
      rw [substituteParams_pieces types _ _ rfl h2 hnd hr, (final_pieces types ps).1]
    | false =>
      simp only [Bool.false_eq_true, if_false]
      rw [substituteParams_pieces types _ _ rfl hps hnd hr, (final_pieces types ps).2]
  have hcomp : goRegexp.compile (anchored (expressionBody types escape ps)) =
      .ok ⟨anchored (expressionBody types escape ps), expressionRe types ps⟩ := by
    show (match parseRe (anchored (expressionBody types escape ps)) with
      | .ok re => Except.ok (⟨anchored (expressionBody types escape ps), re⟩ : GoRegexp)
      | .error e => .error e) = _
    rw [hparse]
  simp only [makeCommand, registryOf, hparams, makeExpression, hsub, hcomp, piecesCommand]

/-! ## Capturing groups -/

theorem captures_length (r : Re) : r.captures.length = r.groups := by
  induction r <;> simp_all [Re.captures, Re.groups]

theorem captures_of_no_groups (r : Re) (h : r.groups = 0) : r.captures = [] := by
  have := captures_length r
  rw [h] at this
  exact List.length_eq_zero.mp this

theorem mkCat_captures (items : List Re) :
    (mkCat items).captures = items.flatMap Re.captures := by
  induction items with
  | nil => rfl
  | cons r rs ih => simp [mkCat, Re.captures, ih]

theorem items_captures (types : Types) (ps : List Piece)
    (hng : ∀ h ∈ holesOf ps, (holeRe types h).groups = 0) :
    (expressionItems types ps).flatMap Re.captures = (holesOf ps).map (holeRe types) := by
  induction ps with
  | nil => rfl
  | cons p ps ih =>
    cases p with
    | lit s =>
      rw [holesOf_cons_lit] at hng ⊢
      simp only [expressionItems, List.flatMap_append, ih hng]
      have : (s.map Re.chr).flatMap Re.captures = [] := by
        induction s with
        | nil => rfl
        | cons c cs ihs => simp [Re.captures, ihs]
      simp [this]
    | hole h =>
      rw [holesOf_cons_hole] at hng ⊢
      simp only [expressionItems, List.flatMap_cons, Re.captures, List.map_cons,
        ih (fun x hx => hng x (List.mem_cons_of_mem _ hx)),
        captures_of_no_groups _ (hng h (List.mem_cons_self _ _))]
      simp

theorem makeCommand_registry (E : Engine) (text : Str) (escape : Bool) (types : Option Types) :
    makeCommand E text escape types = makeCommand E text escape (some (registryOf types)) := by
  cases types <;> rfl

/-- Where the capturing groups are those of the parameters, in the model: for a template made of
literal runs without `<` and of placeholders `<name>` or `<name:type>` with plain, pairwise
distinct names and types of the registry, whose fragments the model compiles and which have
neither `<` nor a capturing group of their own, compiled with escaping (or without it when the
literal runs have no pattern-special character), the expression has as many capturing groups as
the template has parameters and its i-th group wraps the fragment of the i-th parameter. -/
theorem capture_groups_match_parameters (types : Option Types) (escape : Bool) (ps : List Piece)
    (hps : piecesPlain ps = true) (hnd : ((holesOf ps).map Hole.name).Nodup)
    (hr : holesResolve (registryOf types) (holesOf ps) = true)
    (hesc : escape = true ∨ literalsUnspecial ps = true)
    (hng : ∀ h ∈ holesOf ps, (holeRe (registryOf types) h).groups = 0) :
    ∃ c, makeCommand goRegexp (templateText ps) escape types = .ok c ∧
      c.Expression.re.groups = c.Parameters.length ∧
      c.Expression.re.captures = c.Parameters.map paramRe := by
  refine ⟨piecesCommand (registryOf types) escape ps, ?_, ?_⟩
  · rw [makeCommand_registry]
    exact makeCommand_pieces _ escape ps hps hnd hr hesc
  · have hcap : (piecesCommand (registryOf types) escape ps).Expression.re.captures =
        (piecesCommand (registryOf types) escape ps).Parameters.map paramRe := by
      have h1 : (expressionRe (registryOf types) ps).captures =
          (expressionItems (registryOf types) ps).flatMap Re.captures := by
        unfold expressionRe
        rw [mkCat_captures]
        simp [Re.captures]
      simp only [piecesCommand, Command.Expression, Command.Parameters, h1,
        items_captures _ ps hng, List.map_map]
      apply List.map_congr_left
      intro h _
      simp only [Function.comp, paramRe, holeParam, holeRe]
      cases resolveHole (registryOf types) h <;> rfl
    refine ⟨?_, hcap⟩
    rw [← captures_length, hcap]
    simp

/-- The groups of the template `[command] (<lorem:integer>) <ipsum>`, compiled with escaping. -/
theorem capture_groups_match_parameters_witness :
    ∃ c, makeCommand goRegexp
        (templateText [.lit "[command] (".toList, .hole ⟨"lorem".toList, some "integer".toList⟩,
          .lit ") ".toList, .hole ⟨"ipsum".toList, none⟩]) true none = .ok c ∧
      c.Expression.re.groups = c.Parameters.length ∧
      c.Expression.re.captures = c.Parameters.map paramRe :=
  capture_groups_match_parameters none true _ (by decide) (by decide) (by decide)
    (Or.inl rfl) (by decide)

/-- C9: the template `(command) <lorem>` compiled by `New` has one parameter and an expression,
`^(command) ([^\s]+)$`, with two capturing groups, the first of which wraps the literal text and
not the fragment of the parameter; on the request `command example`, which it matches,
`Parameter` returns for `lorem` the text `command` of that group. -/
theorem capture_groups_exceed_parameters :
    New goRegexp "(command) <lorem>".toList none = .ok parenCommand ∧
      parenCommand.Parameters.length = 1 ∧
      parenCommand.Expression.re.groups = 2 ∧
      goRegexp.source parenCommand.Expression = "^(command) ([^\\s]+)$".toList ∧
      parenCommand.Matches "command example".toList = true ∧
      (⟨parenCommand, "command example".toList⟩ : Match goRegexp).Parameter "lorem".toList =
        .ok "command".toList :=
  ⟨rfl, rfl, rfl, rfl, rfl, rfl⟩

/-! ## The matcher and the language of an expression -/

theorem stepChar_mem (p : Char → Bool) (st st' : MState) (h : st' ∈ stepChar p st) :
    ∃ x, st.rest = x :: st'.rest ∧ p x = true ∧ st'.pos = st.pos + 1 ∧ st'.caps = st.caps := by
  unfold stepChar at h
  split at h
  · simp at h
  · rename_i x xs hx
    split at h
    · simp only [List.mem_singleton] at h
      subst h
      exact ⟨x, hx, ‹_›, rfl, rfl⟩
    · simp at h

theorem stepChar_ok (p : Char → Bool) (x : Char) (hx : p x = true) (pos : Nat) (rest : Str)
    (c : List (Nat × Str)) : stepChar p ⟨pos, x :: rest, c⟩ = [⟨pos + 1, rest, c⟩] := by
  simp [stepChar, hx]

/-- What the iterations of a starred expression consume is in the language of the star. -/
theorem starLoop_sound (g : Bool) (a : Re) (f : MState → List MState)
    (hf : ∀ s s', s' ∈ f s → ∃ u, s.rest = u ++ s'.rest ∧ Lang a u)
    (fuel : Nat) (st st' : MState) (h : st' ∈ starLoop g f fuel st) :
    ∃ u, st.rest = u ++ st'.rest ∧ Lang (.star g a) u := by
  induction fuel generalizing st with
  | zero =>
    simp only [starLoop, List.mem_singleton] at h
    subst h
    exact ⟨[], rfl, Lang.starNil g a⟩
  | succ k ih =>
    have hcases : st' = st ∨ st' ∈ ((f st).filter
        (fun s => decide (s.rest.length < st.rest.length))).flatMap (starLoop g f k) := by
      simp only [starLoop] at h
      split at h
      · rcases List.mem_append.mp h with h | h
        · exact Or.inr h
        · exact Or.inl (List.mem_singleton.mp h)
      · rcases List.mem_cons.mp h with h | h
        · exact Or.inl h
        · exact Or.inr h
    rcases hcases with h | h
    · subst h
      exact ⟨[], rfl, Lang.starNil g a⟩
    · obtain ⟨s1, hs1, hst'⟩ := List.mem_flatMap.mp h
      obtain ⟨hs1f, hlt⟩ := List.mem_filter.mp hs1
      obtain ⟨u1, hu1, hl1⟩ := hf st s1 hs1f
      obtain ⟨u2, hu2, hl2⟩ := ih s1 hst'
      refine ⟨u1 ++ u2, by rw [hu1, hu2, List.append_assoc], Lang.starCons g ?_ hl1 hl2⟩
      intro e
      subst e
      simp only [List.nil_append] at hu1
      simp [hu1] at hlt

/-- What an expression without anchors consumes is in its language. -/
theorem run_sound (r : Re) (hr : r.anchorFree = true) (n : Nat) (st st' : MState)
    (h : st' ∈ r.run n st) : ∃ u, st.rest = u ++ st'.rest ∧ Lang r u := by
  induction r generalizing n st st' with
  | empty =>
    simp only [Re.run, List.mem_singleton] at h
    subst h
    exact ⟨[], rfl, Lang.empty⟩
  | chr c =>
    obtain ⟨x, hx, hp, _, _⟩ := stepChar_mem _ _ _ h
    have : x = c := by simpa using hp
    subst this
    exact ⟨[x], by simp [hx], Lang.chr x⟩
  | any =>
    obtain ⟨x, hx, hp, _, _⟩ := stepChar_mem _ _ _ h
    exact ⟨[x], by simp [hx], Lang.any x hp⟩
  | cls neg items =>
    obtain ⟨x, hx, hp, _, _⟩ := stepChar_mem _ _ _ h
    exact ⟨[x], by simp [hx], Lang.cls neg items x hp⟩
  | bol => simp [Re.anchorFree] at hr
  | eol => simp [Re.anchorFree] at hr
  | cat a b iha ihb =>
    simp only [Re.anchorFree, Bool.and_eq_true] at hr
    simp only [Re.run, List.mem_flatMap] at h
    obtain ⟨s1, h1, h2⟩ := h
    obtain ⟨u, hu, hlu⟩ := iha hr.1 _ _ _ h1
    obtain ⟨v, hv, hlv⟩ := ihb hr.2 _ _ _ h2
    exact ⟨u ++ v, by rw [hu, hv, List.append_assoc], Lang.cat hlu hlv⟩
  | alt a b iha ihb =>
    simp only [Re.anchorFree, Bool.and_eq_true] at hr
    simp only [Re.run, List.mem_append] at h
    rcases h with h | h
    · obtain ⟨u, hu, hlu⟩ := iha hr.1 _ _ _ h
      exact ⟨u, hu, Lang.altLeft b hlu⟩
    · obtain ⟨u, hu, hlu⟩ := ihb hr.2 _ _ _ h
      exact ⟨u, hu, Lang.altRight a hlu⟩
  | star g a iha =>
    simp only [Re.anchorFree] at hr
    simp only [Re.run] at h
    exact starLoop_sound g a (a.run n) (fun s s' hs => iha hr n s s' hs) _ _ _ h
  | plus g a iha =>
    simp only [Re.anchorFree] at hr
    simp only [Re.run, List.mem_flatMap] at h
    obtain ⟨s1, h1, h2⟩ := h
    obtain ⟨u, hu, hlu⟩ := iha hr _ _ _ h1
    obtain ⟨v, hv, hlv⟩ := starLoop_sound g a (a.run n) (fun s s' hs => iha hr n s s' hs) _ _ _ h2
    exact ⟨u ++ v, by rw [hu, hv, List.append_assoc], Lang.plus g hlu hlv⟩
  | quest g a iha =>
    simp only [Re.anchorFree] at hr
    have hcases : st' = st ∨ st' ∈ a.run n st := by
      simp only [Re.run] at h
      split at h
      · rcases List.mem_append.mp h with h | h
        · exact Or.inr h
        · exact Or.inl (List.mem_singleton.mp h)
      · rcases List.mem_cons.mp h with h | h
        · exact Or.inl h
        · exact Or.inr h
    rcases hcases with h | h
    · subst h
      exact ⟨[], rfl, Lang.questNil g a⟩
    · obtain ⟨u, hu, hlu⟩ := iha hr _ _ _ h
      exact ⟨u, hu, Lang.questSome g hlu⟩
  | group a iha =>
    simp only [Re.anchorFree] at hr
    simp only [Re.run, List.mem_map] at h
    obtain ⟨s1, h1, h2⟩ := h
    obtain ⟨u, hu, hlu⟩ := iha hr _ _ _ h1
    subst h2
    exact ⟨u, hu, Lang.group hlu⟩


theorem starLoop_self (g : Bool) (f : MState → List MState) (fuel : Nat) (st : MState) :
    st ∈ starLoop g f fuel st := by
  cases fuel with
  | zero => simp [starLoop]
  | succ k =>
    simp only [starLoop]
    split <;> simp

theorem starLoop_more (g : Bool) (f : MState → List MState) (k : Nat) (st s1 st' : MState)
    (h1 : s1 ∈ f st) (hlt : s1.rest.length < st.rest.length) (h2 : st' ∈ starLoop g f k s1) :
    st' ∈ starLoop g f (k + 1) st := by
  have : st' ∈ ((f st).filter (fun s => decide (s.rest.length < st.rest.length))).flatMap
      (starLoop g f k) :=
    List.mem_flatMap.mpr ⟨s1, List.mem_filter.mpr ⟨h1, by simpa using hlt⟩, h2⟩
  simp only [starLoop]
  split
  · exact List.mem_append_left _ this
  · exact List.mem_cons_of_mem _ this

/-- More fuel than the length of the text changes nothing. -/
theorem starLoop_fuel (g : Bool) (f : MState → List MState) (k : Nat) :
    ∀ st : MState, st.rest.length ≤ k → starLoop g f k st = starLoop g f st.rest.length st := by
  induction k using Nat.strong_induction_on with
  | _ k ih =>
    intro st hk
    cases k with
    | zero =>
      have : st.rest.length = 0 := by omega
      rw [this]
    | succ k =>
      cases hm : st.rest.length with
      | zero =>
        have hnil : (f st).filter (fun s => decide (s.rest.length < st.rest.length)) = [] := by
          rw [List.filter_eq_nil_iff]
          intro s _
          simp [hm]
        simp [starLoop, hnil]
      | succ m =>
        have hmk : m ≤ k := by omega
        have hmore : ((f st).filter (fun s => decide (s.rest.length < st.rest.length))).flatMap
            (starLoop g f k) =
            ((f st).filter (fun s => decide (s.rest.length < st.rest.length))).flatMap
              (starLoop g f m) := by
          apply List.flatMap_congr
          intro s hs
          have hlt : s.rest.length < st.rest.length := by
            simpa using (List.mem_filter.mp hs).2
          rw [ih k (Nat.lt_succ_self k) s (by omega)]
          rcases Nat.lt_or_ge m (k + 1) with h | h
          · rw [ih m h s (by omega)]
          · omega
        simp only [starLoop, hmore]

/-- A text of the language of an expression is consumed by the matcher, whatever follows it. -/
theorem run_complete (r : Re) (u : Str) (h : Lang r u) :
    ∀ (n p : Nat) (w : Str) (c : List (Nat × Str)),
      ∃ st' ∈ r.run n ⟨p, u ++ w, c⟩, st'.rest = w := by
  induction h with
  | empty => intro n p w c; exact ⟨⟨p, w, c⟩, by simp [Re.run], rfl⟩
  | chr x =>
    intro n p w c
    exact ⟨⟨p + 1, w, c⟩, by simp [Re.run, stepChar], rfl⟩
  | any x hx =>
    intro n p w c
    refine ⟨⟨p + 1, w, c⟩, ?_, rfl⟩
    simp only [Re.run, List.singleton_append]
    rw [stepChar_ok (fun x => x.toNat != 10) x hx]
    simp
  | cls neg items x hx =>
    intro n p w c
    refine ⟨⟨p + 1, w, c⟩, ?_, rfl⟩
    simp only [Re.run, List.singleton_append]
    rw [stepChar_ok (fun x => (items.any (fun i => i.test x)) != neg) x hx]
    simp
  | @cat a b u v _ _ iha ihb =>
    intro n p w c
    obtain ⟨s1, h1, hr1⟩ := iha n p (v ++ w) c
    obtain ⟨s2, h2, hr2⟩ := ihb (n + a.groups) s1.pos w s1.caps
    refine ⟨s2, ?_, hr2⟩
    simp only [Re.run, List.mem_flatMap, List.append_assoc]
    refine ⟨s1, h1, ?_⟩
    have : s1 = ⟨s1.pos, v ++ w, s1.caps⟩ := by rw [← hr1]
    rw [this]
    exact h2
  | @altLeft a b u _ iha =>
    intro n p w c
    obtain ⟨s1, h1, hr1⟩ := iha n p w c
    exact ⟨s1, by simp only [Re.run]; exact List.mem_append_left _ h1, hr1⟩
  | @altRight a b u _ ihb =>
    intro n p w c
    obtain ⟨s1, h1, hr1⟩ := ihb (n + a.groups) p w c
    exact ⟨s1, by simp only [Re.run]; exact List.mem_append_right _ h1, hr1⟩
  | starNil g a =>
    intro n p w c
    exact ⟨_, by simp only [Re.run]; exact starLoop_self _ _ _ _, rfl⟩
  | @starCons g a u v hne _ _ iha ihs =>
    intro n p w c
    obtain ⟨s1, h1, hr1⟩ := iha n p (v ++ w) c
    obtain ⟨s2, h2, hr2⟩ := ihs n s1.pos w s1.caps
    refine ⟨s2, ?_, hr2⟩
    have hs1 : s1 = ⟨s1.pos, v ++ w, s1.caps⟩ := by rw [← hr1]
    simp only [Re.run] at h2 ⊢
    obtain ⟨x, xs, rfl⟩ := List.exists_cons_of_ne_nil hne
    have hlen : ((x :: xs) ++ v ++ w).length = (xs ++ v ++ w).length + 1 := by simp
    rw [hlen]
    apply starLoop_more g _ _ _ s1 s2
    · simpa [List.append_assoc] using h1
    · rw [hr1]; simp; omega
    · rw [starLoop_fuel g _ _ s1 (by rw [hr1]; simp), hr1]
      rw [hs1]
      exact h2
  | @plus g a u v _ _ iha ihs =>
    intro n p w c
    obtain ⟨s1, h1, hr1⟩ := iha n p (v ++ w) c
    obtain ⟨s2, h2, hr2⟩ := ihs n s1.pos w s1.caps
    refine ⟨s2, ?_, hr2⟩
    have hs1 : s1 = ⟨s1.pos, v ++ w, s1.caps⟩ := by rw [← hr1]
    simp only [Re.run, List.mem_flatMap, List.append_assoc] at h2 ⊢
    refine ⟨s1, h1, ?_⟩
    rw [hr1, hs1]
    exact h2
  | questNil g a =>
    intro n p w c
    refine ⟨⟨p, w, c⟩, ?_, rfl⟩
    simp only [Re.run]
    split <;> simp
  | @questSome g a u _ iha =>
    intro n p w c
    obtain ⟨s1, h1, hr1⟩ := iha n p w c
    refine ⟨s1, ?_, hr1⟩
    simp only [Re.run]
    split
    · exact List.mem_append_left _ h1
    · exact List.mem_cons_of_mem _ h1
  | @group a u _ iha =>
    intro n p w c
    obtain ⟨s1, h1, hr1⟩ := iha (n + 1) p w c
    refine ⟨{ s1 with caps := (n, (u ++ w).take (s1.pos - p)) :: s1.caps }, ?_, hr1⟩
    simp only [Re.run, List.mem_map]
    exact ⟨s1, h1, rfl⟩

/-- For an expression without anchors, `fullMatch` decides membership in its language. -/
theorem fullMatch_iff (r : Re) (hr : r.anchorFree = true) (v : Str) :
    r.fullMatch v = true ↔ Lang r v := by
  constructor
  · intro h
    simp only [Re.fullMatch, List.any_eq_true, List.isEmpty_iff] at h
    obtain ⟨st, hst, he⟩ := h
    obtain ⟨u, hu, hl⟩ := run_sound r hr 0 _ _ hst
    simp only [he, List.append_nil] at hu
    rw [hu]
    exact hl
  · intro h
    obtain ⟨st, hst, he⟩ := run_complete r v h 0 0 [] []
    simp only [Re.fullMatch, List.any_eq_true, List.isEmpty_iff]
    exact ⟨st, by simpa using hst, he⟩

/-! ## Matching an anchored expression -/

theorem run_mkCat_cons (a : Re) (items : List Re) (n : Nat) (st : MState) :
    (mkCat (a :: items)).run n st = (a.run n st).flatMap ((mkCat items).run (n + a.groups)) := rfl

theorem run_bol_pos (items : List Re) (n p : Nat) (s : Str) (c : List (Nat × Str))
    (hp : p ≠ 0) : (mkCat (.bol :: items)).run n ⟨p, s, c⟩ = [] := by
  simp [run_mkCat_cons, Re.run, hp]

theorem run_bol_zero (items : List Re) (n : Nat) (s : Str) (c : List (Nat × Str)) :
    (mkCat (.bol :: items)).run n ⟨0, s, c⟩ = (mkCat items).run n ⟨0, s, c⟩ := by
  simp [run_mkCat_cons, Re.run, Re.groups]

theorem search_bol_pos (items : List Re) (p : Nat) (s : Str) (hp : p ≠ 0) :
    searchFrom (mkCat (.bol :: items)) p s = none := by
  induction s generalizing p with
  | nil => simp [searchFrom, run_bol_pos items 0 p [] [] hp]
  | cons x xs ih =>
    rw [searchFrom_cons, run_bol_pos items 0 p _ [] hp]
    exact ih (p + 1) (by omega)

/-- The search with an expression that starts with `^` only tries the start of the text. -/
theorem search_anchored (items : List Re) (q : Str) :
    searchFrom (mkCat (.bol :: items)) 0 q =
      ((mkCat items).run 0 ⟨0, q, []⟩).head?.map (fun st => (q, st)) := by
  cases q with
  | nil =>
    simp only [searchFrom, run_bol_zero]
    cases ((mkCat items).run 0 ⟨0, [], []⟩).head? <;> rfl
  | cons x xs =>
    rw [searchFrom_cons, run_bol_zero, search_bol_pos items 1 xs (by omega)]
    cases ((mkCat items).run 0 ⟨0, x :: xs, []⟩).head? <;> rfl

theorem head?_isSome_iff {α : Type} (l : List α) : l.head?.isSome = true ↔ ∃ x, x ∈ l := by
  cases l with
  | nil => simp
  | cons a t => simp

theorem matches_anchored (items : List Re) (q : Str) :
    (searchFrom (mkCat (.bol :: items)) 0 q).isSome = true ↔
      ∃ st, st ∈ (mkCat items).run 0 ⟨0, q, []⟩ := by
  rw [search_anchored, Option.isSome_map', head?_isSome_iff]

/-- Literal characters at the head of an expression consume themselves. -/
theorem run_lits (l : Str) (items : List Re) (n p : Nat) (rest : Str) (c : List (Nat × Str)) :
    (mkCat (l.map Re.chr ++ items)).run n ⟨p, l ++ rest, c⟩ =
      (mkCat items).run n ⟨p + l.length, rest, c⟩ := by
  induction l generalizing p with
  | nil => rfl
  | cons x xs ih =>
    simp only [List.map_cons, List.cons_append, run_mkCat_cons, Re.run, stepChar, beq_self_eq_true,
      if_true, List.flatMap_cons, List.flatMap_nil, List.append_nil, Re.groups, Nat.add_zero]
    refine Eq.trans (ih (p + 1)) ?_
    simp [Nat.add_assoc, Nat.add_comm 1]

theorem run_lits_mem (l : Str) (items : List Re) (n p : Nat) (s : Str) (c : List (Nat × Str))
    (st' : MState) (h : st' ∈ (mkCat (l.map Re.chr ++ items)).run n ⟨p, s, c⟩) :
    ∃ rest, s = l ++ rest ∧ st' ∈ (mkCat items).run n ⟨p + l.length, rest, c⟩ := by
  induction l generalizing p s with
  | nil => exact ⟨s, rfl, h⟩
  | cons x xs ih =>
    simp only [List.map_cons, List.cons_append, run_mkCat_cons, List.mem_flatMap, Re.run,
      Re.groups, Nat.add_zero] at h
    obtain ⟨s1, h1, h2⟩ := h
    obtain ⟨y, hy, hp, hpos, hcaps⟩ := stepChar_mem _ _ _ h1
    have hyx : y = x := by simpa using hp
    subst hyx
    have hs1 : s1 = ⟨p + 1, s1.rest, c⟩ := by
      cases s1; simp_all
    rw [hs1] at h2
    obtain ⟨rest, hr, hm⟩ := ih (p + 1) s1.rest h2
    refine ⟨rest, ?_, ?_⟩
    · simp only at hy
      rw [hy, hr]; rfl
    · simpa [Nat.add_assoc, Nat.add_comm 1] using hm

theorem run_eol (n p : Nat) (s : Str) (c : List (Nat × Str)) (st' : MState) :
    st' ∈ (mkCat [.eol]).run n ⟨p, s, c⟩ ↔ s = [] ∧ st' = ⟨p, [], c⟩ := by
  simp only [run_mkCat_cons, Re.run, mkCat]
  constructor
  · intro h
    by_cases hs : s = []
    · subst hs
      simp at h
      exact ⟨rfl, h⟩
    · simp [hs] at h
  · rintro ⟨rfl, rfl⟩
    simp


/-- Whether a character belongs to a bracketed class. -/
theorem lang_cls_star (g neg : Bool) (items : List ClassItem) (v : Str) :
    Lang (.star g (.cls neg items)) v ↔
      ∀ x ∈ v, ((items.any (fun i => i.test x)) != neg) = true := by
  constructor
  · intro h
    generalize hr : Re.star g (.cls neg items) = r at h
    induction h with
    | starNil g' a => simp
    | @starCons g' a u w hne ha hs _ ihs =>
      injection hr with hg ha'
      subst hg ha'
      cases ha with
      | cls _ _ c hc =>
        intro x hx
        simp only [List.singleton_append, List.mem_cons] at hx
        rcases hx with e | e
        · subst e; exact hc
        · exact ihs rfl x e
    | _ => cases hr
  · intro h
    induction v with
    | nil => exact Lang.starNil g _
    | cons x xs ih =>
      have := Lang.starCons g (u := [x]) (v := xs) (by simp)
        (Lang.cls neg items x (h x (List.mem_cons_self _ _)))
        (ih (fun y hy => h y (List.mem_cons_of_mem _ hy)))
      simpa using this

theorem lang_cls_plus (g neg : Bool) (items : List ClassItem) (v : Str) :
    Lang (.cat (.plus g (.cls neg items)) .empty) v ↔
      v ≠ [] ∧ ∀ x ∈ v, ((items.any (fun i => i.test x)) != neg) = true := by
  constructor
  · intro h
    cases h with
    | cat ha hb =>
      cases hb
      cases ha with
      | plus _ ha hs =>
        cases ha with
        | cls _ _ c hc =>
          refine ⟨by simp, ?_⟩
          intro x hx
          simp only [List.singleton_append, List.append_nil, List.mem_cons] at hx
          rcases hx with e | e
          · subst e; exact hc
          · exact (lang_cls_star g neg items _).1 hs x e
  · rintro ⟨hne, h⟩
    obtain ⟨x, xs, rfl⟩ := List.exists_cons_of_ne_nil hne
    have h1 := Lang.plus g (u := [x]) (v := xs)
      (Lang.cls neg items x (h x (List.mem_cons_self _ _)))
      ((lang_cls_star g neg items xs).2 (fun y hy => h y (List.mem_cons_of_mem _ hy)))
    have := Lang.cat h1 Lang.empty
    simpa using this


theorem resolve_basic_string (h : Hole) (hd : h.data = "string".toList) :
    resolveHole MakeBasicTypes h = some stringFragment := by
  simp only [resolveHole, hd]
  rfl

theorem resolve_basic_integer (h : Hole) (hd : h.data = "integer".toList) :
    resolveHole MakeBasicTypes h = some integerFragment := by
  simp only [resolveHole, hd]
  rfl

theorem fullMatch_string (v : Str) :
    stringFragment.re.fullMatch v = true ↔ v ≠ [] ∧ ∀ x ∈ v, isSpaceChar x = false := by
  rw [fullMatch_iff stringFragment.re rfl]
  simp only [stringFragment, lang_cls_plus]
  simp [ClassItem.test]

theorem fullMatch_integer (v : Str) :
    integerFragment.re.fullMatch v = true ↔ v ≠ [] ∧ ∀ x ∈ v, isDigitChar x = true := by
  rw [fullMatch_iff integerFragment.re rfl]
  simp only [integerFragment, lang_cls_plus]
  simp [ClassItem.test, isDigitChar]

theorem expressionRe_eq (types : Types) (ps : List Piece) :
    expressionRe types ps = mkCat (.bol :: (expressionItems types ps ++ [.eol])) := rfl

theorem starLoop_invariant (P : MState → MState → Prop) (hrefl : ∀ s, P s s)
    (htrans : ∀ a b c, P a b → P b c → P a c) (g : Bool) (f : MState → List MState)
    (hf : ∀ s s', s' ∈ f s → P s s') (fuel : Nat) (st st' : MState)
    (h : st' ∈ starLoop g f fuel st) : P st st' := by
  induction fuel generalizing st with
  | zero =>
    simp only [starLoop, List.mem_singleton] at h
    subst h
    exact hrefl _
  | succ k ih =>
    have hcases : st' = st ∨ st' ∈ ((f st).filter
        (fun s => decide (s.rest.length < st.rest.length))).flatMap (starLoop g f k) := by
      simp only [starLoop] at h
      split at h
      · rcases List.mem_append.mp h with h | h
        · exact Or.inr h
        · exact Or.inl (List.mem_singleton.mp h)
      · rcases List.mem_cons.mp h with h | h
        · exact Or.inl h
        · exact Or.inr h
    rcases hcases with h | h
    · subst h
      exact hrefl _
    · obtain ⟨s1, hs1, hst'⟩ := List.mem_flatMap.mp h
      exact htrans _ _ _ (hf st s1 (List.mem_filter.mp hs1).1) (ih s1 hst')

/-- The matcher counts the characters it consumes. -/
theorem run_pos (r : Re) (n : Nat) (st st' : MState) (h : st' ∈ r.run n st) :
    st'.pos + st'.rest.length = st.pos + st.rest.length := by
  induction r generalizing n st st' with
  | empty =>
    simp only [Re.run, List.mem_singleton] at h
    subst h; rfl
  | chr c =>
    obtain ⟨x, hx, _, hp, _⟩ := stepChar_mem _ _ _ h
    rw [hx, hp]; simp; omega
  | any =>
    obtain ⟨x, hx, _, hp, _⟩ := stepChar_mem _ _ _ h
    rw [hx, hp]; simp; omega
  | cls neg items =>
    obtain ⟨x, hx, _, hp, _⟩ := stepChar_mem _ _ _ h
    rw [hx, hp]; simp; omega
  | bol =>
    simp only [Re.run] at h
    split at h
    · simp only [List.mem_singleton] at h; subst h; rfl
    · simp at h
  | eol =>
    simp only [Re.run] at h
    split at h
    · simp only [List.mem_singleton] at h; subst h; rfl
    · simp at h
  | cat a b iha ihb =>
    simp only [Re.run, List.mem_flatMap] at h
    obtain ⟨s1, h1, h2⟩ := h
    rw [ihb _ _ _ h2, iha _ _ _ h1]
  | alt a b iha ihb =>
    simp only [Re.run, List.mem_append] at h
    rcases h with h | h
    · exact iha _ _ _ h
    · exact ihb _ _ _ h
  | star g a iha =>
    simp only [Re.run] at h
    exact starLoop_invariant (fun s s' => s'.pos + s'.rest.length = s.pos + s.rest.length)
      (fun _ => rfl) (fun _ _ _ h1 h2 => h2.trans h1) g _ (fun s s' hs => iha n s s' hs) _ _ _ h
  | plus g a iha =>
    simp only [Re.run, List.mem_flatMap] at h
    obtain ⟨s1, h1, h2⟩ := h
    have := starLoop_invariant (fun s s' => s'.pos + s'.rest.length = s.pos + s.rest.length)
      (fun _ => rfl) (fun _ _ _ h1 h2 => h2.trans h1) g _ (fun s s' hs => iha n s s' hs) _ _ _ h2
    rw [this, iha _ _ _ h1]
  | quest g a iha =>
    simp only [Re.run] at h
    split at h
    · rcases List.mem_append.mp h with h | h
      · exact iha _ _ _ h
      · simp only [List.mem_singleton] at h; subst h; rfl
    · rcases List.mem_cons.mp h with h | h
      · subst h; rfl
      · exact iha _ _ _ h
  | group a iha =>
    simp only [Re.run, List.mem_map] at h
    obtain ⟨s1, h1, h2⟩ := h
    subst h2
    exact iha _ _ s1 h1

/-- An expression without capturing groups leaves the captures as they are. -/
theorem run_caps (r : Re) (hr : r.groups = 0) (n : Nat) (st st' : MState)
    (h : st' ∈ r.run n st) : st'.caps = st.caps := by
  induction r generalizing n st st' with
  | empty =>
    simp only [Re.run, List.mem_singleton] at h
    subst h; rfl
  | chr c => exact (stepChar_mem _ _ _ h).choose_spec.2.2.2
  | any => exact (stepChar_mem _ _ _ h).choose_spec.2.2.2
  | cls neg items => exact (stepChar_mem _ _ _ h).choose_spec.2.2.2
  | bol =>
    simp only [Re.run] at h
    split at h
    · simp only [List.mem_singleton] at h; subst h; rfl
    · simp at h
  | eol =>
    simp only [Re.run] at h
    split at h
    · simp only [List.mem_singleton] at h; subst h; rfl
    · simp at h
  | cat a b iha ihb =>
    simp only [Re.groups, Nat.add_eq_zero] at hr
    simp only [Re.run, List.mem_flatMap] at h
    obtain ⟨s1, h1, h2⟩ := h
    rw [ihb hr.2 _ _ _ h2, iha hr.1 _ _ _ h1]
  | alt a b iha ihb =>
    simp only [Re.groups, Nat.add_eq_zero] at hr
    simp only [Re.run, List.mem_append] at h
    rcases h with h | h
    · exact iha hr.1 _ _ _ h
    · exact ihb hr.2 _ _ _ h
  | star g a iha =>
    simp only [Re.groups] at hr
    simp only [Re.run] at h
    exact starLoop_invariant (fun s s' => s'.caps = s.caps)
      (fun _ => rfl) (fun _ _ _ h1 h2 => h2.trans h1) g _ (fun s s' hs => iha hr n s s' hs) _ _ _ h
  | plus g a iha =>
    simp only [Re.groups] at hr
    simp only [Re.run, List.mem_flatMap] at h
    obtain ⟨s1, h1, h2⟩ := h
    have := starLoop_invariant (fun s s' => s'.caps = s.caps)
      (fun _ => rfl) (fun _ _ _ h1 h2 => h2.trans h1) g _ (fun s s' hs => iha hr n s s' hs) _ _ _ h2
    rw [this, iha hr _ _ _ h1]
  | quest g a iha =>
    simp only [Re.groups] at hr
    simp only [Re.run] at h
    split at h
    · rcases List.mem_append.mp h with h | h
      · exact iha hr _ _ _ h
      · simp only [List.mem_singleton] at h; subst h; rfl
    · rcases List.mem_cons.mp h with h | h
      · subst h; rfl
      · exact iha hr _ _ _ h
  | group a iha => simp [Re.groups] at hr


/-! ## The round trip -/

theorem holeRe_basic (h : Hole) (hb : h.basic = true) :
    (h.data = "string".toList ∧ holeRe MakeBasicTypes h = stringFragment.re) ∨
      (h.data = "integer".toList ∧ holeRe MakeBasicTypes h = integerFragment.re) := by
  simp only [Hole.basic, Bool.or_eq_true, decide_eq_true_eq] at hb
  rcases hb with hd | hd
  · exact Or.inl ⟨hd, by simp [holeRe, resolve_basic_string h hd]⟩
  · exact Or.inr ⟨hd, by simp [holeRe, resolve_basic_integer h hd]⟩

theorem digit_not_space (x : Char) (h : isDigitChar x = true) : isSpaceChar x = false := by
  simp only [isDigitChar, Bool.and_eq_true, decide_eq_true_eq] at h
  simp only [isSpaceChar, Bool.or_eq_false_iff, beq_eq_false_iff_ne, ne_eq]
  omega

theorem not_space_ne (x : Char) (h : isSpaceChar x = false) : x ≠ ' ' := by
  intro e
  subst e
  simp [isSpaceChar] at h

/-- A value that suits a placeholder of a basic type is in the language of its fragment. -/
theorem valueOk_lang (h : Hole) (hb : h.basic = true) (v : Str) (hv : valueOk h v = true) :
    Lang (holeRe MakeBasicTypes h) v := by
  simp only [valueOk, Bool.and_eq_true, Bool.not_eq_true', List.isEmpty_eq_false] at hv
  obtain ⟨hne, hall⟩ := hv
  rcases holeRe_basic h hb with ⟨hd, hre⟩ | ⟨hd, hre⟩
  · rw [hre]
    have hni : ¬ (h.data = "integer".toList) := by rw [hd]; decide
    simp only [hni, if_false, List.all_eq_true, Bool.not_eq_true'] at hall
    exact (fullMatch_iff stringFragment.re rfl v).1 ((fullMatch_string v).2 ⟨hne, hall⟩)
  · rw [hre]
    simp only [hd, if_true, List.all_eq_true] at hall
    exact (fullMatch_iff integerFragment.re rfl v).1 ((fullMatch_integer v).2 ⟨hne, hall⟩)

/-- The texts of the language of the fragment of a basic type have no space. -/
theorem lang_basic_no_space (h : Hole) (hb : h.basic = true) (u : Str)
    (hl : Lang (holeRe MakeBasicTypes h) u) : ∀ x ∈ u, x ≠ ' ' := by
  intro x hx
  rcases holeRe_basic h hb with ⟨_, hre⟩ | ⟨_, hre⟩
  · rw [hre] at hl
    exact not_space_ne x
      (((fullMatch_string u).1 ((fullMatch_iff stringFragment.re rfl u).2 hl)).2 x hx)
  · rw [hre] at hl
    exact not_space_ne x
      (digit_not_space x
        (((fullMatch_integer u).1 ((fullMatch_iff integerFragment.re rfl u).2 hl)).2 x hx))

theorem valueOk_no_space (h : Hole) (hb : h.basic = true) (v : Str) (hv : valueOk h v = true) :
    ∀ x ∈ v, x ≠ ' ' :=
  lang_basic_no_space h hb v (valueOk_lang h hb v hv)

theorem holeRe_basic_groups (h : Hole) (hb : h.basic = true) :
    (holeRe MakeBasicTypes h).groups = 0 ∧ (holeRe MakeBasicTypes h).anchorFree = true := by
  rcases holeRe_basic h hb with ⟨_, hre⟩ | ⟨_, hre⟩ <;> rw [hre] <;> exact ⟨rfl, rfl⟩

/-- Two runs without a space, each followed by the end of the text or by a space, that start the
same text are the same run. -/
theorem split_unique (u v r r' : Str) (hu : ∀ x ∈ u, x ≠ ' ') (hv : ∀ x ∈ v, x ≠ ' ')
    (hr : r = [] ∨ ∃ s, r = ' ' :: s) (hr' : r' = [] ∨ ∃ s, r' = ' ' :: s)
    (h : u ++ r = v ++ r') : u = v ∧ r = r' := by
  induction u generalizing v with
  | nil =>
    cases v with
    | nil => exact ⟨rfl, by simpa using h⟩
    | cons y ys =>
      exfalso
      simp only [List.nil_append, List.cons_append] at h
      rcases hr with e | ⟨s, e⟩
      · rw [e] at h; simp at h
      · rw [e] at h
        injection h with h1 _
        exact hv y (List.mem_cons_self _ _) h1.symm
  | cons x xs ih =>
    cases v with
    | nil =>
      exfalso
      simp only [List.nil_append, List.cons_append] at h
      rcases hr' with e | ⟨s, e⟩
      · rw [e] at h; simp at h
      · rw [e] at h
        injection h with h1 _
        exact hu x (List.mem_cons_self _ _) h1
    | cons y ys =>
      simp only [List.cons_append, List.cons.injEq] at h
      obtain ⟨h1, h2⟩ := ih ys (fun z hz => hu z (List.mem_cons_of_mem _ hz))
        (fun z hz => hv z (List.mem_cons_of_mem _ hz)) h.2
      exact ⟨by rw [h.1, h1], h2⟩

theorem tailItems_cons (h : Hole) (hs : List Hole) :
    tailItems (h :: hs) ++ [Re.eol] =
      [' '].map Re.chr ++ (Re.group (holeRe MakeBasicTypes h) :: (tailItems hs ++ [Re.eol])) :=
  rfl

theorem requestTail_cons (v : Str) (vs : List Str) :
    requestTail (v :: vs) = [' '] ++ (v ++ requestTail vs) := rfl

theorem requestTail_head (vs : List Str) :
    requestTail vs = [] ∨ ∃ s, requestTail vs = ' ' :: s := by
  cases vs with
  | nil => exact Or.inl rfl
  | cons v vs => exact Or.inr ⟨v ++ requestTail vs, rfl⟩

/-- The rest of the expression only matches at the end of the text or at a space. -/
theorem tail_head (hs : List Hole) (n p : Nat) (s : Str) (c : List (Nat × Str)) (st' : MState)
    (h : st' ∈ (mkCat (tailItems hs ++ [Re.eol])).run n ⟨p, s, c⟩) :
    s = [] ∨ ∃ s', s = ' ' :: s' := by
  cases hs with
  | nil =>
    have : tailItems [] ++ [Re.eol] = [Re.eol] := rfl
    rw [this] at h
    exact Or.inl ((run_eol _ _ _ _ _).1 h).1
  | cons x xs =>
    rw [tailItems_cons] at h
    obtain ⟨rest, hr, _⟩ := run_lits_mem _ _ _ _ _ _ _ h
    exact Or.inr ⟨rest, by simpa using hr⟩


theorem lookup_cons_self (n : Nat) (v : Str) (c : List (Nat × Str)) :
    List.lookup n ((n, v) :: c) = some v := by
  simp [List.lookup]

theorem lookup_cons_ne (j n : Nat) (v : Str) (c : List (Nat × Str)) (h : j ≠ n) :
    List.lookup j ((n, v) :: c) = List.lookup j c := by
  have : (j == n) = false := by simpa using h
  simp [List.lookup, this]

/-- Every way the rest of the expression matches the rest of the request ends at the end of the
text, with each value captured by the group of its placeholder. -/
theorem round_trip_sound (holes : List Hole) (vs : List Str)
    (hv : List.Forall₂ (fun h v => valueOk h v = true) holes vs)
    (hb : ∀ h ∈ holes, h.basic = true) (n p : Nat) (caps : List (Nat × Str)) (st' : MState)
    (hst : st' ∈ (mkCat (tailItems holes ++ [Re.eol])).run n ⟨p, requestTail vs, caps⟩) :
    st'.rest = [] ∧
      (∀ (i : Nat) (hi : i < vs.length), st'.caps.lookup (n + i) = some (vs.get ⟨i, hi⟩)) ∧
      ∀ j, j < n → st'.caps.lookup j = caps.lookup j := by
  induction hv generalizing n p caps with
  | nil =>
    have h1 : tailItems [] ++ [Re.eol] = [Re.eol] := rfl
    have h2 : requestTail [] = [] := rfl
    rw [h1, h2] at hst
    obtain ⟨_, he⟩ := (run_eol _ _ _ _ _).1 hst
    subst he
    exact ⟨rfl, fun i hi => absurd hi (by simp), fun _ _ => rfl⟩
  | @cons h v hs vs' hval _ ih =>
    have hbh := hb h (List.mem_cons_self _ _)
    obtain ⟨hg0, haf⟩ := holeRe_basic_groups h hbh
    rw [tailItems_cons, requestTail_cons, run_lits, run_mkCat_cons] at hst
    obtain ⟨s1, hs1, hst2⟩ := List.mem_flatMap.mp hst
    simp only [Re.run, List.mem_map] at hs1
    obtain ⟨s0, hs0, hcap⟩ := hs1
    obtain ⟨u, hu, hl⟩ := run_sound _ haf _ _ _ hs0
    have hpos := run_pos _ _ _ _ hs0
    have hcaps := run_caps _ hg0 _ _ _ hs0
    simp only at hu hpos hcaps
    have hs1' : s1 = ⟨s0.pos, s0.rest, (n, u) :: caps⟩ := by
      rw [← hcap, hcaps]
      have : s0.pos - (p + [' '].length) = u.length := by
        rw [hu] at hpos
        simp only [List.length_append] at hpos
        omega
      simp only [this, hu, List.take_left']
    rw [hs1'] at hst2
    have hgr : (Re.group (holeRe MakeBasicTypes h)).groups = 1 := by simp [Re.groups, hg0]
    rw [hgr] at hst2
    have hhead := tail_head hs _ _ _ _ _ hst2
    obtain ⟨huv, hrest⟩ := split_unique u v s0.rest (requestTail vs')
      (lang_basic_no_space h hbh u hl) (valueOk_no_space h hbh v hval) hhead
      (requestTail_head vs') hu.symm
    subst huv
    rw [hrest] at hst2
    obtain ⟨h1, h2, h3⟩ := ih (fun x hx => hb x (List.mem_cons_of_mem _ hx)) (n + 1) s0.pos
      ((n, u) :: caps) hst2
    refine ⟨h1, ?_, ?_⟩
    · intro i hi
      cases i with
      | zero =>
        rw [Nat.add_zero, h3 n (Nat.lt_succ_self n), lookup_cons_self]
        rfl
      | succ k =>
        have hk : k < vs'.length := by simpa using hi
        have := h2 k hk
        rw [show n + (k + 1) = n + 1 + k by omega, this]
        rfl
    · intro j hj
      rw [h3 j (by omega), lookup_cons_ne j n u caps (by omega)]

/-- The rest of the expression matches the rest of the request. -/
theorem round_trip_complete (holes : List Hole) (vs : List Str)
    (hv : List.Forall₂ (fun h v => valueOk h v = true) holes vs)
    (hb : ∀ h ∈ holes, h.basic = true) (n p : Nat) (caps : List (Nat × Str)) :
    ∃ st', st' ∈ (mkCat (tailItems holes ++ [Re.eol])).run n ⟨p, requestTail vs, caps⟩ := by
  induction hv generalizing n p caps with
  | nil => exact ⟨⟨p, [], caps⟩, (run_eol _ _ _ _ _).2 ⟨rfl, rfl⟩⟩
  | @cons h v hs vs' hval _ ih =>
    have hbh := hb h (List.mem_cons_self _ _)
    obtain ⟨s0, hs0, hr0⟩ := run_complete _ v (valueOk_lang h hbh v hval) (n + 1)
      (p + [' '].length) (requestTail vs') caps
    obtain ⟨st', hst'⟩ := ih (fun x hx => hb x (List.mem_cons_of_mem _ hx))
      (n + (Re.group (holeRe MakeBasicTypes h)).groups) s0.pos
      ((n, (v ++ requestTail vs').take (s0.pos - (p + [' '].length))) :: s0.caps)
    refine ⟨st', ?_⟩
    rw [tailItems_cons, requestTail_cons, run_lits, run_mkCat_cons]
    apply List.mem_flatMap.mpr
    refine ⟨{ s0 with caps := (n, (v ++ requestTail vs').take (s0.pos - (p + [' '].length))) ::
      s0.caps }, ?_, ?_⟩
    · simp only [Re.run, List.mem_map]
      exact ⟨s0, hs0, rfl⟩
    · have : ({ s0 with caps := (n, (v ++ requestTail vs').take (s0.pos - (p + [' '].length))) ::
          s0.caps } : MState) = ⟨s0.pos, requestTail vs',
            (n, (v ++ requestTail vs').take (s0.pos - (p + [' '].length))) :: s0.caps⟩ := by
        simp [hr0]
      rw [this]
      exact hst'


theorem allMatchesLoop_none (r : Re) (fuel pos : Nat) (rest : Str) (prev : Option Nat)
    (h : searchFrom r pos rest = none) : allMatchesLoop r fuel pos (some rest) prev = [] := by
  cases fuel with
  | zero => rfl
  | succ k => simp [allMatchesLoop, h]

theorem allMatchesLoop_succ (r : Re) (fuel pos : Nat) (rest : Str) (prev : Option Nat) :
    allMatchesLoop r (fuel + 1) pos (some rest) prev =
      match searchFrom r pos rest with
      | none => []
      | some (from_, st) =>
        if st.pos = pos then
          let next := match rest with
            | [] => none
            | _ :: cs => some cs
          if some (st.pos - (from_.length - st.rest.length)) = prev then
            allMatchesLoop r fuel (pos + 1) next (some st.pos)
          else submatches r from_ st :: allMatchesLoop r fuel (pos + 1) next (some st.pos)
        else submatches r from_ st :: allMatchesLoop r fuel st.pos (some st.rest) (some st.pos) :=
  rfl

/-- An expression that starts with `^` has at most one match, the one at the start of the
text. -/
theorem findAll_anchored (items : List Re) (q : Str) (st : MState)
    (hhead : ((mkCat items).run 0 ⟨0, q, []⟩).head? = some st) :
    allMatchesLoop (mkCat (.bol :: items)) (q.length + 2) 0 (some q) none =
      [submatches (mkCat (.bol :: items)) q st] := by
  have hsearch : searchFrom (mkCat (.bol :: items)) 0 q = some (q, st) := by
    rw [search_anchored, hhead]; rfl
  rw [show q.length + 2 = (q.length + 1) + 1 from rfl, allMatchesLoop_succ, hsearch]
  simp only
  by_cases hp : st.pos = 0
  · simp only [hp, if_true]
    have hacc : ¬ (some (0 - (q.length - st.rest.length)) = (none : Option Nat)) := by simp
    rw [if_neg hacc]
    cases q with
    | nil => rfl
    | cons x xs =>
      simp only [List.cons.injEq, true_and]
      exact allMatchesLoop_none _ _ _ _ _ (search_bol_pos items 1 xs (by omega))
  · simp only [hp, if_false, List.cons.injEq, true_and]
    exact allMatchesLoop_none _ _ _ _ _ (search_bol_pos items st.pos st.rest hp)

theorem range_map_lookup (vs : List Str) (caps : List (Nat × Str))
    (h : ∀ (i : Nat) (hi : i < vs.length), caps.lookup i = some (vs.get ⟨i, hi⟩)) :
    (List.range vs.length).map (fun i => (caps.lookup i).getD []) = vs := by
  apply List.ext_get
  · simp
  · intro i h1 h2
    simp only [List.get_eq_getElem, List.getElem_map, List.getElem_range]
    have := h i h2
    simp only [List.get_eq_getElem] at this
    rw [this]
    rfl

theorem sliceIndex_get {α : Type} (xs : List α) (i : Nat) (hi : i < xs.length) :
    sliceIndex xs (i : Int) = .ok (xs.get ⟨i, hi⟩) := by
  have h0 : ¬ ((i : Int) < 0) := by omega
  simp only [sliceIndex, h0, if_false, Int.toNat_ofNat]
  rw [List.get?_eq_get hi]

theorem wordTemplate_holes (w : Str) (holes : List Hole) :
    holesOf (wordTemplate w holes) = holes := by
  simp only [wordTemplate, holesOf_cons_lit]
  induction holes with
  | nil => rfl
  | cons h hs ih => simp [spacedHoles, holesOf, ih]

theorem wordTemplate_plain (w : Str) (holes : List Hole) (hw : '<' ∉ w)
    (hpl : ∀ h ∈ holes, h.plain = true) : piecesPlain (wordTemplate w holes) = true := by
  simp only [wordTemplate, piecesPlain, Bool.and_eq_true, not_contains_iff]
  refine ⟨hw, ?_⟩
  induction holes with
  | nil => rfl
  | cons h hs ih =>
    simp only [spacedHoles, piecesPlain, Bool.and_eq_true, not_contains_iff]
    exact ⟨by decide, hpl h (List.mem_cons_self _ _),
      ih (fun x hx => hpl x (List.mem_cons_of_mem _ hx))⟩

theorem wordTemplate_unspecial (w : Str) (holes : List Hole) (hw : ∀ x ∈ w, x ∉ specialChars) :
    literalsUnspecial (wordTemplate w holes) = true := by
  simp only [wordTemplate, literalsUnspecial, Bool.and_eq_true, all_not_special]
  refine ⟨hw, ?_⟩
  induction holes with
  | nil => rfl
  | cons h hs ih =>
    simp only [spacedHoles, literalsUnspecial, Bool.and_eq_true]
    exact ⟨by decide, ih⟩

theorem basic_resolve (holes : List Hole) (hb : ∀ h ∈ holes, h.basic = true) :
    holesResolve MakeBasicTypes holes = true := by
  simp only [holesResolve, List.all_eq_true]
  intro h hm
  have := hb h hm
  simp only [Hole.basic, Bool.or_eq_true, decide_eq_true_eq] at this
  rcases this with hd | hd
  · rw [resolve_basic_string h hd]; decide
  · rw [resolve_basic_integer h hd]; decide

theorem wordTemplate_items (w : Str) (holes : List Hole) :
    expressionItems MakeBasicTypes (wordTemplate w holes) = w.map Re.chr ++ tailItems holes := by
  simp only [wordTemplate, expressionItems]
  congr 1
  induction holes with
  | nil => rfl
  | cons h hs ih => simp [spacedHoles, expressionItems, tailItems, ih]

theorem expressionRe_groups (types : Types) (ps : List Piece)
    (hng : ∀ h ∈ holesOf ps, (holeRe types h).groups = 0) :
    (expressionRe types ps).groups = (holesOf ps).length := by
  rw [← captures_length, expressionRe_eq, mkCat_captures]
  simp [Re.captures, items_captures types ps hng]


theorem head?_of_mem {α : Type} (l : List α) (x : α) (h : x ∈ l) :
    ∃ y, l.head? = some y ∧ y ∈ l := by
  cases l with
  | nil => simp at h
  | cons a t => exact ⟨a, rfl, List.mem_cons_self _ _⟩

/-- What `FindAllStringSubmatch` returns for the request `w v1 ... vn`: one match, made of the
request and the values. -/
theorem findAll_word (escape : Bool) (w : Str) (holes : List Hole) (vs : List Str)
    (hb : ∀ h ∈ holes, h.basic = true)
    (hv : List.Forall₂ (fun h v => valueOk h v = true) holes vs) :
    goRegexp.findAllStringSubmatch
        (piecesCommand MakeBasicTypes escape (wordTemplate w holes)).Expression
        (wordRequest w vs) = [wordRequest w vs :: vs] ∧
      (piecesCommand MakeBasicTypes escape (wordTemplate w holes)).Matches (wordRequest w vs) =
        true := by
  have hitems : expressionItems MakeBasicTypes (wordTemplate w holes) ++ [Re.eol] =
      w.map Re.chr ++ (tailItems holes ++ [Re.eol]) := by
    rw [wordTemplate_items, List.append_assoc]
  have hrun : (mkCat (expressionItems MakeBasicTypes (wordTemplate w holes) ++ [Re.eol])).run 0
      ⟨0, wordRequest w vs, []⟩ =
      (mkCat (tailItems holes ++ [Re.eol])).run 0 ⟨0 + w.length, requestTail vs, []⟩ := by
    rw [hitems, wordRequest, run_lits]
  obtain ⟨st1, hst1⟩ := round_trip_complete holes vs hv hb 0 (0 + w.length) []
  rw [← hrun] at hst1
  obtain ⟨st, hhead, hmem⟩ := head?_of_mem _ _ hst1
  rw [hrun] at hmem
  obtain ⟨hrest, hcaps, _⟩ := round_trip_sound holes vs hv hb 0 (0 + w.length) [] st hmem
  have hlen : holes.length = vs.length := hv.length_eq
  have hgroups : (expressionRe MakeBasicTypes (wordTemplate w holes)).groups = vs.length := by
    rw [expressionRe_groups, wordTemplate_holes, hlen]
    intro h hm
    rw [wordTemplate_holes] at hm
    exact (holeRe_basic_groups h (hb h hm)).1
  constructor
  · show allMatchesLoop (expressionRe MakeBasicTypes (wordTemplate w holes))
      ((wordRequest w vs).length + 2) 0 (some (wordRequest w vs)) none = _
    rw [expressionRe_eq, findAll_anchored _ _ st hhead, ← expressionRe_eq]
    simp only [submatches, hrest, List.length_nil, Nat.sub_zero, List.take_length, hgroups]
    rw [range_map_lookup vs st.caps (fun i hi => by simpa using hcaps i hi)]
  · show (searchFrom (expressionRe MakeBasicTypes (wordTemplate w holes)) 0
      (wordRequest w vs)).isSome = true
    rw [expressionRe_eq, matches_anchored]
    exact ⟨st1, hst1⟩

/-- C2: for the template `w <p1:t1> ... <pn:tn>` (a literal word, that is text without
pattern-special characters and without `<`, which would open a placeholder; placeholders with
plain, pairwise distinct names and types `string` or `integer`, a short form counting as `string`,
separated by single spaces) compiled in either mode with the basic types, given as nil or
explicitly, and for values that are non-empty runs of non-whitespace characters (of decimal digits
for `integer`), `Match` on the request `w v1 ... vn` succeeds and `Parameter`, like its alias
`String`, returns `vi` for `pi`. -/
theorem fill_extract_round_trip (types : Option Types) (escape : Bool) (w : Str)
    (holes : List Hole) (vs : List Str)
    (ht : registryOf types = MakeBasicTypes)
    (hw : ∀ x ∈ w, x ∉ specialChars ∧ x ≠ '<')
    (hpl : ∀ h ∈ holes, h.plain = true ∧ h.basic = true)
    (hnd : (holes.map Hole.name).Nodup)
    (hv : List.Forall₂ (fun h v => valueOk h v = true) holes vs) :
    ∃ c, makeCommand goRegexp (templateText (wordTemplate w holes)) escape types = .ok c ∧
      c.Match (wordRequest w vs) = .ok ⟨c, wordRequest w vs⟩ ∧
      ∀ (i : Nat) (hi : i < holes.length) (hj : i < vs.length),
        (⟨c, wordRequest w vs⟩ : Match goRegexp).Parameter (holes.get ⟨i, hi⟩).name =
            .ok (vs.get ⟨i, hj⟩) ∧
          (⟨c, wordRequest w vs⟩ : Match goRegexp).String (holes.get ⟨i, hi⟩).name =
            .ok (vs.get ⟨i, hj⟩) := by
  have hb : ∀ h ∈ holes, h.basic = true := fun h hm => (hpl h hm).2
  have hps := wordTemplate_plain w holes (fun hm => (hw _ hm).2 rfl) (fun h hm => (hpl h hm).1)
  have hholes := wordTemplate_holes w holes
  obtain ⟨hfind, hmatches⟩ := findAll_word escape w holes vs hb hv
  refine ⟨piecesCommand MakeBasicTypes escape (wordTemplate w holes), ?_, ?_, ?_⟩
  · rw [makeCommand_registry, ht]
    refine makeCommand_pieces _ escape _ hps (by rw [hholes]; exact hnd)
      (by rw [hholes]; exact basic_resolve holes hb)
      (Or.inr (wordTemplate_unspecial w holes (fun x hx => (hw x hx).1)))
  · simp only [Command.Match, hmatches, if_true]
  · intro i hi hj
    have hparams : (piecesCommand MakeBasicTypes escape (wordTemplate w holes)).Parameters =
        holes.map (holeParam MakeBasicTypes) := by
      simp [piecesCommand, Command.Parameters, hholes]
    have hpos : (piecesCommand MakeBasicTypes escape (wordTemplate w holes)).Position
        (holes.get ⟨i, hi⟩).name = (i : Int) := by
      have hnd' : ((holes.map (holeParam MakeBasicTypes)).map (fun p => p.name)).Nodup := by
        simpa [List.map_map, Function.comp, holeParam] using hnd
      have := positionLoop_get (holes.map (holeParam MakeBasicTypes)) hnd' i (by simpa using hi) 0
      simp only [Command.Position, hparams]
      simpa [holeParam] using this
    have hP : (⟨piecesCommand MakeBasicTypes escape (wordTemplate w holes), wordRequest w vs⟩ :
        Match goRegexp).Parameter (holes.get ⟨i, hi⟩).name = .ok (vs.get ⟨i, hj⟩) := by
      have hne : ¬ ((i : Int) = -1) := by omega
      simp only [Match.Parameter, hpos, hne, if_false, hfind]
      simp only [sliceIndex, Int.toNat_zero, List.get?_cons_zero]
      simp only [Int.lt_irrefl, if_false]
      exact sliceIndex_get vs i hj
    exact ⟨hP, hP⟩

/-- The statement of C2 on the template `command <lorem:integer> <ipsum:string> <dolor>` and the
request `command 12345 abcdef x`. -/
theorem fill_extract_round_trip_witness :
    ∃ c, makeCommand goRegexp
        (templateText (wordTemplate "command".toList
          [⟨"lorem".toList, some "integer".toList⟩, ⟨"ipsum".toList, some "string".toList⟩,
            ⟨"dolor".toList, none⟩])) false none = .ok c ∧
      c.Match "command 12345 abcdef x".toList = .ok ⟨c, "command 12345 abcdef x".toList⟩ ∧
      (⟨c, "command 12345 abcdef x".toList⟩ : Match goRegexp).Parameter "ipsum".toList =
        .ok "abcdef".toList ∧
      (⟨c, "command 12345 abcdef x".toList⟩ : Match goRegexp).String "ipsum".toList =
        .ok "abcdef".toList :=
  match fill_extract_round_trip none false "command".toList
      [⟨"lorem".toList, some "integer".toList⟩, ⟨"ipsum".toList, some "string".toList⟩,
        ⟨"dolor".toList, none⟩]
      ["12345".toList, "abcdef".toList, "x".toList] rfl (by decide) (by decide) (by decide)
      (.cons rfl (.cons rfl (.cons rfl .nil))) with
  | ⟨c, h1, h2, h3⟩ => ⟨c, h1, h2, h3 1 (by decide) (by decide)⟩

/-! ## Conversion to an integer -/

theorem digitsValueFrom_ge (ds : Str) (n : Nat) : n ≤ digitsValueFrom n ds := by
  induction ds generalizing n with
  | nil => exact le_refl _
  | cons c cs ih =>
    show n ≤ digitsValueFrom (n * 10 + (c.toNat - 48)) cs
    have := ih (n * 10 + (c.toNat - 48))
    omega

theorem parseUintLoop_range (ds : Str) (n u : Nat)
    (h : parseUintLoop ds n = (u, some true)) : u = maxUint64 := by
  induction ds generalizing n with
  | nil => simp [parseUintLoop] at h
  | cons c cs ih =>
    unfold parseUintLoop at h
    split at h
    · split at h
      · simp at h; exact h.symm
      · simp only at h
        split at h
        · simp at h; exact h.symm
        · exact ih _ h
    · simp at h

theorem parseUintLoop_digits (ds : Str) (n : Nat) (hd : ds.all isDigitChar = true)
    (hn : n < 2 ^ 64) :
    parseUintLoop ds n =
      if digitsValueFrom n ds < 2 ^ 64 then (digitsValueFrom n ds, none)
      else (maxUint64, some true) := by
  induction ds generalizing n with
  | nil =>
    have hv : digitsValueFrom n [] = n := rfl
    rw [hv, if_pos hn]
    rfl
  | cons c cs ih =>
    simp only [List.all_cons, Bool.and_eq_true] at hd
    obtain ⟨hc, hcs⟩ := hd
    simp only [isDigitChar, Bool.and_eq_true, decide_eq_true_eq] at hc
    have hv : digitsValueFrom n (c :: cs) = digitsValueFrom (n * 10 + (c.toNat - 48)) cs := rfl
    have hge := digitsValueFrom_ge cs (n * 10 + (c.toNat - 48))
    unfold parseUintLoop
    rw [if_pos hc, hv]
    by_cases h1 : n ≥ maxUint64 / 10 + 1
    · rw [if_pos h1, if_neg]
      simp only [maxUint64] at h1
      omega
    · rw [if_neg h1]
      simp only [maxUint64] at h1
      have h10 : n * 10 % 2 ^ 64 = n * 10 := Nat.mod_eq_of_lt (by omega)
      simp only [h10]
      by_cases h2 : n * 10 + (c.toNat - 48) < 2 ^ 64
      · have h11 : (n * 10 + (c.toNat - 48)) % 2 ^ 64 = n * 10 + (c.toNat - 48) :=
          Nat.mod_eq_of_lt h2
        rw [h11, if_neg, ih _ hcs h2]
        simp only [maxUint64]
        omega
      · rw [if_pos, if_neg]
        · omega
        · left
          omega

theorem parseUintLoop_nondigit (ds : Str) (n : Nat) (hd : ¬ ds.all isDigitChar = true) :
    ∃ u b, parseUintLoop ds n = (u, some b) := by
  induction ds generalizing n with
  | nil => simp at hd
  | cons c cs ih =>
    unfold parseUintLoop
    by_cases hc : 48 ≤ c.toNat ∧ c.toNat ≤ 57
    · rw [if_pos hc]
      have hcs : ¬ cs.all isDigitChar = true := by
        intro h
        apply hd
        simp only [List.all_cons, Bool.and_eq_true]
        exact ⟨by simp [isDigitChar, hc], h⟩
      split
      · exact ⟨_, _, rfl⟩
      · simp only
        split
        · exact ⟨_, _, rfl⟩
        · exact ih _ hcs
    · rw [if_neg hc]
      exact ⟨_, _, rfl⟩

theorem ParseUint_digits (ds : Str) (hne : ds ≠ []) (hd : ds.all isDigitChar = true) :
    ParseUint ds =
      if digitsValue ds < 2 ^ 64 then (digitsValue ds, none) else (maxUint64, some true) := by
  unfold ParseUint
  rw [if_neg hne]
  exact parseUintLoop_digits ds 0 hd (by norm_num)

theorem ParseUint_invalid (ds : Str) (h : ¬ (ds ≠ [] ∧ ds.all isDigitChar = true)) :
    ∃ u b, ParseUint ds = (u, some b) := by
  unfold ParseUint
  by_cases hne : ds = []
  · rw [if_pos hne]
    exact ⟨_, _, rfl⟩
  · rw [if_neg hne]
    exact parseUintLoop_nondigit ds 0 (fun hd => h ⟨hne, hd⟩)

theorem ParseUint_range (ds : Str) (u : Nat) (h : ParseUint ds = (u, some true)) :
    u = maxUint64 := by
  unfold ParseUint at h
  split at h
  · simp at h
  · exact parseUintLoop_range ds 0 u h

/-- What `ParseInt` returns for a text that is not a sign followed by digits: an error. -/
theorem ParseInt_invalid (s : Str) (h : decimalValue s = none) :
    ∃ v b, ParseInt s = (v, some b) := by
  cases s with
  | nil => exact ⟨_, _, rfl⟩
  | cons c cs =>
    simp only [decimalValue] at h
    have hinv : ¬ ((if c = '+' ∨ c = '-' then cs else c :: cs) ≠ [] ∧
        (if c = '+' ∨ c = '-' then cs else c :: cs).all isDigitChar = true) := by
      intro hv
      rw [if_pos hv] at h
      simp at h
    obtain ⟨u, b, hu⟩ := ParseUint_invalid _ hinv
    simp only [ParseInt, hu]
    cases b with
    | false => exact ⟨_, _, rfl⟩
    | true =>
      have hmax := ParseUint_range _ u hu
      subst hmax
      simp only [maxUint64]
      by_cases hneg : c = '-'
      · subst hneg
        exact ⟨_, _, rfl⟩
      · have : (c == '-') = false := by simp [hneg]
        simp only [this]
        exact ⟨_, _, rfl⟩

theorem decimalValue_cons (c : Char) (cs : Str) :
    decimalValue (c :: cs) =
      if (if c = '+' ∨ c = '-' then cs else c :: cs) ≠ [] ∧
          (if c = '+' ∨ c = '-' then cs else c :: cs).all isDigitChar = true then
        some (if c = '-' then -(digitsValue (if c = '+' ∨ c = '-' then cs else c :: cs) : Int)
          else (digitsValue (if c = '+' ∨ c = '-' then cs else c :: cs) : Int))
      else none := rfl

theorem ParseInt_cons (c : Char) (cs : Str) :
    ParseInt (c :: cs) =
      match ParseUint (if c = '+' ∨ c = '-' then cs else c :: cs) with
      | (_, some false) => (0, some false)
      | (un, _) =>
        if !(c == '-') && un ≥ 2 ^ 63 then (int64 ((2 ^ 63 - 1 : Nat) : Int), some true)
        else if (c == '-') && un > 2 ^ 63 then
          (int64 (-int64 ((2 ^ 63 : Nat) : Int)), some true)
        else (if (c == '-') then int64 (-int64 un) else int64 un, none) := rfl

theorem ParseInt_valid (s : Str) (n : Int) (h : decimalValue s = some n) :
    (-2 ^ 63 ≤ n ∧ n < 2 ^ 63 → ParseInt s = (n, none)) ∧
    (¬ (-2 ^ 63 ≤ n ∧ n < 2 ^ 63) → ∃ v, ParseInt s = (v, some true)) := by
  cases s with
  | nil => simp [decimalValue] at h
  | cons c cs =>
    rw [decimalValue_cons] at h
    rw [ParseInt_cons]
    generalize (if c = '+' ∨ c = '-' then cs else c :: cs) = ds at h
    by_cases hv : ds ≠ [] ∧ ds.all isDigitChar = true
    swap
    · rw [if_neg hv] at h
      simp at h
    rw [if_pos hv] at h
    simp only [Option.some.injEq] at h
    rw [ParseUint_digits ds hv.1 hv.2]
    generalize digitsValue ds = v at h
    by_cases hneg : c = '-'
    · have hb : (c == '-') = true := by simp [hneg]
      rw [if_pos hneg] at h
      simp only [hb]
      by_cases h64 : v < 2 ^ 64
      · rw [if_pos h64]
        simp only [Bool.not_true, Bool.false_and, Bool.true_and, decide_eq_true_eq]
        subst h
        by_cases hc : v > 2 ^ 63
        · rw [if_neg (by simp), if_pos hc]
          refine ⟨fun hr => ?_, fun _ => ⟨_, rfl⟩⟩
          omega
        · rw [if_neg (by simp), if_neg hc]
          refine ⟨fun _ => ?_, fun hr => ?_⟩
          · have : int64 (-int64 (v : Int)) = -(v : Int) := by
              simp only [int64]
              omega
            rw [this, if_pos trivial]
          · omega
      · rw [if_neg h64]
        subst h
        simp only [Bool.not_true, Bool.false_and, Bool.true_and, decide_eq_true_eq, maxUint64]
        rw [if_neg (by simp), if_pos (by norm_num)]
        refine ⟨fun hr => ?_, fun _ => ⟨_, rfl⟩⟩
        omega
    · have hb : (c == '-') = false := by simp [hneg]
      rw [if_neg hneg] at h
      simp only [hb]
      subst h
      by_cases h64 : v < 2 ^ 64
      · rw [if_pos h64]
        simp only [Bool.not_false, Bool.false_and, Bool.true_and, decide_eq_true_eq]
        by_cases hc : v ≥ 2 ^ 63
        · rw [if_pos hc]
          refine ⟨fun hr => ?_, fun _ => ⟨_, rfl⟩⟩
          omega
        · rw [if_neg hc, if_neg (by simp)]
          refine ⟨fun _ => ?_, fun hr => ?_⟩
          · have : int64 (v : Int) = (v : Int) := by
              simp only [int64]
              omega
            simp [this]
          · omega
      · rw [if_neg h64]
        simp only [Bool.not_false, Bool.false_and, Bool.true_and, decide_eq_true_eq, maxUint64]
        rw [if_pos (by norm_num)]
        refine ⟨fun hr => ?_, fun _ => ⟨_, rfl⟩⟩
        omega

theorem Atoi_ok_iff (s : Str) (n : Int) :
    Atoi s = (n, none) ↔ decimalValue s = some n ∧ -2 ^ 63 ≤ n ∧ n < 2 ^ 63 := by
  unfold Atoi
  cases hd : decimalValue s with
  | none =>
    obtain ⟨v, b, hp⟩ := ParseInt_invalid s hd
    rw [hp]
    simp
  | some k =>
    obtain ⟨h1, h2⟩ := ParseInt_valid s k hd
    by_cases hr : -2 ^ 63 ≤ k ∧ k < 2 ^ 63
    · rw [h1 hr]
      simp only [Prod.mk.injEq, and_true, Option.some.injEq]
      constructor
      · intro h
        subst h
        exact ⟨rfl, hr⟩
      · intro h
        exact h.1
    · obtain ⟨v, hp⟩ := h2 hr
      rw [hp]
      simp only [Prod.mk.injEq, Option.some.injEq, false_iff, reduceCtorEq, and_false]
      intro h
      exact hr (h.1 ▸ h.2)

theorem Atoi_error (s : Str)
    (h : ¬ ∃ n : Int, decimalValue s = some n ∧ -2 ^ 63 ≤ n ∧ n < 2 ^ 63) :
    ∃ v range, Atoi s = (v, some (.numError range s)) := by
  unfold Atoi
  cases hd : decimalValue s with
  | none =>
    obtain ⟨v, b, hp⟩ := ParseInt_invalid s hd
    rw [hp]
    exact ⟨_, _, rfl⟩
  | some k =>
    obtain ⟨_, h2⟩ := ParseInt_valid s k hd
    obtain ⟨v, hp⟩ := h2 (fun hr => h ⟨k, hd, hr⟩)
    rw [hp]
    exact ⟨_, _, rfl⟩

/-! ## Lookups by name and `Match` -/

theorem positionLoop_absent {E : Engine} (name : Str) (params : List (Parameter E)) (i : Int)
    (h : name ∉ params.map Parameter.Name) : positionLoop name params i = -1 := by
  induction params generalizing i with
  | nil => rfl
  | cons p ps ih =>
    simp only [List.map_cons, List.mem_cons, not_or] at h
    unfold positionLoop
    rw [if_neg (fun hp => h.1 hp.symm)]
    exact ih _ h.2

/-- The two embeddings of `Match.Parameter` agree. -/
theorem ParameterResult_outcome {E : Engine} (m : Match E) (name : Str) :
    (m.ParameterResult name).outcome = m.Parameter name := by
  unfold Match.ParameterResult Match.Parameter
  simp only
  split
  · rfl
  · cases sliceIndex (E.findAllStringSubmatch m.Command.Expression m.Request) 0 with
    | ok first =>
      cases first with
      | nil => rfl
      | cons g groups =>
        simp only
        cases sliceIndex groups (m.Command.Position name) <;> rfl
    | error e => rfl
    | panic k => rfl

/-- The two embeddings of `Match.Integer` agree. -/
theorem IntegerResult_outcome {E : Engine} (m : Match E) (name : Str) :
    (m.IntegerResult name).outcome = m.Integer name := by
  unfold Match.IntegerResult Match.Integer
  rw [← ParameterResult_outcome]
  cases m.ParameterResult name with
  | panics k => rfl
  | returns v err =>
    cases err with
    | some e => rfl
    | none =>
      simp only [Returned.outcome]
      rcases hA : Atoi v with ⟨n, _ | e⟩ <;> rfl

/-- C13: for every compiled template and every request, `Match` returns the pair of that template
and that request, and no error, when `Matches` holds for the request, and the error "Request does
not match Command." with no `Match` when it does not. -/
theorem match_follows_matches {E : Engine} (c : Command E) (q : Str) :
    (c.Matches q = true → c.Match q = .ok ⟨c, q⟩) ∧
    (c.Matches q = false → c.Match q = .error .noMatch) := by
  unfold Command.Match
  constructor
  · intro h
    rw [if_pos h]
  · intro h
    rw [if_neg (by simp [h])]

/-- C14: for every `Match` and every name that no parameter of its template has, `Parameter`,
`String` and `Integer` return the error "Unknown parameter" for that name, next to the empty
string, the empty string and 0. -/
theorem undeclared_name_fails {E : Engine} (m : Match E) (name : Str)
    (h : name ∉ m.Command.Parameters.map Parameter.Name) :
    m.ParameterResult name = .returns [] (some (.unknownParameter name)) ∧
    m.StringResult name = .returns [] (some (.unknownParameter name)) ∧
    m.IntegerResult name = .returns 0 (some (.unknownParameter name)) ∧
    m.Parameter name = .error (.unknownParameter name) ∧
    m.String name = .error (.unknownParameter name) ∧
    m.Integer name = .error (.unknownParameter name) := by
  have hpos : m.Command.Position name = -1 := positionLoop_absent name _ 0 h
  have h1 : m.ParameterResult name = .returns [] (some (.unknownParameter name)) := by
    unfold Match.ParameterResult
    simp only [hpos, if_true]
  have h2 : m.Parameter name = .error (.unknownParameter name) := by
    unfold Match.Parameter
    simp only [hpos, if_true]
  refine ⟨h1, h1, ?_, h2, h2, ?_⟩
  · unfold Match.IntegerResult
    rw [h1]
  · unfold Match.Integer
    rw [h2]

theorem undeclared_name_fails_witness :
    "ipsum".toList ∉ (Match.mk loremCommand "command abc".toList).Command.Parameters.map
      Parameter.Name ∧
    Match.IntegerResult ⟨loremCommand, "command abc".toList⟩ "ipsum".toList =
      .returns 0 (some (.unknownParameter "ipsum".toList)) ∧
    Match.ParameterResult ⟨loremCommand, "command abc".toList⟩ "ipsum".toList =
      .returns [] (some (.unknownParameter "ipsum".toList)) :=
  ⟨by decide,
    (undeclared_name_fails ⟨loremCommand, "command abc".toList⟩ "ipsum".toList (by decide)).2.2.1,
    (undeclared_name_fails ⟨loremCommand, "command abc".toList⟩ "ipsum".toList (by decide)).1⟩

/-- C12: for every `Match` and every name for which `Parameter` returns the text `s`, `Integer`
returns `n` exactly when `s` is an optional sign followed by one or more decimal digits that
denote `n` and `n` lies between `-2^63` and `2^63 - 1`; for every other `s` it returns an error of
`strconv` about `s`. -/
theorem integer_conversion {E : Engine} (m : Match E) (name s : Str)
    (h : m.Parameter name = .ok s) :
    (∀ n : Int, m.Integer name = .ok n ↔
      decimalValue s = some n ∧ -2 ^ 63 ≤ n ∧ n < 2 ^ 63) ∧
    ((¬ ∃ n : Int, decimalValue s = some n ∧ -2 ^ 63 ≤ n ∧ n < 2 ^ 63) →
      ∃ range, m.Integer name = .error (.numError range s)) := by
  have hI : m.Integer name =
      match Atoi s with
      | (n, none) => .ok n
      | (_, some err) => .error err := by
    unfold Match.Integer
    simp only [h]
  constructor
  · intro n
    rw [hI, ← Atoi_ok_iff]
    rcases hA : Atoi s with ⟨v, _ | e⟩
    · simp
    · simp
  · intro hn
    obtain ⟨v, range, hA⟩ := Atoi_error s hn
    exact ⟨range, by rw [hI, hA]⟩

theorem integer_conversion_witness :
    Match.Parameter ⟨loremCommand, "command -42".toList⟩ "lorem".toList = .ok "-42".toList ∧
    Match.Integer ⟨loremCommand, "command -42".toList⟩ "lorem".toList = .ok (-42) ∧
    (∃ range, Match.Integer ⟨loremCommand, "command abc".toList⟩ "lorem".toList =
      .error (.numError range "abc".toList)) ∧
    (∃ range, Match.Integer ⟨countCommand, "count 9223372036854775808".toList⟩ "n".toList =
      .error (.numError range "9223372036854775808".toList)) :=
  ⟨rfl,
    ((integer_conversion ⟨loremCommand, "command -42".toList⟩ "lorem".toList "-42".toList rfl).1
      (-42)).2 ⟨rfl, by norm_num, by norm_num⟩,
    (integer_conversion ⟨loremCommand, "command abc".toList⟩ "lorem".toList "abc".toList rfl).2
      (by
        have hd : decimalValue "abc".toList = none := rfl
        rw [hd]
        simp),
    (integer_conversion ⟨countCommand, "count 9223372036854775808".toList⟩ "n".toList
      "9223372036854775808".toList rfl).2
      (by
        have hd : decimalValue "9223372036854775808".toList = some 9223372036854775808 := by
          decide
        rw [hd]
        rintro ⟨n, hn, _, h2⟩
        simp only [Option.some.injEq] at hn
        subst hn
        norm_num at h2)⟩

/-! ## Errors and panics of compiling -/

theorem goRegexp_lawful : goRegexp.Lawful := by
  intro s r h
  have h' : (match parseRe s with
      | .ok re => (Except.ok ⟨s, re⟩ : Except RegexError GoRegexp)
      | .error e => .error e) = .ok r := h
  cases hp : parseRe s with
  | error e => rw [hp] at h'; cases h'
  | ok re =>
    rw [hp] at h'
    cases h'
    rfl

/-- C15: a template whose placeholder resolves to the fragment `[0-9`, which is not a valid
pattern, makes `New`, `NewWithEscaping` and `Parse` panic in `regexp.MustCompile`; none of them
returns an error. -/
theorem invalid_fragment_panics :
    goRegexp.compile "[0-9".toList = .error .missingBracket ∧
    New goRegexp "command <lorem>".toList (some brokenRegistry) = .panic .mustCompile ∧
    NewWithEscaping goRegexp "command <lorem>".toList (some brokenRegistry) =
      .panic .mustCompile ∧
    Parse goRegexp "<lorem>".toList brokenRegistry = .panic .mustCompile :=
  ⟨rfl, rfl, rfl, rfl⟩

/-- C16: for every template text and registry for which the parameters are parsed and
substituted, giving the text `expr`, and `regexp.Compile` refuses `^expr$` with the error `e`,
`New` returns the error `e` and no command. -/
theorem invalid_expression_error (E : Engine) (text : Str) (types : Option Types)
    (params : List (Parameter E)) (expr : Str) (e : RegexError)
    (hp : parseParameters E text (registryOf types) = .ok params)
    (hs : substituteParams params text = .ok expr)
    (hc : E.compile (anchored expr) = .error e) :
    New E text types = .error (.regex e) := by
  unfold New makeCommand
  simp only [hp, makeExpression, Bool.false_eq_true, if_false, hs, hc]

theorem invalid_expression_error_witness :
    parseParameters goRegexp notCompilingTemplate (registryOf none) = .ok [] ∧
    substituteParams ([] : List (Parameter goRegexp)) notCompilingTemplate =
      .ok notCompilingTemplate ∧
    goRegexp.compile (anchored notCompilingTemplate) = .error .missingBracket ∧
    New goRegexp notCompilingTemplate none = .error (.regex .missingBracket) :=
  ⟨rfl, rfl, rfl,
    invalid_expression_error goRegexp notCompilingTemplate none [] notCompilingTemplate
      .missingBracket rfl rfl rfl⟩

/-! ## `Parse` on a placeholder -/

theorem replace_open (n : Str) (h : '<' ∉ n) : stringsReplace ('<' :: n) ['<'] [] = n := by
  have h1 : stringsReplace ('<' :: n) ['<'] [] = replaceGo ['<'] [] 0 (['<'] ++ n) := by
    simp [stringsReplace]
  rw [h1, replaceGo_hit]
  have h2 := stringsReplace_absent n '<' h
  simp only [stringsReplace] at h2
  simpa using h2

theorem replace_close (n : Str) (h : '>' ∉ n) : stringsReplace (n ++ ['>']) ['>'] [] = n := by
  have h1 : stringsReplace (n ++ ['>']) ['>'] [] = replaceGo ['>'] [] 0 (n ++ (['>'] ++ [])) := by
    simp [stringsReplace]
  rw [h1, replaceGo_plain _ _ _ _ _ h, replaceGo_hit]
  simp [replaceGo]

/-- What `Parse` makes of a text `<x>` whose inner text has no angle bracket. -/
theorem Parse_strip (x : Str) (h1 : '<' ∉ x) (h2 : '>' ∉ x) :
    stringsReplace (stringsReplace ('<' :: x ++ ['>']) ['<'] []) ['>'] [] = x := by
  have h : '<' ∉ x ++ ['>'] := by
    simp only [List.mem_append, List.mem_singleton, not_or]
    exact ⟨h1, by decide⟩
  have e : '<' :: x ++ ['>'] = '<' :: (x ++ ['>']) := rfl
  rw [e, replace_open _ h, replace_close _ h2]

theorem sliceIndex_pair_zero {α : Type} (a b : α) : sliceIndex [a, b] 0 = .ok a := by
  simp [sliceIndex]

theorem compile_of_lookup (E : Engine) (types : Types) (hv : ValidFragments E types) (k f : Str)
    (h : types.lookup k = some f) : ∃ re, E.compile f = .ok re := by
  obtain ⟨l1, l2, h1, _⟩ := List.lookup_eq_some_iff.mp h
  have hm : (k, f) ∈ types := by
    rw [h1]
    simp
  have := hv (k, f) hm
  cases hc : E.compile f with
  | ok re => exact ⟨re, rfl⟩
  | error e =>
    rw [hc] at this
    cases this

/-- C17: for every name `n` and type name `t` without `<`, `>` and `:`, and every registry whose
fragments compile: `Parse("<n>")` returns a parameter of name `n` and type `string`, whose
expression has the source text of the fragment of `string` when the registry has one and is nil
otherwise; `Parse("<n:t>")` returns a parameter of name `n` and type `t` whose expression has the
source text of the fragment of `t` when `t` is a key of the registry, and an error when it is
not. -/
theorem parse_placeholder (E : Engine) (hE : E.Lawful) (n t : Str) (r : Types)
    (hn : '<' ∉ n ∧ '>' ∉ n ∧ ':' ∉ n) (ht : '<' ∉ t ∧ '>' ∉ t ∧ ':' ∉ t)
    (hr : ValidFragments E r) :
    (∃ p, Parse E (shortToken n) r = .ok p ∧ p.Name = n ∧ p.Data = "string".toList ∧
      (∀ f, r.lookup "string".toList = some f →
        ∃ re, p.Expression = some re ∧ E.source re = f) ∧
      (r.lookup "string".toList = none → p.Expression = none)) ∧
    (∀ f, r.lookup t = some f →
      ∃ p re, Parse E (longToken n t) r = .ok p ∧ p.Name = n ∧ p.Data = t ∧
        p.Expression = some re ∧ E.source re = f) ∧
    (r.lookup t = none → Parse E (longToken n t) r = .error (.undefinedType t)) := by
  have hs : stringsReplace (stringsReplace (shortToken n) ['<'] []) ['>'] [] = n :=
    Parse_strip n hn.1 hn.2.1
  have hnt1 : '<' ∉ n ++ ':' :: t := by
    simp only [List.mem_append, List.mem_cons, not_or]
    exact ⟨hn.1, by decide, ht.1⟩
  have hnt2 : '>' ∉ n ++ ':' :: t := by
    simp only [List.mem_append, List.mem_cons, not_or]
    exact ⟨hn.2.1, by decide, ht.2.1⟩
  have hl : stringsReplace (stringsReplace (longToken n t) ['<'] []) ['>'] [] = n ++ ':' :: t := by
    have e : longToken n t = '<' :: (n ++ ':' :: t) ++ ['>'] := by
      simp [longToken]
    rw [e]
    exact Parse_strip _ hnt1 hnt2
  have hcolon : ':' ∈ n ++ ':' :: t := by simp
  refine ⟨?_, ?_, ?_⟩
  · unfold Parse
    simp only [hs, if_neg hn.2.2]
    cases hlk : r.lookup "string".toList with
    | none =>
      have hx : Expression E defaultType r = .ok none := by
        unfold Expression
        rw [show defaultType = "string".toList from rfl, hlk]
      rw [hx]
      exact ⟨_, rfl, rfl, rfl, fun f hf => (by cases hf), fun _ => rfl⟩
    | some f =>
      obtain ⟨re, hre⟩ := compile_of_lookup E r hr _ f hlk
      have hx : Expression E defaultType r = .ok (some re) := by
        unfold Expression
        rw [show defaultType = "string".toList from rfl, hlk]
        simp only [hre]
      rw [hx]
      refine ⟨_, rfl, rfl, rfl, fun f' hf => ⟨re, rfl, ?_⟩, fun h => (by cases h)⟩
      cases hf
      exact hE f re hre
  · intro f hf
    obtain ⟨re, hre⟩ := compile_of_lookup E r hr _ f hf
    have hx : Expression E t r = .ok (some re) := by
      unfold Expression
      rw [hf]
      simp only [hre]
    refine ⟨NewParameterWithType E n t (some re), re, ?_, rfl, rfl, rfl, hE f re hre⟩
    unfold Parse
    simp only [hl, if_pos hcolon, stringsSplit_pair n t hn.2.2 ht.2.2, sliceIndex_pair_zero,
      sliceIndex_one_pair, hf, Option.isSome_some, if_true, hx]
  · intro hnone
    unfold Parse
    simp only [hl, if_pos hcolon, stringsSplit_pair n t hn.2.2 ht.2.2, sliceIndex_pair_zero,
      sliceIndex_one_pair, hnone, Option.isSome_none, Bool.false_eq_true, if_false]

theorem parse_placeholder_witness :
    goRegexp.Lawful ∧ ValidFragments goRegexp MakeBasicTypes ∧
    (∃ p re, Parse goRegexp "<lorem:integer>".toList MakeBasicTypes = .ok p ∧
      p.Name = "lorem".toList ∧ p.Data = "integer".toList ∧ p.Expression = some re ∧
      goRegexp.source re = "[0-9]+".toList) :=
  ⟨goRegexp_lawful, by decide,
    (parse_placeholder goRegexp goRegexp_lawful "lorem".toList "integer".toList MakeBasicTypes
      (by decide) (by decide) (by decide)).2.1 "[0-9]+".toList rfl⟩

/-! ## The registry and the two modes -/

theorem Expression_congr (E : Engine) (data : Str) (r r' : Types)
    (h : ∀ k, r.lookup k = r'.lookup k) : Expression E data r = Expression E data r' := by
  unfold Expression
  rw [h data]

theorem Parse_congr (E : Engine) (text : Str) (r r' : Types)
    (h : ∀ k, r.lookup k = r'.lookup k) : Parse E text r = Parse E text r' := by
  unfold Parse
  simp only [h, Expression_congr E _ r r' h]

theorem parseParametersLoop_congr (E : Engine) (r r' : Types) (h : ∀ k, r.lookup k = r'.lookup k)
    (found : List (List Str)) (list : List (Parameter E)) (namesSet : List Str) :
    parseParametersLoop E r found list namesSet = parseParametersLoop E r' found list namesSet := by
  induction found generalizing list namesSet with
  | nil => rfl
  | cons p rest ih =>
    unfold parseParametersLoop
    simp only [Parse_congr E _ r r' h, ih]

/-- A registry is used through its lookups only. -/
theorem makeCommand_congr (E : Engine) (text : Str) (escape : Bool) (r r' : Types)
    (h : ∀ k, r.lookup k = r'.lookup k) :
    makeCommand E text escape (some r) = makeCommand E text escape (some r') := by
  unfold makeCommand parseParameters
  simp only [registryOf, parseParametersLoop_congr E r r' h]

theorem basicTypesSwapped_lookup (k : Str) :
    basicTypesSwapped.lookup k =
      [("string".toList, "[^\\s]+".toList), ("integer".toList, "[0-9]+".toList)].lookup k := by
  by_cases h1 : k = "string".toList
  · subst h1
    rfl
  · by_cases h2 : k = "integer".toList
    · subst h2
      rfl
    · have e1 : (k == "string".toList) = false := by simpa using h1
      have e2 : (k == "integer".toList) = false := by simpa using h2
      have e3 : (k == ['s', 't', 'r', 'i', 'n', 'g']) = false := e1
      have e4 : (k == ['i', 'n', 't', 'e', 'g', 'e', 'r']) = false := e2
      simp [basicTypesSwapped, List.lookup, e3, e4]

/-- C20: for every template text and either mode, compiling with a nil registry gives the same
result as compiling with a registry that holds `[^\s]+` for `string`, `[0-9]+` for `integer` and
nothing else. -/
theorem nil_registry_is_default (E : Engine) (text : Str) (escape : Bool) (r : Types)
    (h : ∀ k, r.lookup k =
      [("string".toList, "[^\\s]+".toList), ("integer".toList, "[0-9]+".toList)].lookup k) :
    makeCommand E text escape none = makeCommand E text escape (some r) := by
  rw [makeCommand_registry E text escape none]
  exact (makeCommand_congr E text escape r _ h).symm

theorem nil_registry_is_default_witness :
    (∀ k, basicTypesSwapped.lookup k =
      [("string".toList, "[^\\s]+".toList), ("integer".toList, "[0-9]+".toList)].lookup k) ∧
    New goRegexp "command <lorem>".toList none =
      New goRegexp "command <lorem>".toList (some basicTypesSwapped) ∧
    NewWithEscaping goRegexp "command <lorem>".toList none =
      NewWithEscaping goRegexp "command <lorem>".toList (some MakeBasicTypes) :=
  ⟨basicTypesSwapped_lookup,
    nil_registry_is_default goRegexp "command <lorem>".toList false basicTypesSwapped
      basicTypesSwapped_lookup,
    nil_registry_is_default goRegexp "command <lorem>".toList true MakeBasicTypes (fun _ => rfl)⟩

theorem makeExpression_unspecial (E : Engine) (text : Str) (params : List (Parameter E))
    (h : ∀ c ∈ text, c ∉ specialChars) :
    makeExpression E text params true = makeExpression E text params false := by
  unfold makeExpression
  simp only [if_true, Bool.false_eq_true, if_false, quoteMeta_unspecial text h]

/-- C19: for every template text without a pattern-special character and every registry,
`NewWithEscaping` ends as `New` does: with the same error, the same panic, or a command that
differs from the one of `New` in the flag `escape` only.  The two commands have the same
parameters and the same expression, so they decide `Matches` alike and `Parameter` returns the
same for every request and name. -/
theorem escaping_without_specials (E : Engine) (text : Str) (types : Option Types)
    (h : ∀ c ∈ text, c ∉ specialChars) :
    NewWithEscaping E text types = (New E text types).map (fun c => c.withEscape true) ∧
    ∀ c c', New E text types = .ok c → NewWithEscaping E text types = .ok c' →
      c'.Parameters = c.Parameters ∧ c'.Expression = c.Expression ∧
      ∀ q, c'.Matches q = c.Matches q ∧
        ∀ name, Match.Parameter ⟨c', q⟩ name = Match.Parameter ⟨c, q⟩ name := by
  have key : NewWithEscaping E text types =
      (New E text types).map (fun c => c.withEscape true) := by
    unfold NewWithEscaping New makeCommand
    simp only [makeExpression_unspecial E text _ h]
    cases parseParameters E text (registryOf types) with
    | error e => rfl
    | panic k => rfl
    | ok params =>
      simp only
      cases makeExpression E text params false <;> rfl
  refine ⟨key, ?_⟩
  intro c c' hc hc'
  rw [key, hc] at hc'
  simp only [Outcome.map, Outcome.ok.injEq] at hc'
  subst hc'
  exact ⟨rfl, rfl, fun q => ⟨rfl, fun name => rfl⟩⟩

theorem escaping_without_specials_witness :
    (∀ c ∈ "command <lorem> <ipsum:integer>".toList, c ∉ specialChars) ∧
    NewWithEscaping goRegexp "command <lorem> <ipsum:integer>".toList none =
      (New goRegexp "command <lorem> <ipsum:integer>".toList none).map
        (fun c => c.withEscape true) ∧
    (New goRegexp "command <lorem> <ipsum:integer>".toList none).isOk = true :=
  ⟨by decide,
    (escaping_without_specials goRegexp "command <lorem> <ipsum:integer>".toList none
      (by decide)).1, rfl⟩

/-! ## Templates without placeholders -/

/-- A template without placeholders compiled with escaping: the parameters are none, and the
expression is the anchored sequence of the characters of the text. -/
theorem makeCommand_literal (t : Str) (types : Option Types) (h : occurrences goRegexp t = []) :
    NewWithEscaping goRegexp t types =
      .ok ⟨t, true, [], ⟨anchored (quoteMeta t), mkCat (.bol :: (t.map Re.chr ++ [.eol]))⟩⟩ := by
  have hocc : goRegexp.findAllStringSubmatch ⟨placeholderPattern, scanRe⟩ t = [] := by
    have := h
    unfold occurrences at this
    rw [scanRe_compiled] at this
    exact this
  have hpar : parseParameters goRegexp t (registryOf types) = .ok [] := by
    unfold parseParameters
    rw [scanRe_compiled]
    simp only [hocc]
    rfl
  have hparse := parse_expression [] true [.lit t] (Or.inl rfl) rfl
  have hbody : expressionBody [] true [.lit t] = quoteMeta t := by
    simp [expressionBody]
  have hre : expressionRe [] [.lit t] = mkCat (.bol :: (t.map Re.chr ++ [.eol])) := by
    simp [expressionRe, expressionItems]
  rw [hbody, hre] at hparse
  have hcomp : goRegexp.compile (anchored (quoteMeta t)) =
      .ok ⟨anchored (quoteMeta t), mkCat (.bol :: (t.map Re.chr ++ [.eol]))⟩ := by
    show (match parseRe (anchored (quoteMeta t)) with
      | .ok re => (Except.ok ⟨anchored (quoteMeta t), re⟩ : Except RegexError GoRegexp)
      | .error e => .error e) = _
    rw [hparse]
  unfold NewWithEscaping makeCommand
  simp only [hpar, makeExpression, if_true, substituteParams, hcomp]

/-- C11: for every template text in which the scan for placeholders finds no occurrence, whatever
special characters it has, and every registry, `NewWithEscaping` returns a command, and `Matches`
holds for a request exactly when the request is equal to the text. -/
theorem escaped_literal_matches_itself (t : Str) (types : Option Types)
    (h : occurrences goRegexp t = []) :
    ∃ c, NewWithEscaping goRegexp t types = .ok c ∧ ∀ q, c.Matches q = true ↔ q = t := by
  refine ⟨_, makeCommand_literal t types h, fun q => ?_⟩
  show (searchFrom (mkCat (.bol :: (t.map Re.chr ++ [.eol]))) 0 q).isSome = true ↔ q = t
  rw [matches_anchored]
  constructor
  · rintro ⟨st, hst⟩
    obtain ⟨rest, hq, h1⟩ := run_lits_mem t _ 0 0 q [] st hst
    have := (run_eol 0 _ rest [] st).mp h1
    rw [hq, this.1, List.append_nil]
  · intro hq
    subst hq
    refine ⟨⟨0 + q.length, [], []⟩, ?_⟩
    have e : (⟨0, q, []⟩ : MState) = ⟨0, q ++ [], []⟩ := by rw [List.append_nil]
    rw [e, run_lits]
    exact (run_eol 0 _ [] [] _).mpr ⟨rfl, rfl⟩

theorem escaped_literal_matches_itself_witness :
    occurrences goRegexp "[command] <a.*\n>$".toList = [] ∧
    ∃ c, NewWithEscaping goRegexp "[command] <a.*\n>$".toList none = .ok c ∧
      ∀ q, c.Matches q = true ↔ q = "[command] <a.*\n>$".toList :=
  ⟨by decide, escaped_literal_matches_itself "[command] <a.*\n>$".toList none (by decide)⟩

/-! ## Substitution over the whole text and the single scan -/

theorem closeToken_cons (c : Char) (cs : Str) :
    closeToken (c :: cs) =
      if c = '>' then some ([], cs)
      else if c.toNat = 10 then none
      else
        match closeToken cs with
        | some (inner, rest) => some (c :: inner, rest)
        | none => none := rfl

theorem closeToken_some (s inner rest : Str) (h : closeToken s = some (inner, rest)) :
    s = inner ++ '>' :: rest ∧ ∀ x ∈ inner, x ≠ '>' ∧ x.toNat ≠ 10 := by
  induction s generalizing inner with
  | nil => simp [closeToken] at h
  | cons c cs ih =>
    rw [closeToken_cons] at h
    by_cases h1 : c = '>'
    · rw [if_pos h1] at h
      simp only [Option.some.injEq, Prod.mk.injEq] at h
      rw [← h.1, ← h.2, h1]
      exact ⟨rfl, fun x hx => by simp at hx⟩
    · rw [if_neg h1] at h
      by_cases h2 : c.toNat = 10
      · rw [if_pos h2] at h
        cases h
      · rw [if_neg h2] at h
        cases hc : closeToken cs with
        | none => rw [hc] at h; cases h
        | some pr =>
          obtain ⟨i, r⟩ := pr
          rw [hc] at h
          simp only [Option.some.injEq, Prod.mk.injEq] at h
          obtain ⟨h3, h4⟩ := h
          subst h4
          obtain ⟨e1, e2⟩ := ih i hc
          rw [← h3]
          refine ⟨by rw [e1]; rfl, ?_⟩
          intro x hx
          rcases List.mem_cons.mp hx with hx | hx
          · rw [hx]; exact ⟨h1, h2⟩
          · exact e2 x hx

theorem closeToken_token (inner rest : Str) (h : ∀ x ∈ inner, x ≠ '>' ∧ x.toNat ≠ 10) :
    closeToken (inner ++ '>' :: rest) = some (inner, rest) := by
  induction inner with
  | nil => simp [closeToken]
  | cons c cs ih =>
    have hc := h c (List.mem_cons_self _ _)
    have := ih (fun x hx => h x (List.mem_cons_of_mem _ hx))
    rw [List.cons_append, closeToken_cons, if_neg hc.1, if_neg hc.2, this]

/-- Whether a `<` is blocked depends on the text after the run only when the run has neither a
`>` nor a line feed. -/
theorem closeToken_congr (b X Y : Str) (h : closeToken (b ++ X) = none)
    (hXY : closeToken X = none → closeToken Y = none) : closeToken (b ++ Y) = none := by
  induction b with
  | nil => exact hXY h
  | cons c cs ih =>
    simp only [List.cons_append] at h ⊢
    rw [closeToken_cons] at h ⊢
    by_cases h1 : c = '>'
    · rw [if_pos h1] at h
      cases h
    · rw [if_neg h1] at h ⊢
      by_cases h2 : c.toNat = 10
      · rw [if_pos h2]
      · rw [if_neg h2] at h ⊢
        cases hc : closeToken (cs ++ X) with
        | some pr => rw [hc] at h; cases h
        | none => rw [ih hc]

theorem lazy_star_blocked (g : MState → List MState)
    (hg : ∀ p x r c, x ≠ '>' → g ⟨p, x :: r, c⟩ = []) (hg0 : ∀ p c, g ⟨p, [], c⟩ = [])
    (s : Str) (hs : closeToken s = none) (fuel p : Nat) (c : List (Nat × Str)) :
    (starLoop false (Re.any.run 1) fuel ⟨p, s, c⟩).flatMap g = [] := by
  induction s generalizing p fuel with
  | nil =>
    cases fuel with
    | zero => simp [starLoop, hg0]
    | succ k => simp [starLoop, Re.run, stepChar, hg0]
  | cons x xs ih =>
    rw [closeToken_cons] at hs
    by_cases h1 : x = '>'
    · rw [if_pos h1] at hs
      cases hs
    · rw [if_neg h1] at hs
      cases fuel with
      | zero => simp [starLoop, hg p x xs c h1]
      | succ k =>
        by_cases h2 : x.toNat = 10
        · simp [starLoop, Re.run, stepChar, h2, hg p x xs c h1]
        · rw [if_neg h2] at hs
          have hxs : closeToken xs = none := by
            cases hc : closeToken xs with
            | none => rfl
            | some pr => rw [hc] at hs; cases hs
          have hA : Re.any.run 1 ⟨p, x :: xs, c⟩ = [⟨p + 1, xs, c⟩] := by
            simp [Re.run, stepChar, h2]
          simp only [starLoop, hA, Bool.false_eq_true, if_false, List.flatMap_cons,
            hg p x xs c h1, List.nil_append, List.filter_cons, List.length_cons,
            Nat.lt_succ_self, decide_True, if_true, List.filter_nil, List.flatMap_nil,
            List.append_nil]
          exact ih hxs k (p + 1)

/-- At a `<` that opens no placeholder the scan does not match. -/
theorem scan_blocked (s : Str) (hs : closeToken s = none) (pos : Nat) :
    scanRe.run 0 ⟨pos, '<' :: s, []⟩ = [] := by
  have hrun : scanRe.run 0 ⟨pos, '<' :: s, []⟩ =
      (starLoop false (Re.any.run 1) s.length ⟨pos + 1, s, []⟩).flatMap
        (fun st => stepChar (fun x => x == '>')
          { st with caps := (0, s.take (st.pos - (pos + 1))) :: st.caps }) := by
    simp only [scanRe, Re.run, stepChar, Re.groups, beq_self_eq_true, if_true, List.flatMap_cons,
      List.flatMap_nil, List.append_nil, List.flatMap_map]
    simp [List.flatMap_assoc, List.flatMap_singleton']
  rw [hrun]
  exact lazy_star_blocked _ (by intro p x r c hx; simp [stepChar, hx])
    (by intro p c; simp [stepChar]) s hs _ _ _

theorem blockedRun_nil (after : Str) : blockedRun [] after := trivial

theorem blockedRun_tail (c : Char) (cs after : Str) (h : blockedRun (c :: cs) after) :
    blockedRun cs after := h.2

theorem blockedRun_head (cs after : Str) (h : blockedRun ('<' :: cs) after) :
    closeToken (cs ++ after) = none := h.1 rfl

theorem blockedRun_of_no_lt (l after : Str) (h : '<' ∉ l) : blockedRun l after := by
  induction l with
  | nil => trivial
  | cons c cs ih =>
    simp only [List.mem_cons, not_or] at h
    exact ⟨fun e => absurd e.symm h.1, ih h.2⟩

theorem blockedRun_append (pre l after : Str) (hpre : blockedRun pre (l ++ after))
    (hl : blockedRun l after) : blockedRun (pre ++ l) after := by
  induction pre with
  | nil => exact hl
  | cons c cs ih =>
    refine ⟨fun e => ?_, ih hpre.2⟩
    show closeToken ((cs ++ l) ++ after) = none
    rw [List.append_assoc]
    exact hpre.1 e

/-- A run whose `<` open no placeholder has no match of the scan. -/
theorem scan_skip_blocked (pre rest : Str) (hp : blockedRun pre rest) (pos : Nat) :
    searchFrom scanRe pos (pre ++ rest) = searchFrom scanRe (pos + pre.length) rest := by
  induction pre generalizing pos with
  | nil => rfl
  | cons c cs ih =>
    have hrun : scanRe.run 0 ⟨pos, c :: (cs ++ rest), []⟩ = [] := by
      by_cases hc : c = '<'
      · subst hc
        exact scan_blocked _ (blockedRun_head cs rest hp) pos
      · simp [scanRe, Re.run, stepChar, hc]
    rw [List.cons_append, searchFrom_cons, hrun]
    simp only [List.head?_nil]
    rw [ih (blockedRun_tail c cs rest hp) (pos + 1)]
    simp [Nat.add_assoc, Nat.add_comm 1]

theorem scan_none_blocked (pre : Str) (hp : blockedRun pre []) (pos : Nat) :
    searchFrom scanRe pos pre = none := by
  have := scan_skip_blocked pre [] hp pos
  rw [List.append_nil] at this
  rw [this]
  simp [searchFrom, scanRe, Re.run, stepChar]

theorem scan_first_blocked (pre inner rest : Str)
    (hp : blockedRun pre (('<' :: inner ++ ['>']) ++ rest))
    (hs : ∀ x ∈ inner, x ≠ '>' ∧ x.toNat ≠ 10) (pos : Nat) :
    searchFrom scanRe pos (pre ++ (('<' :: inner ++ ['>']) ++ rest)) =
      some (('<' :: inner ++ ['>']) ++ rest,
        ⟨pos + pre.length + (inner.length + 2), rest, [(0, inner)]⟩) := by
  rw [scan_skip_blocked pre _ hp pos]
  exact searchFrom_head _ _ _ _ (scan_token inner rest hs _)

/-- The scan finds the placeholders of the pieces, left to right, each with its inner text. -/
theorem scan_pieces_blocked (ps : List Piece) (hps : piecesScan ps) (pre : Str)
    (hpre : blockedRun pre (templateText ps))
    (fuel pos : Nat) (prev : Option Nat) (hfuel : (holesOf ps).length < fuel) :
    allMatchesLoop scanRe fuel pos (some (pre ++ templateText ps)) prev =
      (holesOf ps).map (fun h => [h.token, h.inner]) := by
  induction ps generalizing pre fuel pos prev with
  | nil =>
    cases fuel with
    | zero => simp at hfuel
    | succ k =>
      rw [templateText_nil] at hpre
      simp [allMatchesLoop, templateText_nil, scan_none_blocked pre hpre, holesOf]
  | cons p ps ih =>
    rw [templateText_cons] at hpre ⊢
    cases p with
    | lit l =>
      rw [holesOf_cons_lit] at hfuel ⊢
      have := ih hps.2 (pre ++ l) (blockedRun_append pre l _ hpre hps.1) fuel pos prev hfuel
      simpa [Piece.text] using this
    | hole h =>
      rw [holesOf_cons_hole] at hfuel ⊢
      cases fuel with
      | zero => simp at hfuel
      | succ k =>
        have hk : (holesOf ps).length < k := by simpa using hfuel
        have hfind := scan_first_blocked pre h.inner (templateText ps) hpre hps.1 pos
        have hrest := ih hps.2 [] (blockedRun_nil _) k (pos + pre.length + (h.inner.length + 2))
          (some (pos + pre.length + (h.inner.length + 2))) hk
        simp only [List.nil_append] at hrest
        have hne : ¬ (pos + pre.length + (h.inner.length + 2) = pos) := by omega
        simp only [Piece.text, Hole.token, allMatchesLoop, hfind, hne, if_false, hrest,
          List.map_cons, scan_submatches]

/-- The occurrences that `parseParameters` finds in a template are its placeholders. -/
theorem occurrences_scan (ps : List Piece) (hps : piecesScan ps) :
    occurrences goRegexp (templateText ps) = (holesOf ps).map (fun h => [h.token, h.inner]) := by
  have h := scan_pieces_blocked ps hps [] (blockedRun_nil _) ((templateText ps).length + 2) 0 none
    (by have := holes_length_le ps; omega)
  simp only [List.nil_append] at h
  unfold occurrences
  rw [scanRe_compiled]
  exact h

theorem replaceGo_zero_cons (old new : Str) (c : Char) (cs : Str) :
    replaceGo old new 0 (c :: cs) =
      if old.isPrefixOf (c :: cs) then new ++ replaceGo old new (old.length - 1) cs
      else c :: replaceGo old new 0 cs := rfl

/-- A run whose `<` open no placeholder is copied by the replacement of a token. -/
theorem replaceGo_blocked (x new l rest : Str) (hx : ∀ c ∈ x, c ≠ '>' ∧ c.toNat ≠ 10)
    (hl : blockedRun l rest) :
    replaceGo ('<' :: x ++ ['>']) new 0 (l ++ rest) =
      l ++ replaceGo ('<' :: x ++ ['>']) new 0 rest := by
  induction l with
  | nil => rfl
  | cons c cs ih =>
    have hp : ('<' :: x ++ ['>']).isPrefixOf (c :: (cs ++ rest)) = false := by
      rw [Bool.eq_false_iff]
      intro hp
      rw [List.isPrefixOf_iff_prefix] at hp
      obtain ⟨t, ht⟩ := hp
      simp only [List.cons_append, List.cons.injEq, List.append_assoc,
        List.singleton_append, List.nil_append] at ht
      have hnone := hl.1 ht.1.symm
      rw [← ht.2, closeToken_token x t hx] at hnone
      cases hnone
    show replaceGo ('<' :: x ++ ['>']) new 0 (c :: (cs ++ rest)) =
      c :: (cs ++ replaceGo ('<' :: x ++ ['>']) new 0 rest)
    rw [replaceGo_zero_cons, hp]
    simp only [Bool.false_eq_true, if_false, List.cons.injEq, true_and]
    exact ih hl.2

/-- Replacing a token in a template replaces the placeholders written as that token. -/
theorem replace_pieces_scan (x new : Str) (hx : ∀ c ∈ x, c ≠ '>' ∧ c.toNat ≠ 10)
    (ps : List Piece) (hps : piecesScan ps) (hpl : ∀ h ∈ holesOf ps, h.plain = true) :
    stringsReplace (templateText ps) ('<' :: x ++ ['>']) new =
      templateText (ps.map (replacePiece x new)) := by
  rw [stringsReplace_token]
  induction ps with
  | nil => simp [templateText, replaceGo]
  | cons p ps ih =>
    rw [List.map_cons, templateText_cons, templateText_cons]
    cases p with
    | lit s =>
      rw [holesOf_cons_lit] at hpl
      have := replaceGo_blocked x new s (templateText ps) hx hps.1
      simp only [Piece.text, replacePiece]
      rw [← ih hps.2 hpl]
      exact this
    | hole h =>
      rw [holesOf_cons_hole] at hpl
      have hin := h.plain_inner (hpl h (List.mem_cons_self _ _))
      have hpl' : ∀ h' ∈ holesOf ps, h'.plain = true :=
        fun h' hm => hpl h' (List.mem_cons_of_mem _ hm)
      by_cases he : h.inner = x
      · have := replaceGo_hit '<' (x ++ ['>']) new (templateText ps)
        simp only [Piece.text, replacePiece, he, if_true, Hole.token]
        rw [← ih hps.2 hpl']
        exact this
      · have := replaceGo_miss x h.inner new (templateText ps) (fun hm => (hx _ hm).1 rfl)
          (fun hm => (hin _ hm).2.2.1 rfl) (fun hm => (hin _ hm).2.1 rfl) (fun e => he e.symm)
        simp only [Piece.text, replacePiece, he, if_false, Hole.token]
        rw [← ih hps.2 hpl']
        exact this

/-- A text that opens with a placeholder closes a `<` before it. -/
theorem closeToken_hole (h : Hole) (hs : ∀ x ∈ h.inner, x ≠ '>' ∧ x.toNat ≠ 10) (rest : Str) :
    closeToken (h.token ++ rest) ≠ none := by
  have e : h.token ++ rest = '<' :: (h.inner ++ '>' :: rest) := by
    simp [Hole.token]
  rw [e, closeToken_cons, if_neg (by decide), if_neg (by decide), closeToken_token _ _ hs]
  simp

/-- Replacing placeholders by literal text keeps a blocked `<` blocked. -/
theorem closeToken_map (f : Piece → Piece) (hlit : ∀ l, f (.lit l) = .lit l) (ps : List Piece)
    (hps : piecesScan ps) (h : closeToken (templateText ps) = none) :
    closeToken (templateText (ps.map f)) = none := by
  induction ps with
  | nil => exact h
  | cons p ps ih =>
    rw [templateText_cons] at h
    cases p with
    | lit l =>
      rw [List.map_cons, templateText_cons, hlit]
      exact closeToken_congr l _ _ h (ih hps.2)
    | hole h' => exact absurd h (closeToken_hole h' hps.1 _)

theorem blockedRun_congr (l X Y : Str) (h : blockedRun l X)
    (hXY : closeToken X = none → closeToken Y = none) : blockedRun l Y := by
  induction l with
  | nil => trivial
  | cons c cs ih => exact ⟨fun e => closeToken_congr cs X Y (h.1 e) hXY, ih h.2⟩

/-- The pieces stay what a scan finds when placeholders are replaced by text without `<`. -/
theorem piecesScan_map (f : Piece → Piece) (hlit : ∀ l, f (.lit l) = .lit l)
    (hhole : ∀ h, f (.hole h) = .hole h ∨ ∃ new, f (.hole h) = .lit new ∧ '<' ∉ new)
    (ps : List Piece) (hps : piecesScan ps) : piecesScan (ps.map f) := by
  induction ps with
  | nil => trivial
  | cons p ps ih =>
    cases p with
    | lit l =>
      rw [List.map_cons, hlit]
      exact ⟨blockedRun_congr l _ _ hps.1 (closeToken_map f hlit ps hps.2), ih hps.2⟩
    | hole h =>
      rw [List.map_cons]
      rcases hhole h with e | ⟨new, e, hn⟩
      · rw [e]
        exact ⟨hps.1, ih hps.2⟩
      · rw [e]
        exact ⟨blockedRun_of_no_lt new _ hn, ih hps.2⟩

theorem holes_map (f : Piece → Piece) (hlit : ∀ l, f (.lit l) = .lit l)
    (hhole : ∀ h, f (.hole h) = .hole h ∨ ∃ new, f (.hole h) = .lit new ∧ '<' ∉ new)
    (ps : List Piece) : ∀ h ∈ holesOf (ps.map f), h ∈ holesOf ps := by
  induction ps with
  | nil => intro h hm; exact hm
  | cons p ps ih =>
    intro h hm
    cases p with
    | lit l =>
      rw [List.map_cons, hlit, holesOf_cons_lit] at hm
      rw [holesOf_cons_lit]
      exact ih h hm
    | hole h' =>
      rw [List.map_cons] at hm
      rw [holesOf_cons_hole]
      rcases hhole h' with e | ⟨new, e, _⟩
      · rw [e, holesOf_cons_hole] at hm
        rcases List.mem_cons.mp hm with hm | hm
        · exact List.mem_cons.mpr (Or.inl hm)
        · exact List.mem_cons_of_mem _ (ih h hm)
      · rw [e, holesOf_cons_lit] at hm
        exact List.mem_cons_of_mem _ (ih h hm)

theorem replacePiece_lit (x new l : Str) : replacePiece x new (.lit l) = .lit l := rfl

theorem replacePiece_hole (x new : Str) (hn : '<' ∉ new) (h : Hole) :
    replacePiece x new (.hole h) = .hole h ∨
      ∃ new', replacePiece x new (.hole h) = .lit new' ∧ '<' ∉ new' := by
  by_cases e : h.inner = x
  · exact Or.inr ⟨new, by simp [replacePiece, e], hn⟩
  · exact Or.inl (by simp [replacePiece, e])

theorem quoteMeta_cons (c : Char) (cs : Str) :
    quoteMeta (c :: cs) =
      if c ∈ specialChars then '\\' :: c :: quoteMeta cs else c :: quoteMeta cs := rfl

/-- Escaping keeps a blocked `<` blocked. -/
theorem closeToken_quoteMeta (b X Y : Str) (h : closeToken (b ++ X) = none)
    (hXY : closeToken X = none → closeToken Y = none) :
    closeToken (quoteMeta b ++ Y) = none := by
  induction b with
  | nil => exact hXY h
  | cons c cs ih =>
    rw [List.cons_append, closeToken_cons] at h
    by_cases h1 : c = '>'
    · rw [if_pos h1] at h
      cases h
    · rw [if_neg h1] at h
      by_cases h2 : c.toNat = 10
      · have hsp : c ∉ specialChars := by
          intro hm
          simp only [specialChars, List.mem_cons, List.mem_singleton, List.mem_nil_iff,
            or_false] at hm
          rcases hm with e | e | e | e | e | e | e | e | e | e | e | e | e | e <;>
            (subst e; revert h2; decide)
        rw [quoteMeta_cons, if_neg hsp, List.cons_append, closeToken_cons, if_neg h1, if_pos h2]
      · rw [if_neg h2] at h
        have hcs : closeToken (cs ++ X) = none := by
          cases hc : closeToken (cs ++ X) with
          | none => rfl
          | some pr => rw [hc] at h; cases h
        have hin := ih hcs
        rw [quoteMeta_cons]
        by_cases hsp : c ∈ specialChars
        · rw [if_pos hsp]
          show closeToken ('\\' :: (c :: (quoteMeta cs ++ Y))) = none
          rw [closeToken_cons, if_neg (by decide), if_neg (by decide), closeToken_cons,
            if_neg h1, if_neg h2, hin]
        · rw [if_neg hsp]
          show closeToken (c :: (quoteMeta cs ++ Y)) = none
          rw [closeToken_cons, if_neg h1, if_neg h2, hin]

theorem blockedRun_quoteMeta (l X Y : Str) (h : blockedRun l X)
    (hXY : closeToken X = none → closeToken Y = none) : blockedRun (quoteMeta l) Y := by
  induction l with
  | nil => trivial
  | cons c cs ih =>
    rw [quoteMeta_cons]
    by_cases hsp : c ∈ specialChars
    · rw [if_pos hsp]
      refine ⟨fun e => absurd e (by decide), fun e => ?_, ih h.2⟩
      subst e
      exact absurd hsp (by decide)
    · rw [if_neg hsp]
      exact ⟨fun e => closeToken_quoteMeta cs X Y (h.1 e) hXY, ih h.2⟩

/-- Escaping a template escapes its literal runs and leaves its placeholders as they are. -/
theorem escape_scan (ps : List Piece) (hps : piecesScan ps)
    (hpl : ∀ h ∈ holesOf ps, h.plain = true) :
    quoteMeta (templateText ps) = templateText (ps.map escapePiece) ∧
      piecesScan (ps.map escapePiece) ∧ holesOf (ps.map escapePiece) = holesOf ps ∧
      (closeToken (templateText ps) = none →
        closeToken (templateText (ps.map escapePiece)) = none) := by
  induction ps with
  | nil => exact ⟨rfl, trivial, rfl, fun h => h⟩
  | cons p ps ih =>
    rw [List.map_cons, templateText_cons, templateText_cons, quoteMeta_append]
    cases p with
    | lit s =>
      rw [holesOf_cons_lit] at hpl
      obtain ⟨h1, h2, h3, h4⟩ := ih hps.2 hpl
      refine ⟨by rw [h1]; rfl, ⟨blockedRun_quoteMeta s _ _ hps.1 h4, h2⟩,
        by simp [escapePiece, holesOf, h3], fun hn => ?_⟩
      exact closeToken_quoteMeta s _ _ hn h4
    | hole h =>
      rw [holesOf_cons_hole] at hpl
      obtain ⟨h1, h2, h3, h4⟩ := ih hps.2 (fun h' hm => hpl h' (List.mem_cons_of_mem _ hm))
      refine ⟨by rw [h1]; simp [Piece.text, escapePiece,
          quoteMeta_token h (hpl h (List.mem_cons_self _ _))], ⟨hps.1, h2⟩,
        by simp [escapePiece, holesOf, h3], fun hn => ?_⟩
      exact absurd hn (closeToken_hole h hps.1 _)

theorem holeOf_inner (inner : Str) : (holeOf inner).inner = inner := by
  unfold holeOf
  by_cases h : ':' ∈ inner
  · rw [if_pos h]
    show inner.takeWhile (fun c => c != ':') ++ ':' :: (inner.dropWhile (fun c => c != ':')).tail
      = inner
    induction inner with
    | nil => simp at h
    | cons c cs ih =>
      by_cases hc : c = ':'
      · subst hc
        simp [List.takeWhile, List.dropWhile]
      · have hm : ':' ∈ cs := by
          rcases List.mem_cons.mp h with e | e
          · exact absurd e.symm hc
          · exact e
        have hb : (c != ':') = true := by simp [hc]
        simp only [List.takeWhile, List.dropWhile, hb, List.cons_append, ih hm]
  · rw [if_neg h]
    rfl

theorem tokenizeFuel_cons (n : Nat) (c : Char) (cs : Str) :
    tokenizeFuel (n + 1) (c :: cs) =
      if c = '<' then
        match closeToken cs with
        | some (inner, rest) => .hole (holeOf inner) :: tokenizeFuel n rest
        | none => .lit [c] :: tokenizeFuel n cs
      else .lit [c] :: tokenizeFuel n cs := rfl

/-- The tokens of the scan spell the text, and they are what the scan for placeholders finds. -/
theorem tokenizeFuel_spec (n : Nat) (text : Str) (hn : text.length ≤ n) :
    templateText (tokenizeFuel n text) = text ∧ piecesScan (tokenizeFuel n text) := by
  induction n generalizing text with
  | zero =>
    have : text = [] := List.eq_nil_of_length_eq_zero (by omega)
    subst this
    exact ⟨rfl, trivial⟩
  | succ n ih =>
    cases text with
    | nil => exact ⟨rfl, trivial⟩
    | cons c cs =>
      have hcs : cs.length ≤ n := by simpa using hn
      rw [tokenizeFuel_cons]
      by_cases hc : c = '<'
      · rw [if_pos hc]
        cases hct : closeToken cs with
        | none =>
          obtain ⟨h1, h2⟩ := ih cs hcs
          refine ⟨by rw [templateText_cons, h1]; rfl, ⟨fun _ => ?_, trivial⟩, h2⟩
          rw [h1]
          exact hct
        | some pr =>
          obtain ⟨inner, rest⟩ := pr
          obtain ⟨e1, e2⟩ := closeToken_some cs inner rest hct
          have hr : rest.length ≤ n := by
            have := congrArg List.length e1
            simp only [List.length_append, List.length_cons] at this
            omega
          obtain ⟨h1, h2⟩ := ih rest hr
          refine ⟨?_, ?_, h2⟩
          · simp only [templateText_cons, h1, Piece.text, Hole.token, holeOf_inner]
            rw [hc, e1]
            simp
          · rw [holeOf_inner]
            exact e2
      · rw [if_neg hc]
        obtain ⟨h1, h2⟩ := ih cs hcs
        exact ⟨by rw [templateText_cons, h1]; rfl, ⟨fun e => absurd e hc, trivial⟩, h2⟩

theorem joinRuns_lit (a : Str) (ps : List Piece) :
    joinRuns (.lit a :: ps) =
      match joinRuns ps with
      | .lit b :: qs => .lit (a ++ b) :: qs
      | qs => .lit a :: qs := rfl

/-- Joining literal characters into runs changes neither the text, nor the placeholders, nor the
expression text of the single pass. -/
theorem joinRuns_spec (types : Types) (escape : Bool) (ps : List Piece) :
    templateText (joinRuns ps) = templateText ps ∧ holesOf (joinRuns ps) = holesOf ps ∧
      expressionBody types escape (joinRuns ps) = expressionBody types escape ps := by
  induction ps with
  | nil => exact ⟨rfl, rfl, rfl⟩
  | cons p ps ih =>
    obtain ⟨h1, h2, h3⟩ := ih
    cases p with
    | hole h =>
      refine ⟨?_, ?_, ?_⟩
      · show templateText (.hole h :: joinRuns ps) = _
        rw [templateText_cons, templateText_cons, h1]
      · show holesOf (.hole h :: joinRuns ps) = _
        rw [holesOf_cons_hole, holesOf_cons_hole, h2]
      · show expressionBody types escape (.hole h :: joinRuns ps) = _
        simp only [expressionBody, h3]
    | lit a =>
      rw [joinRuns_lit]
      have eb : expressionBody types escape (.lit a :: ps) =
          (if escape then quoteMeta a else a) ++ expressionBody types escape ps := rfl
      rw [templateText_cons (.lit a) ps, holesOf_cons_lit a ps, eb, ← h1, ← h2, ← h3]
      cases hj : joinRuns ps with
      | nil => exact ⟨rfl, rfl, rfl⟩
      | cons q qs =>
        cases q with
        | hole h => exact ⟨rfl, rfl, rfl⟩
        | lit b =>
          refine ⟨?_, rfl, ?_⟩
          · simp [templateText_cons, Piece.text]
          · cases escape
            · simp [expressionBody]
            · simp [expressionBody, quoteMeta_append]

/-- For every template text, the occurrences that the scan of `parseParameters` finds are the
placeholders of the single left-to-right scan. -/
theorem occurrences_tokenize (text : Str) :
    occurrences goRegexp text = (holesOf (tokenize text)).map (fun h => [h.token, h.inner]) := by
  obtain ⟨h1, h2⟩ := tokenizeFuel_spec text.length text (le_refl _)
  have k2 : holesOf (tokenize text) = holesOf (tokenizeFuel text.length text) :=
    (joinRuns_spec [] false _).2.1
  have hocc := occurrences_scan _ h2
  rw [h1] at hocc
  rw [k2, hocc]

/-! ## The substitution and the single pass, for every engine -/

theorem replace_both_put (h : Hole) (new : Str) (hp : h.plain = true) (p : Piece)
    (hpl : ∀ h', p = .hole h' → h'.plain = true)
    (huniq : ∀ h', p = .hole h' → h'.name = h.name → h' = h) :
    replacePiece h.name new (replacePiece (h.name ++ ':' :: h.data) new p) = putPiece h new p := by
  cases p with
  | lit s => simp [replacePiece, putPiece]
  | hole h' =>
    by_cases e : h' = h
    · subst e
      simp only [putPiece, if_true]
      cases ht : h'.type with
      | none =>
        have h1 : h'.inner = h'.name := by simp [Hole.inner, ht]
        have h2 : ¬ h'.inner = h'.name ++ ':' :: h'.data := by
          rw [h1]; intro e; have := congrArg List.length e; simp at this
        simp [replacePiece, h1, h2]
      | some t =>
        have h1 : h'.inner = h'.name ++ ':' :: h'.data := by simp [Hole.inner, Hole.data, ht]
        simp [replacePiece, h1]
    · have hne : h'.name ≠ h.name := fun en => e (huniq h' rfl en)
      have h1 : ¬ h'.inner = h.name ++ ':' :: h.data :=
        fun e1 => hne (inner_eq_name h h' hp (hpl h' rfl) (Or.inl e1))
      have h2 : ¬ h'.inner = h.name :=
        fun e1 => hne (inner_eq_name h h' hp (hpl h' rfl) (Or.inr e1))
      have h3 : ¬ (Piece.hole h' = Piece.hole h) := fun e1 => e (by injection e1)
      simp [replacePiece, putPiece, h1, h2, h3]

theorem put_absent (h : Hole) (new : Str) (ps : List Piece) (hm : h ∉ holesOf ps) :
    ps.map (putPiece h new) = ps := by
  induction ps with
  | nil => rfl
  | cons p ps ih =>
    cases p with
    | lit s =>
      rw [holesOf_cons_lit] at hm
      simp [putPiece, ih hm]
    | hole h' =>
      rw [holesOf_cons_hole] at hm
      simp only [List.mem_cons, not_or] at hm
      have : ¬ (Piece.hole h' = Piece.hole h) := fun e => hm.1 (by injection e with e; exact e.symm)
      simp [putPiece, this, ih hm.2]

theorem put_holes (h : Hole) (new : Str) (hs : List Hole) (ps : List Piece)
    (hh : holesOf ps = h :: hs) (hm : h ∉ hs) : holesOf (ps.map (putPiece h new)) = hs := by
  induction ps with
  | nil => simp [holesOf] at hh
  | cons p ps ih =>
    cases p with
    | lit s =>
      rw [holesOf_cons_lit] at hh
      simp only [List.map_cons, putPiece, reduceCtorEq, if_false, holesOf_cons_lit]
      exact ih hh
    | hole h' =>
      rw [holesOf_cons_hole] at hh
      injection hh with h1 h2
      subst h1
      rw [← h2] at hm
      simp only [List.map_cons, putPiece, if_true, holesOf_cons_lit]
      rw [put_absent h' new ps hm, h2]

theorem put_group (types : Types) (h : Hole) (ps : List Piece) :
    (ps.map (putPiece h (groupText (registryFragment types h)))).map (groupPiece types) =
      ps.map (groupPiece types) := by
  induction ps with
  | nil => rfl
  | cons p ps ih =>
    simp only [List.map_cons, ih, List.cons.injEq, and_true]
    unfold putPiece
    split
    · rename_i e; subst e; rfl
    · rfl

theorem group_no_holes (types : Types) (ps : List Piece) (h : holesOf ps = []) :
    ps.map (groupPiece types) = ps := by
  induction ps with
  | nil => rfl
  | cons p ps ih =>
    cases p with
    | lit s => rw [holesOf_cons_lit] at h; simp [groupPiece, ih h]
    | hole h' => simp [holesOf] at h

theorem putPiece_lit (h : Hole) (new l : Str) : putPiece h new (.lit l) = .lit l := by
  simp [putPiece]

theorem putPiece_hole (h : Hole) (new : Str) (hn : '<' ∉ new) (h' : Hole) :
    putPiece h new (.hole h') = .hole h' ∨
      ∃ new', putPiece h new (.hole h') = .lit new' ∧ '<' ∉ new' := by
  by_cases e : Piece.hole h' = Piece.hole h
  · exact Or.inr ⟨new, by simp [putPiece, e], hn⟩
  · exact Or.inl (by simp [putPiece, e])

/-- The text of the pieces with every placeholder replaced by its group is the text of the single
pass. -/
theorem group_pieces (types : Types) (ps : List Piece) :
    templateText ((ps.map escapePiece).map (groupPiece types)) = passBody types true ps ∧
      templateText (ps.map (groupPiece types)) = passBody types false ps := by
  induction ps with
  | nil => exact ⟨rfl, rfl⟩
  | cons p ps ih =>
    simp only [List.map_cons, templateText_cons, ih.1, ih.2]
    cases p <;> simp [escapePiece, groupPiece, Piece.text, passBody]

theorem compiledFragment_source (E : Engine) (hE : E.Lawful) (types : Types) (h : Hole)
    (re : E.Regexp) (hc : compiledFragment E types h = some re) :
    E.source re = registryFragment types h := by
  unfold compiledFragment at hc
  unfold registryFragment
  cases hl : types.lookup h.data with
  | none => simp only [hl] at hc; cases hc
  | some f =>
    cases hcomp : E.compile f with
    | error e => simp only [hl, hcomp] at hc; cases hc
    | ok r =>
      simp only [hl, hcomp, Option.some.injEq] at hc
      subst hc
      exact hE f r hcomp

/-- The substitution loop of `makeExpression`, for any engine whose expressions give back their
source text, replaces every placeholder by the group of its registry fragment. -/
theorem substituteParams_engine (E : Engine) (hE : E.Lawful) (types : Types) (hs : List Hole)
    (ps : List Piece) (hh : holesOf ps = hs) (hps : piecesScan ps)
    (hpl : ∀ h ∈ holesOf ps, h.plain = true) (hnd : (hs.map Hole.name).Nodup)
    (hc : ∀ h ∈ hs, (compiledFragment E types h).isSome = true)
    (hlt : ∀ h ∈ hs, '<' ∉ registryFragment types h) :
    substituteParams (hs.map (engineParam E types)) (templateText ps) =
      .ok (templateText (ps.map (groupPiece types))) := by
  induction hs generalizing ps with
  | nil => simp [substituteParams, group_no_holes types ps hh]
  | cons h hs ih =>
    simp only [List.map_cons, List.nodup_cons] at hnd
    have hmem : h ∈ holesOf ps := by rw [hh]; simp
    have hpl1 : h.plain = true := hpl h hmem
    have hnot : h ∉ hs := fun hm => hnd.1 (List.mem_map_of_mem Hole.name hm)
    obtain ⟨re, hre⟩ := Option.isSome_iff_exists.mp (hc h (List.mem_cons_self _ _))
    have hsrc : E.source re = registryFragment types h :=
      compiledFragment_source E hE types h re hre
    have hfl : '<' ∉ registryFragment types h := hlt h (List.mem_cons_self _ _)
    have hname : ∀ c ∈ h.name, c ≠ '>' ∧ c.toNat ≠ 10 := fun c hc =>
      ⟨(nameChar_facts _ (h.plain_name hpl1 _ hc)).2.2.1,
        (nameChar_facts _ (h.plain_name hpl1 _ hc)).2.2.2.2⟩
    have hlong : ∀ c ∈ h.name ++ ':' :: h.data, c ≠ '>' ∧ c.toNat ≠ 10 := by
      intro c hm
      simp only [List.mem_append, List.mem_cons] at hm
      rcases hm with hm | hm | hm
      · exact hname c hm
      · subst hm
        exact ⟨by decide, by decide⟩
      · exact ⟨(nameChar_facts _ (h.plain_data hpl1 _ hm)).2.2.1,
          (nameChar_facts _ (h.plain_data hpl1 _ hm)).2.2.2.2⟩
    have hgroup : '<' ∉ groupText (registryFragment types h) := by simp [groupText, hfl]
    have hstep : ps.map (fun p => replacePiece h.name (groupText (registryFragment types h))
        (replacePiece (h.name ++ ':' :: h.data) (groupText (registryFragment types h)) p)) =
        ps.map (putPiece h (groupText (registryFragment types h))) := by
      apply List.map_congr_left
      intro p hp
      apply replace_both_put h _ hpl1 p
      · intro h' e
        subst e
        exact hpl h' ((mem_holesOf ps h').2 hp)
      · intro h' e en
        subst e
        have hm' : h' ∈ h :: hs := by rw [← hh]; exact (mem_holesOf ps h').2 hp
        rcases List.mem_cons.mp hm' with hm' | hm'
        · exact hm'
        · exact absurd (en ▸ List.mem_map_of_mem Hole.name hm') hnd.1
    have hscan1 : piecesScan (ps.map (replacePiece (h.name ++ ':' :: h.data)
        (groupText (registryFragment types h)))) :=
      piecesScan_map _ (replacePiece_lit _ _) (replacePiece_hole _ _ hgroup) ps hps
    have hpl2 : ∀ h' ∈ holesOf (ps.map (replacePiece (h.name ++ ':' :: h.data)
        (groupText (registryFragment types h)))), h'.plain = true :=
      fun h' hm => hpl h' (holes_map _ (replacePiece_lit _ _) (replacePiece_hole _ _ hgroup) ps
        h' hm)
    have hsub : substituteParams (engineParam E types h :: hs.map (engineParam E types))
        (templateText ps) =
        substituteParams (hs.map (engineParam E types))
          (stringsReplace (stringsReplace (templateText ps) (longToken h.name h.data)
            (groupText (E.source re))) (shortToken h.name) (groupText (E.source re))) := by
      simp only [substituteParams, Parameter.Expression, engineParam, hre, Parameter.Name,
        Parameter.Data]
    have e1 : longToken h.name h.data = '<' :: (h.name ++ ':' :: h.data) ++ ['>'] := by
      simp [longToken]
    have e2 : shortToken h.name = '<' :: h.name ++ ['>'] := rfl
    rw [List.map_cons, hsub, hsrc, e1, e2, replace_pieces_scan _ _ hlong ps hps hpl,
      replace_pieces_scan _ _ hname _ hscan1 hpl2, List.map_map]
    rw [show (replacePiece h.name (groupText (registryFragment types h)) ∘
        replacePiece (h.name ++ ':' :: h.data) (groupText (registryFragment types h))) =
        (fun p => replacePiece h.name (groupText (registryFragment types h))
          (replacePiece (h.name ++ ':' :: h.data) (groupText (registryFragment types h)) p))
        from rfl, hstep]
    rw [ih (ps.map (putPiece h (groupText (registryFragment types h))))
      (put_holes h _ hs ps hh hnot)
      (piecesScan_map _ (putPiece_lit h _) (putPiece_hole h _ hgroup) ps hps)
      (fun h' hm => hpl h' (holes_map _ (putPiece_lit h _) (putPiece_hole h _ hgroup) ps h' hm))
      hnd.2 (fun h' hm => hc h' (List.mem_cons_of_mem _ hm))
      (fun h' hm => hlt h' (List.mem_cons_of_mem _ hm)), put_group]

/-- The text that the substitution loop of `makeExpression` ends with is the text of the single
pass over the pieces. -/
theorem substitute_engine (E : Engine) (hE : E.Lawful) (types : Types) (escape : Bool)
    (ps : List Piece) (hps : piecesScan ps) (hpl : ∀ h ∈ holesOf ps, h.plain = true)
    (hnd : ((holesOf ps).map Hole.name).Nodup)
    (hc : ∀ h ∈ holesOf ps, (compiledFragment E types h).isSome = true)
    (hlt : ∀ h ∈ holesOf ps, '<' ∉ registryFragment types h) :
    substituteParams ((holesOf ps).map (engineParam E types))
      (if escape then quoteMeta (templateText ps) else templateText ps) =
      .ok (passBody types escape ps) := by
  cases escape with
  | false =>
    simp only [Bool.false_eq_true, if_false]
    rw [substituteParams_engine E hE types _ ps rfl hps hpl hnd hc hlt, (group_pieces types ps).2]
  | true =>
    obtain ⟨h1, h2, h3, _⟩ := escape_scan ps hps hpl
    simp only [if_true]
    rw [h1, ← h3, substituteParams_engine E hE types _ (ps.map escapePiece) rfl h2
      (by rw [h3]; exact hpl) (by rw [h3]; exact hnd) (by rw [h3]; exact hc)
      (by rw [h3]; exact hlt), (group_pieces types ps).1]

/-- What `Parse` makes, for any engine, of the inner text of a plain placeholder whose type is in
the registry: a parameter when the engine compiles the fragment, a panic of
`regexp.MustCompile` when it does not. -/
theorem Parse_engine (E : Engine) (types : Types) (h : Hole) (hp : h.plain = true) (f : Str)
    (hf : types.lookup h.data = some f) :
    Parse E h.inner types =
      if (compiledFragment E types h).isSome then .ok (engineParam E types h)
      else .panic .mustCompile := by
  have hin := h.plain_inner hp
  have hlt : '<' ∉ h.inner := fun hm => (hin _ hm).2.1 rfl
  have hgt : '>' ∉ h.inner := fun hm => (hin _ hm).2.2.1 rfl
  have hname := h.name_no_colon hp
  have hX : Expression E h.data types =
      if (compiledFragment E types h).isSome then .ok (compiledFragment E types h)
      else .panic .mustCompile := by
    unfold Expression compiledFragment
    simp only [hf]
    cases hcomp : E.compile f <;> simp
  have hR : (match Expression E h.data types with
      | .ok regex => Outcome.ok (NewParameterWithType E h.name h.data regex)
      | .error e => .error e
      | .panic k => .panic k) =
      if (compiledFragment E types h).isSome then .ok (engineParam E types h)
      else .panic .mustCompile := by
    rw [hX]
    cases (compiledFragment E types h).isSome <;> rfl
  unfold Parse
  simp only [stringsReplace_absent _ _ hlt, stringsReplace_absent _ _ hgt]
  cases ht : h.type with
  | none =>
    have hi : h.inner = h.name := by simp [Hole.inner, ht]
    have hd : h.data = defaultType := by simp [Hole.data, ht]
    rw [hd] at hR
    simp only [hi, hname, if_false]
    exact hR
  | some t =>
    have hi : h.inner = h.name ++ ':' :: t := by simp [Hole.inner, ht]
    have hd : h.data = t := by simp [Hole.data, ht]
    have htc : ':' ∉ t := by
      intro hm
      exact (nameChar_facts _ (h.plain_data hp _ (hd ▸ hm))).2.2.2.1 rfl
    rw [hd] at hR hf
    have hmem : ':' ∈ h.name ++ ':' :: t := by simp
    simp only [hi, hmem, if_true, stringsSplit_pair _ _ hname htc, sliceIndex_pair_zero,
      sliceIndex_one_pair, hf, Option.isSome_some]
    exact hR

/-- The loop of `parseParameters`, for any engine, over plain placeholders with pairwise distinct
names and types of the registry whose fragments the engine compiles. -/
theorem parseParametersLoop_engine (E : Engine) (types : Types) (hs : List Hole)
    (hpl : ∀ h ∈ hs, h.plain = true)
    (hreg : ∀ h ∈ hs, (types.lookup h.data).isSome = true)
    (hc : ∀ h ∈ hs, (compiledFragment E types h).isSome = true)
    (hnd : (hs.map Hole.name).Nodup) (list : List (Parameter E)) (namesSet : List Str)
    (hdis : ∀ h ∈ hs, h.name ∉ namesSet) :
    parseParametersLoop E types (hs.map (fun h => [h.token, h.inner])) list namesSet =
      .ok (list ++ hs.map (engineParam E types)) := by
  induction hs generalizing list namesSet with
  | nil => simp [parseParametersLoop]
  | cons h hs ih =>
    simp only [List.map_cons, List.nodup_cons] at hnd
    obtain ⟨f, hf⟩ := Option.isSome_iff_exists.mp (hreg h (List.mem_cons_self _ _))
    have hP := Parse_engine E types h (hpl h (List.mem_cons_self _ _)) f hf
    rw [if_pos (hc h (List.mem_cons_self _ _))] at hP
    have hnot : (engineParam E types h).name ∉ namesSet := hdis h (List.mem_cons_self _ _)
    simp only [List.map_cons, parseParametersLoop, List.length_cons, List.length_nil,
      sliceIndex_one_pair, hP, hnot, if_false]
    simp only [ne_eq, not_true_eq_false, if_false]
    rw [ih (fun x hx => hpl x (List.mem_cons_of_mem _ hx))
      (fun x hx => hreg x (List.mem_cons_of_mem _ hx))
      (fun x hx => hc x (List.mem_cons_of_mem _ hx)) hnd.2]
    · simp
    · intro x hx hm
      rcases List.mem_cons.mp hm with e | e
      · exact hnd.1 (by
          have : x.name = h.name := e
          rw [← this]
          exact List.mem_map_of_mem Hole.name hx)
      · exact hdis x (List.mem_cons_of_mem _ hx) e

/-- The same loop when the engine refuses the fragment of one of the placeholders: `Parse`
panics in `regexp.MustCompile` at the first such placeholder. -/
theorem parseParametersLoop_panics (E : Engine) (types : Types) (hs : List Hole)
    (hpl : ∀ h ∈ hs, h.plain = true)
    (hreg : ∀ h ∈ hs, (types.lookup h.data).isSome = true)
    (hc : ∃ h ∈ hs, compiledFragment E types h = none)
    (hnd : (hs.map Hole.name).Nodup) (list : List (Parameter E)) (namesSet : List Str)
    (hdis : ∀ h ∈ hs, h.name ∉ namesSet) :
    parseParametersLoop E types (hs.map (fun h => [h.token, h.inner])) list namesSet =
      .panic .mustCompile := by
  induction hs generalizing list namesSet with
  | nil =>
    obtain ⟨h, hm, _⟩ := hc
    simp at hm
  | cons h hs ih =>
    simp only [List.map_cons, List.nodup_cons] at hnd
    obtain ⟨f, hf⟩ := Option.isSome_iff_exists.mp (hreg h (List.mem_cons_self _ _))
    have hP := Parse_engine E types h (hpl h (List.mem_cons_self _ _)) f hf
    cases hcf : compiledFragment E types h with
    | none =>
      rw [hcf] at hP
      simp only [Option.isSome_none, Bool.false_eq_true, if_false] at hP
      simp only [List.map_cons, parseParametersLoop, List.length_cons, List.length_nil,
        sliceIndex_one_pair, hP]
      simp only [ne_eq, not_true_eq_false, if_false]
    | some re =>
      have hsome : (compiledFragment E types h).isSome = true := by rw [hcf]; rfl
      rw [if_pos hsome] at hP
      have hnot : (engineParam E types h).name ∉ namesSet := hdis h (List.mem_cons_self _ _)
      have hc' : ∃ h' ∈ hs, compiledFragment E types h' = none := by
        obtain ⟨h', hm, hn⟩ := hc
        rcases List.mem_cons.mp hm with e | e
        · rw [e, hcf] at hn
          cases hn
        · exact ⟨h', e, hn⟩
      simp only [List.map_cons, parseParametersLoop, List.length_cons, List.length_nil,
        sliceIndex_one_pair, hP, hnot, if_false]
      simp only [ne_eq, not_true_eq_false, if_false]
      apply ih (fun x hx => hpl x (List.mem_cons_of_mem _ hx))
        (fun x hx => hreg x (List.mem_cons_of_mem _ hx)) hc' hnd.2
      intro x hx hm
      rcases List.mem_cons.mp hm with e | e
      · exact hnd.1 (by
          have : x.name = h.name := e
          rw [← this]
          exact List.mem_map_of_mem Hole.name hx)
      · exact hdis x (List.mem_cons_of_mem _ hx) e

/-- Joining literal characters into runs does not change the text of the single pass. -/
theorem joinRuns_pass (types : Types) (escape : Bool) (ps : List Piece) :
    passBody types escape (joinRuns ps) = passBody types escape ps := by
  induction ps with
  | nil => rfl
  | cons p ps ih =>
    cases p with
    | hole h =>
      show passBody types escape (.hole h :: joinRuns ps) = _
      simp only [passBody, ih]
    | lit a =>
      rw [joinRuns_lit]
      have eb : passBody types escape (.lit a :: ps) =
          (if escape then quoteMeta a else a) ++ passBody types escape ps := rfl
      rw [eb, ← ih]
      cases hj : joinRuns ps with
      | nil => rfl
      | cons q qs =>
        cases q with
        | hole h => rfl
        | lit b =>
          cases escape
          · simp [passBody]
          · simp [passBody, quoteMeta_append]

theorem goRegexpWith_lawful (extra : List Str) : (goRegexpWith extra).Lawful := by
  intro s r h
  have h' : (match parseRe s with
      | .ok re => (Except.ok ⟨s, re⟩ : Except RegexError GoRegexp)
      | .error e => if s ∈ extra then .ok ⟨s, .empty⟩ else .error e) = .ok r := h
  cases hp : parseRe s with
  | ok re =>
    rw [hp] at h'
    cases h'
    rfl
  | error e =>
    rw [hp] at h'
    simp only at h'
    split at h'
    · cases h'
      rfl
    · cases h'

theorem goRegexpWith_scans (extra : List Str) (text : Str) :
    (goRegexpWith extra).scansAsModel text :=
  ⟨⟨placeholderPattern, scanRe⟩, rfl, rfl⟩

theorem goRegexp_scans (text : Str) : goRegexp.scansAsModel text :=
  ⟨⟨placeholderPattern, scanRe⟩, rfl, rfl⟩

/-- C18: for every engine whose expressions give back their source text and which finds in the
template text the occurrences that the model of the scan `<(.*?)>` finds, every mode, every
template text whose placeholders, as a single left-to-right scan finds them, have names and type
names made of name characters (letters and digits are such) and pairwise distinct names, and
every registry, nil or not, that has a fragment without `<` for each of their types: the
occurrences are exactly these placeholders; when the engine refuses one of the fragments,
compiling panics in `regexp.MustCompile` and makes no expression; otherwise the text that
`makeExpression` ends with after its replacements over the whole text is the text of the single
pass, literal runs (escaped when `escape` is set) and `(fragment)` for each placeholder, left to
right, and the expression that is compiled is this text between `^` and `$`. -/
theorem substitution_is_single_pass (E : Engine) (hE : E.Lawful) (types : Option Types)
    (escape : Bool) (text : Str) (hscan : E.scansAsModel text)
    (hpl : ∀ h ∈ holesOf (tokenize text), h.plain = true)
    (hnd : ((holesOf (tokenize text)).map Hole.name).Nodup)
    (hreg : ∀ h ∈ holesOf (tokenize text), ((registryOf types).lookup h.data).isSome = true ∧
      '<' ∉ registryFragment (registryOf types) h) :
    templateText (tokenize text) = text ∧
    occurrences E text = (holesOf (tokenize text)).map (fun h => [h.token, h.inner]) ∧
    ((∃ h ∈ holesOf (tokenize text), compiledFragment E (registryOf types) h = none) →
      makeCommand E text escape types = .panic .mustCompile) ∧
    ((∀ h ∈ holesOf (tokenize text),
        (compiledFragment E (registryOf types) h).isSome = true) →
      parseParameters E text (registryOf types) =
        .ok ((holesOf (tokenize text)).map (engineParam E (registryOf types))) ∧
      substituteParams ((holesOf (tokenize text)).map (engineParam E (registryOf types)))
        (if escape then quoteMeta text else text) =
        .ok (passBody (registryOf types) escape (tokenize text)) ∧
      (∀ regex, E.compile (singlePass (registryOf types) escape text) = .ok regex →
        makeCommand E text escape types =
          .ok ⟨text, escape,
            (holesOf (tokenize text)).map (engineParam E (registryOf types)), regex⟩ ∧
        E.source regex = singlePass (registryOf types) escape text) ∧
      (∀ err, E.compile (singlePass (registryOf types) escape text) = .error err →
        makeCommand E text escape types = .error (.regex err))) := by
  obtain ⟨h1, h2⟩ := tokenizeFuel_spec text.length text (le_refl _)
  have k1 : templateText (tokenize text) = templateText (tokenizeFuel text.length text) :=
    (joinRuns_spec [] escape _).1
  have k2 : holesOf (tokenize text) = holesOf (tokenizeFuel text.length text) :=
    (joinRuns_spec [] escape _).2.1
  have k3 : passBody (registryOf types) escape (tokenize text) =
      passBody (registryOf types) escape (tokenizeFuel text.length text) :=
    joinRuns_pass (registryOf types) escape _
  obtain ⟨re, hcomp, hfind⟩ := hscan
  have hocc : occurrences E text = (holesOf (tokenize text)).map (fun h => [h.token, h.inner]) := by
    unfold occurrences
    rw [hcomp]
    exact hfind.trans (occurrences_tokenize text)
  have hfind' : E.findAllStringSubmatch re text =
      (holesOf (tokenize text)).map (fun h => [h.token, h.inner]) :=
    hfind.trans (occurrences_tokenize text)
  have hpar : parseParameters E text (registryOf types) =
      parseParametersLoop E (registryOf types)
        ((holesOf (tokenize text)).map (fun h => [h.token, h.inner])) [] [] := by
    unfold parseParameters
    simp only [hcomp, hfind']
  refine ⟨k1.trans h1, hocc, ?_, ?_⟩
  · intro hbad
    unfold makeCommand
    simp only [hpar, parseParametersLoop_panics E (registryOf types) _ hpl
      (fun h hm => (hreg h hm).1) hbad hnd [] [] (by simp)]
  · intro hc
    have hpar' : parseParameters E text (registryOf types) =
        .ok ((holesOf (tokenize text)).map (engineParam E (registryOf types))) := by
      rw [hpar, parseParametersLoop_engine E (registryOf types) _ hpl
        (fun h hm => (hreg h hm).1) hc hnd [] [] (by simp)]
      simp
    have hsub : substituteParams ((holesOf (tokenize text)).map (engineParam E (registryOf types)))
        (if escape then quoteMeta text else text) =
        .ok (passBody (registryOf types) escape (tokenize text)) := by
      have := substitute_engine E hE (registryOf types) escape _ h2 (k2 ▸ hpl) (k2 ▸ hnd)
        (k2 ▸ hc) (fun h hm => (hreg h (k2 ▸ hm)).2)
      rw [h1] at this
      rw [k2, k3]
      exact this
    refine ⟨hpar', hsub, ?_, ?_⟩
    · intro regex hr
      refine ⟨?_, hE _ regex hr⟩
      unfold singlePass at hr
      unfold makeCommand makeExpression
      simp only [hpar', hsub, hr]
    · intro err hr
      unfold singlePass at hr
      unfold makeCommand makeExpression
      simp only [hpar', hsub, hr]

theorem substitution_is_single_pass_witness :
    pinEngine.Lawful ∧ pinEngine.scansAsModel pinTemplate ∧
    (∀ h ∈ holesOf (tokenize pinTemplate), h.plain = true) ∧
    ((holesOf (tokenize pinTemplate)).map Hole.name).Nodup ∧
    (∀ h ∈ holesOf (tokenize pinTemplate),
      ((registryOf (some pinRegistry)).lookup h.data).isSome = true ∧
      '<' ∉ registryFragment (registryOf (some pinRegistry)) h) ∧
    tokenize pinTemplate =
      [.lit "open <\n[x] ".toList, .hole ⟨"door".toList, none⟩, .lit " ".toList,
        .hole ⟨"code".toList, some "pin".toList⟩, .lit " <".toList] ∧
    singlePass pinRegistry true pinTemplate =
      "^open <\n\\[x\\] ([^\\s]+) ([0-9]{4}) <$".toList ∧
    ∃ c, NewWithEscaping pinEngine pinTemplate (some pinRegistry) = .ok c ∧
      pinEngine.source c.Expression = singlePass pinRegistry true pinTemplate :=
  ⟨goRegexpWith_lawful _, goRegexpWith_scans _ _, by decide, by decide, by decide, by decide,
    by decide,
    ⟨_, (((substitution_is_single_pass pinEngine (goRegexpWith_lawful _) (some pinRegistry) true
      pinTemplate (goRegexpWith_scans _ _) (by decide) (by decide) (by decide)).2.2.2
        (by decide)).2.2.1 ⟨"^open <\n\\[x\\] ([^\\s]+) ([0-9]{4}) <$".toList, .empty⟩ rfl).1,
      rfl⟩⟩

end Allot
